import Mathlib

/-!
# Verification of tfhfs core claims against a shallow embedding

This file embeds the parts of the tfhfs source (btree.py, bloom.py,
storage.py, inode.py, forest.py, forest_file.py, endecode.py, util.py)
that the claims C1..C10 are about, and proves or refutes each claim.

Conventions used throughout:

* Python `bytes` values are embedded as `List Nat` (each element a byte
  value); Python slices `s[a:b]` (with non-negative bounds, the only form
  the embedded code produces on the verified execution paths) become
  `(s.take b).drop a`.
* Python dictionaries keyed by block keys / names become association
  lists with unique keys.
* Python methods that mutate `self` become functions from the state to
  the new state; methods that can fail an `assert` (or raise `KeyError`
  and similar) return `Option` and yield `none` exactly on those paths.
* Unbounded `while` loops become fuel-indexed recursions; the theorems
  are proved for every fuel value (or every sufficient fuel value), so
  they apply to whatever number of iterations the Python loop performs.
-/

namespace Tfhfs

/-- Byte strings (`bytes` in the source). -/
abbrev Bytes := List Nat

/-- Python slice `s[a:b]` for `0 ≤ a`, `0 ≤ b` (the embedded code only
produces non-negative slice bounds on the verified paths). -/
def pySlice (a b : Nat) (s : Bytes) : Bytes := (s.take b).drop a

/-- `util.zeropad_bytes(size, s)`: pad `s` with zero bytes up to `size`. -/
def zeropad_bytes (size : Nat) (s : Bytes) : Bytes :=
  s ++ List.replicate (size - s.length) 0

theorem pySlice_length (a b : Nat) (s : Bytes) :
    (pySlice a b s).length = min b s.length - a := by
  simp [pySlice]

theorem zeropad_bytes_length (size : Nat) (s : Bytes) :
    (zeropad_bytes size s).length = max size s.length := by
  simp [zeropad_bytes]
  omega

end Tfhfs

/-! ## Bloom filter (bloom.py) -/

namespace Tfhfs.Bloom

/-- One `AbstractBloom` instance without its `old` chain: `m` bit
positions, `k` probes per object, the set of set bit positions
(`add_bit`/`has_bit` of the two concrete subclasses `BigIntBloom` and
`IntArrayBloom` both realize a plain set of bit positions) and the
`set_bits` counter. -/
structure Frame where
  m : Nat
  k : Nat
  bits : List Nat
  setBits : Nat

/-- `AbstractBloom` from bloom.py: the current filter plus the chain of
`old` filters built by `grow` (an empty chain is Python's `old = None`;
a nonempty chain's head is the immediate `old` filter). -/
structure Filter where
  cur : Frame
  old : List Frame

/-- `has_bit(v)`: is bit position `v` set (`BigIntBloom.has_bit` /
`IntArrayBloom.has_bit` both just test one bit of the stored bit set). -/
def hasBit (bits : List Nat) (v : Nat) : Bool := bits.contains v

/-- `AbstractBloom.set_bit(v)`: reduce `v` modulo `m`; if the bit is
already set do nothing, otherwise bump `set_bits` and set the bit. -/
def Frame.setBit (fr : Frame) (v : Nat) : Frame :=
  let v := v % fr.m
  if hasBit fr.bits v then fr
  else { fr with bits := v :: fr.bits, setBits := fr.setBits + 1 }

/-- `AbstractBloom.add(o)` with a deterministic hasher (`hasher o i` is
the `i`-th value of the hash iterator `hasher(o)`): set the bit for each
of the `k` successive hash values of `o`. -/
def Filter.add {α : Type} (hasher : α → Nat → Nat) (f : Filter) (o : α) : Filter :=
  { f with cur := (List.range f.cur.k).foldl (fun acc i => acc.setBit (hasher o i)) f.cur }

/-- The `k` probes of `AbstractBloom.has(o)` against one frame: does any
of the `k` hash values, reduced modulo `m`, hit a set bit? -/
def Frame.probes {α : Type} (hasher : α → Nat → Nat) (fr : Frame) (o : α) : Bool :=
  (List.range fr.k).any (fun i => hasBit fr.bits (hasher o i % fr.m))

/-- `AbstractBloom.has(o)` along the `old` chain (Python returns `None`,
which is falsy, once the chain runs out). -/
def hasChain {α : Type} (hasher : α → Nat → Nat) : List Frame → α → Bool
  | [], _ => false
  | fr :: rest, o => if fr.probes hasher o then true else hasChain hasher rest o

/-- `AbstractBloom.has(o)`: probe the `k` hash values modulo `m`; if any
probed bit is set report membership, otherwise fall through to the
chained `old` filter. -/
def Filter.has {α : Type} (hasher : α → Nat → Nat) (f : Filter) (o : α) : Bool :=
  if f.cur.probes hasher o then true else hasChain hasher f.old o

theorem setBit_m (fr : Frame) (v : Nat) : (fr.setBit v).m = fr.m := by
  unfold Frame.setBit
  by_cases h : hasBit fr.bits (v % fr.m) <;> simp [h]

theorem setBit_k (fr : Frame) (v : Nat) : (fr.setBit v).k = fr.k := by
  unfold Frame.setBit
  by_cases h : hasBit fr.bits (v % fr.m) <;> simp [h]

theorem hasBit_setBit_self (fr : Frame) (v : Nat) :
    hasBit (fr.setBit v).bits (v % fr.m) = true := by
  unfold Frame.setBit
  by_cases h : hasBit fr.bits (v % fr.m) <;> simp_all [hasBit, List.contains]

theorem hasBit_setBit_mono (fr : Frame) (v w : Nat)
    (h : hasBit fr.bits w = true) : hasBit (fr.setBit v).bits w = true := by
  unfold Frame.setBit
  by_cases hb : hasBit fr.bits (v % fr.m) <;> simp_all [hasBit, List.contains]

theorem foldl_setBit_m {α : Type} (hasher : α → Nat → Nat) (o : α)
    (l : List Nat) (fr : Frame) :
    (l.foldl (fun acc i => acc.setBit (hasher o i)) fr).m = fr.m := by
  induction l generalizing fr with
  | nil => rfl
  | cons i t ih => simpa [setBit_m] using ih (fr.setBit (hasher o i))

theorem foldl_setBit_k {α : Type} (hasher : α → Nat → Nat) (o : α)
    (l : List Nat) (fr : Frame) :
    (l.foldl (fun acc i => acc.setBit (hasher o i)) fr).k = fr.k := by
  induction l generalizing fr with
  | nil => rfl
  | cons i t ih => simpa [setBit_k] using ih (fr.setBit (hasher o i))

theorem foldl_bit_mono {α : Type} (hasher : α → Nat → Nat) (o : α) :
    ∀ (l : List Nat) (fr : Frame) (w : Nat), hasBit fr.bits w = true →
      hasBit ((l.foldl (fun acc i => acc.setBit (hasher o i)) fr).bits) w = true := by
  intro l
  induction l with
  | nil => intro fr w h; simpa using h
  | cons a b ihb =>
    intro fr w h
    exact ihb (fr.setBit (hasher o a)) w (hasBit_setBit_mono fr _ w h)

theorem foldl_setBit_hits {α : Type} (hasher : α → Nat → Nat) (o : α)
    (l : List Nat) (fr : Frame) (i : Nat) (hi : i ∈ l) :
    hasBit ((l.foldl (fun acc i => acc.setBit (hasher o i)) fr).bits)
      (hasher o i % fr.m) = true := by
  induction l generalizing fr with
  | nil => cases hi
  | cons j t ih =>
    rcases List.mem_cons.mp hi with h | h
    · subst h
      exact foldl_bit_mono hasher o t (fr.setBit (hasher o i)) (hasher o i % fr.m)
        (hasBit_setBit_self fr (hasher o i))
    · simpa [setBit_m] using ih (fr.setBit (hasher o j)) h

/-- C10: for a deterministic hasher, `AbstractBloom.has(o)` is truthy iff
at least one of the `k` probed bit positions (each hash value reduced
modulo `m`) is set, or the chained `old` filter reports `o`; and after
`add(o)` (with `k > 0`, as asserted by the constructor) `has(o)` is
always truthy — no false negatives.  A single set bit among the `k`
probes already makes `has` report membership (the left-to-right
instantiation of the disjunction at one witness probe). -/
theorem C10_bloom_has_add {α : Type} (hasher : α → Nat → Nat) (f : Filter)
    (o : α) (hk : 0 < f.cur.k) :
    (f.has hasher o = true ↔
      ((∃ i < f.cur.k, hasBit f.cur.bits (hasher o i % f.cur.m) = true) ∨
        hasChain hasher f.old o = true)) ∧
    (f.add hasher o).has hasher o = true := by
  constructor
  · unfold Filter.has Frame.probes
    by_cases h : (List.range f.cur.k).any
        (fun i => hasBit f.cur.bits (hasher o i % f.cur.m)) = true
    · rw [if_pos h]
      constructor
      · intro _
        left
        rcases List.any_eq_true.mp h with ⟨i, hi, hb⟩
        exact ⟨i, List.mem_range.mp hi, hb⟩
      · intro _; rfl
    · rw [if_neg h]
      constructor
      · intro hc; right; exact hc
      · intro hx
        rcases hx with ⟨i, hik, hb⟩ | hc
        · exact absurd (List.any_eq_true.mpr ⟨i, List.mem_range.mpr hik, hb⟩) h
        · exact hc
  · unfold Filter.has
    rw [if_pos]
    unfold Frame.probes Filter.add
    apply List.any_eq_true.mpr
    refine ⟨0, ?_, ?_⟩
    · simp only [foldl_setBit_k]
      exact List.mem_range.mpr hk
    · rw [foldl_setBit_m]
      exact foldl_setBit_hits hasher o (List.range f.cur.k) f.cur 0
        (List.mem_range.mpr hk)

/-- Witness for C10 at a concrete filter (`m = 5`, `k = 2`, empty bit
set, no old chain) and the hasher `fun o i => o + i` at `o = 7`. -/
theorem C10_bloom_has_add_witness :
    0 < (Filter.mk (Frame.mk 5 2 [] 0) []).cur.k ∧
    (((Filter.mk (Frame.mk 5 2 [] 0) []).has (fun (o : Nat) i => o + i) 7 = true ↔
      ((∃ i < (Filter.mk (Frame.mk 5 2 [] 0) []).cur.k,
          hasBit (Filter.mk (Frame.mk 5 2 [] 0) []).cur.bits
            ((7 + i) % (Filter.mk (Frame.mk 5 2 [] 0) []).cur.m) = true) ∨
        hasChain (fun (o : Nat) i => o + i)
          (Filter.mk (Frame.mk 5 2 [] 0) []).old 7 = true)) ∧
    ((Filter.mk (Frame.mk 5 2 [] 0) []).add (fun (o : Nat) i => o + i) 7).has
      (fun (o : Nat) i => o + i) 7 = true) :=
  ⟨by decide, C10_bloom_has_add (fun (o : Nat) i => o + i)
    (Filter.mk (Frame.mk 5 2 [] 0) []) 7 (by decide)⟩

end Tfhfs.Bloom

/-! ## B+ tree sibling choice on merge (btree.py `TreeNode.remove_child`) -/

namespace Tfhfs.BtreeMerge

/-- Which sibling of an under-sized node receives its remaining
children on merge: the smaller-key sibling (`get_smaller_sib`, the
variable `sib` in `remove_child`) or the larger-key sibling
(`get_larger_sib`, the variable `sib2`). -/
inductive SibSide where
  | smaller
  | larger
deriving DecidableEq, Repr

/-- Direct translation of the merge-destination selection in
`TreeNode.remove_child` (btree.py lines 259-267), applied once borrowing
has failed.  Each present sibling is represented by its `csize`.  The
source reads:

    if not sib and not sib2:
        return
    if sib and sib2:
        if sib.csize > sib2.csize:
            sib = sib
    elif sib2:
        sib = sib2

so when both siblings exist the branch `sib = sib` is a no-op and the
destination is always the smaller-key sibling `sib`, whatever the two
`csize`s are. -/
def mergeDestination (sib sib2 : Option Nat) : Option (SibSide × Nat) :=
  match sib, sib2 with
  | none, none => none
  | some c, some c2 =>
      if c > c2 then some (SibSide.smaller, c) else some (SibSide.smaller, c)
  | none, some c2 => some (SibSide.larger, c2)
  | some c, none => some (SibSide.smaller, c)

/-- C3 failing input, evaluated on the code: with both siblings present,
smaller-key sibling `csize = 10` and larger-key sibling `csize = 20`,
`remove_child` empties the node into the smaller-key sibling (of
`csize` 10), not into the sibling with the larger `csize` as the claim
states; the selected destination is never the larger-key sibling when
the smaller-key one exists. -/
theorem C3_mergeDestination_ignores_csize :
    mergeDestination (some 10) (some 20) = some (SibSide.smaller, 10) ∧
    ∀ c c2 : Nat, mergeDestination (some c) (some c2) = some (SibSide.smaller, c) := by
  constructor
  · rfl
  · intro c c2
    unfold mergeDestination
    by_cases h : c > c2 <;> simp [h]

end Tfhfs.BtreeMerge

/-! ## Inode allocator (inode.py) -/

namespace Tfhfs.Inode

/-- Lookup in an association list, with default. -/
def alGet (l : List (Nat × Nat)) (i : Nat) (d : Nat) : Nat :=
  match l.lookup i with
  | some v => v
  | none => d

/-- Set a key in an association list. -/
def alSet (l : List (Nat × Nat)) (i v : Nat) : List (Nat × Nat) :=
  (i, v) :: l.eraseP (fun p => p.1 == i)

theorem alGet_alSet_self (l : List (Nat × Nat)) (i v d : Nat) :
    alGet (alSet l i v) i d = v := by
  simp [alGet, alSet, List.lookup]

theorem lookup_eraseP_ne (i j : Nat) (h : j ≠ i) (l : List (Nat × Nat)) :
    (l.eraseP (fun p => p.1 == i)).lookup j = l.lookup j := by
  induction l with
  | nil => rfl
  | cons p t ih =>
    cases p with
    | mk a b =>
      by_cases hp : a = i
      · subst hp
        rw [List.eraseP_cons_of_pos (by simp),
          show ((a, b) :: t).lookup j = t.lookup j by
            simp [List.lookup, beq_false_of_ne h]]
      · rw [List.eraseP_cons_of_neg (by simp [hp])]
        by_cases hj : j = a
        · subst hj; simp [List.lookup]
        · rw [show ((a, b) :: t).lookup j = t.lookup j by
              simp [List.lookup, beq_false_of_ne hj],
            show ((a, b) :: t.eraseP (fun p => p.1 == i)).lookup j =
              (t.eraseP (fun p => p.1 == i)).lookup j by
              simp [List.lookup, beq_false_of_ne hj]]
          exact ih

theorem alGet_alSet_other (l : List (Nat × Nat)) (i j v d : Nat) (h : j ≠ i) :
    alGet (alSet l i v) j d = alGet l j d := by
  simp only [alGet, alSet]
  rw [show ((i, v) :: l.eraseP (fun p => p.1 == i)).lookup j =
      (l.eraseP (fun p => p.1 == i)).lookup j by
    simp [List.lookup, beq_false_of_ne h]]
  rw [lookup_eraseP_ne i j h l]

/-- The state of `INodeAllocator` together with the per-inode state the
claim is about: the set of registered inode values, each inode's
`refcnt`, the `inodes_waiting_to_remove` set, and, for each inode, the
value of the root inode it referenced at construction time (`INode.
__init__` does `store.get_by_node(leaf_node.root).ref()` when it has a
`leaf_node`; `INode.remove` dereferences the same inode). -/
structure AllocState where
  registered : List Nat
  refcnt : List (Nat × Nat)
  waiting : List Nat
  parentRef : List (Nat × Nat)
deriving DecidableEq, Repr

def AllocState.rc (s : AllocState) (i : Nat) : Nat := alGet s.refcnt i 0

/-- `INode.ref(count=1)` on a registered inode: assert `count > 0` and
`refcnt >= 0`; if `refcnt == 0` remove the inode from
`inodes_waiting_to_remove` (`set.remove` raises `KeyError` if absent);
then increment.  `none` models the raising paths. -/
def refOp (s : AllocState) (i : Nat) (count : Nat) : Option AllocState :=
  if i ∉ s.registered then none
  else if count = 0 then none
  else if s.rc i = 0 then
    if i ∈ s.waiting then
      some { s with waiting := s.waiting.erase i,
                    refcnt := alSet s.refcnt i (s.rc i + count) }
    else none
  else some { s with refcnt := alSet s.refcnt i (s.rc i + count) }

/-- `INode.deref(count=1)` on a registered inode: assert `count > 0`;
if `refcnt == count` add the inode to `inodes_waiting_to_remove`;
decrement; assert the result is `>= 0` (so `refcnt < count` raises —
modelled as `none`). -/
def derefOp (s : AllocState) (i : Nat) (count : Nat) : Option AllocState :=
  if i ∉ s.registered then none
  else if count = 0 then none
  else if s.rc i < count then none
  else
    let w := if s.rc i = count then i :: s.waiting else s.waiting
    some { s with waiting := w, refcnt := alSet s.refcnt i (s.rc i - count) }

/-- Registration of a freshly constructed inode (`INodeAllocator.
add_inode` → `INode.__init__`): the new object starts with the class
default `refcnt = 1`; if it has a `leaf_node` it first `ref()`s the
inode of `leaf_node.root`; then `INodeAllocator.register` inserts it
(`Allocator.register` asserts it is not already registered). -/
def registerOp (s : AllocState) (i : Nat) (parent : Option Nat) : Option AllocState :=
  let core := fun (s : AllocState) =>
    if i ∈ s.registered then none
    else some { s with registered := i :: s.registered,
                       refcnt := alSet s.refcnt i 1,
                       parentRef := match parent with
                                    | some p => alSet s.parentRef i p
                                    | none => s.parentRef }
  match parent with
  | some p =>
      match refOp s p 1 with
      | some s1 => core s1
      | none => none
  | none => core s

/-- `INode.remove` for one inode inside `remove_old_inodes`: assert
`refcnt == 0`; dereference the parent-root inode if any; unregister
(raising `KeyError` if not registered). -/
def removeOne (s : AllocState) (i : Nat) : Option AllocState :=
  if s.rc i ≠ 0 then none
  else
    let s1 :=
      match s.parentRef.lookup i with
      | some p => derefOp s p 1
      | none => some s
    match s1 with
    | none => none
    | some s2 =>
        if i ∉ s2.registered then none
        else some { s2 with registered := s2.registered.erase i }

def removeList (s : AllocState) : List Nat → Option AllocState
  | [] => some s
  | i :: rest =>
      match removeOne s i with
      | some s' => removeList s' rest
      | none => none

/-- `INodeAllocator.remove_old_inodes`: repeatedly swap out the waiting
set and remove every inode in it, until the waiting set stays empty.
The `while` loop is fuel-indexed; exhausted fuel returns the state at an
iteration boundary (the theorems hold for every fuel, hence for the
number of iterations the Python loop actually performs). -/
def removeOldInodes (s : AllocState) : Nat → Option AllocState
  | 0 => some s
  | fuel + 1 =>
      if s.waiting = [] then some s
      else
        match removeList { s with waiting := [] } s.waiting with
        | some s' => removeOldInodes s' fuel
        | none => none

/-- The claimed invariant: every registered inode is in
`inodes_waiting_to_remove` iff its refcnt is 0 — plus the bookkeeping
facts (waiting only holds registered inodes, no duplicates) that make it
inductive. -/
def Inv (s : AllocState) : Prop :=
  (∀ i ∈ s.registered, (i ∈ s.waiting ↔ s.rc i = 0)) ∧
  (∀ i ∈ s.waiting, i ∈ s.registered) ∧
  s.registered.Nodup ∧ s.waiting.Nodup

instance (s : AllocState) : Decidable (Inv s) := by
  unfold Inv
  infer_instance

/-- The phases of `Forest.flush` (forest.py lines 133-178) in source
order: propagate dirtiness to the roots, flush the root tree and publish
the new root id, flush the storage layer, only then remove refcnt-0
inodes, and finally unload non-protected nodes. -/
inductive FlushPhase where
  | propagateDirty
  | treeFlushAndPublish
  | storageFlush
  | removeOldInodesPhase
  | unloadNonprotected
deriving DecidableEq, Repr

def forestFlushPhases : List FlushPhase :=
  [FlushPhase.propagateDirty, FlushPhase.treeFlushAndPublish,
   FlushPhase.storageFlush, FlushPhase.removeOldInodesPhase,
   FlushPhase.unloadNonprotected]


/-- Generalization of the claimed invariant to the middle of
`remove_old_inodes`: `rest` is the part of the swapped-out waiting set
not yet processed; a registered inode is pending (in the waiting set or
in `rest`) iff its refcnt is 0. -/
def InvP (s : AllocState) (rest : List Nat) : Prop :=
  (∀ i ∈ s.registered, ((i ∈ s.waiting ∨ i ∈ rest) ↔ s.rc i = 0)) ∧
  (∀ i ∈ s.waiting, i ∈ s.registered) ∧
  (∀ i ∈ rest, i ∈ s.registered) ∧
  s.registered.Nodup ∧ s.waiting.Nodup ∧ rest.Nodup ∧
  (∀ i ∈ rest, i ∉ s.waiting)

theorem inv_iff_invP (s : AllocState) : Inv s ↔ InvP s [] := by
  unfold Inv InvP
  simp

theorem refOp_inv (s : AllocState) (i count : Nat) (s' : AllocState)
    (hinv : Inv s) (h : refOp s i count = some s') : Inv s' := by
  obtain ⟨h1, h2, h3, h4⟩ := hinv
  unfold refOp at h
  by_cases hr : i ∈ s.registered
  · rw [if_neg (by simpa using hr)] at h
    by_cases hc : count = 0
    · rw [if_pos hc] at h; cases h
    · rw [if_neg hc] at h
      by_cases h0 : s.rc i = 0
      · rw [if_pos h0] at h
        by_cases hw : i ∈ s.waiting
        · rw [if_pos hw] at h
          cases h
          refine ⟨?_, ?_, h3, h4.erase i⟩
          · intro j hj
            simp only [AllocState.rc] at h0 ⊢
            by_cases hji : j = i
            · subst hji
              rw [alGet_alSet_self]
              constructor
              · intro hmem
                exact absurd hmem ((List.Nodup.mem_erase_iff h4).not.mpr
                  (by simp))
              · intro hz; omega
            · rw [alGet_alSet_other _ _ _ _ _ hji,
                List.mem_erase_of_ne hji]
              exact h1 j hj
          · intro j hj
            exact h2 j (List.erase_subset _ _ hj)
        · rw [if_neg hw] at h; cases h
      · rw [if_neg h0] at h
        cases h
        refine ⟨?_, h2, h3, h4⟩
        intro j hj
        simp only [AllocState.rc] at h0 ⊢
        by_cases hji : j = i
        · subst hji
          rw [alGet_alSet_self]
          have : j ∉ s.waiting := fun hm => h0 ((h1 j hj).mp hm)
          constructor
          · intro hm; exact absurd hm this
          · intro hz; omega
        · rw [alGet_alSet_other _ _ _ _ _ hji]
          exact h1 j hj
  · rw [if_pos (by simpa using hr)] at h; cases h

theorem derefOp_invP (s : AllocState) (rest : List Nat) (i count : Nat)
    (s' : AllocState) (hinv : InvP s rest) (h : derefOp s i count = some s') :
    InvP s' rest := by
  obtain ⟨h1, h2, h3, h4, h5, h6, h7⟩ := hinv
  unfold derefOp at h
  by_cases hr : i ∈ s.registered
  · rw [if_neg (by simpa using hr)] at h
    by_cases hc : count = 0
    · rw [if_pos hc] at h; cases h
    · rw [if_neg hc] at h
      by_cases hlt : s.rc i < count
      · rw [if_pos hlt] at h; cases h
      · rw [if_neg hlt] at h
        cases h
        have hnz : s.rc i ≠ 0 := by omega
        have hnw : i ∉ s.waiting := fun hm => hnz ((h1 i hr).mp (Or.inl hm))
        have hnrest : i ∉ rest := fun hm => hnz ((h1 i hr).mp (Or.inr hm))
        by_cases heq : s.rc i = count
        · rw [if_pos heq]
          refine ⟨?_, ?_, h3, h4, ?_, h6, ?_⟩
          · intro j hj
            simp only [AllocState.rc] at heq ⊢
            by_cases hji : j = i
            · subst hji
              rw [alGet_alSet_self]
              simp only [List.mem_cons]
              constructor
              · intro _; omega
              · intro _; simp
            · rw [alGet_alSet_other _ _ _ _ _ hji]
              have := h1 j hj
              simp only [List.mem_cons]
              constructor
              · intro hm
                rcases hm with (hm | hm) | hm
                · exact absurd hm hji
                · exact this.mp (Or.inl hm)
                · exact this.mp (Or.inr hm)
              · intro hz
                rcases this.mpr hz with hm | hm
                · exact Or.inl (Or.inr hm)
                · exact Or.inr hm
          · intro j hj
            rcases List.mem_cons.mp hj with hj | hj
            · subst hj; exact hr
            · exact h2 j hj
          · exact List.nodup_cons.mpr ⟨hnw, h5⟩
          · intro j hj
            simp only [List.mem_cons, not_or]
            exact ⟨fun he => hnrest (he ▸ hj), h7 j hj⟩
        · rw [if_neg heq]
          refine ⟨?_, h2, h3, h4, h5, h6, h7⟩
          intro j hj
          simp only [AllocState.rc] at heq hlt ⊢
          by_cases hji : j = i
          · subst hji
            rw [alGet_alSet_self]
            have : s.rc j - count ≠ 0 := by
              simp only [AllocState.rc] at *
              omega
            simp only [AllocState.rc] at this
            constructor
            · intro hm
              rcases hm with hm | hm
              · exact absurd hm hnw
              · exact absurd hm hnrest
            · intro hz; exact absurd hz this
          · rw [alGet_alSet_other _ _ _ _ _ hji]
            exact h1 j hj
  · rw [if_pos (by simpa using hr)] at h; cases h

theorem registerCore_inv (t : AllocState) (i : Nat) (pr : List (Nat × Nat))
    (s' : AllocState) (hinv : Inv t)
    (hc : (if i ∈ t.registered then none
           else some { t with registered := i :: t.registered,
                              refcnt := alSet t.refcnt i 1,
                              parentRef := pr }) = some s') :
    Inv s' := by
  obtain ⟨h1, h2, h3, h4⟩ := hinv
  by_cases hr : i ∈ t.registered
  · rw [if_pos hr] at hc; cases hc
  · rw [if_neg hr] at hc
    cases hc
    refine ⟨?_, ?_, List.nodup_cons.mpr ⟨hr, h3⟩, h4⟩
    · intro j hj
      simp only [AllocState.rc]
      rcases List.mem_cons.mp hj with hj | hj
      · subst hj
        rw [alGet_alSet_self]
        have : j ∉ t.waiting := fun hm => hr (h2 j hm)
        constructor
        · intro hm; exact absurd hm this
        · intro hz; omega
      · have hji : j ≠ i := fun he => hr (he ▸ hj)
        rw [alGet_alSet_other _ _ _ _ _ hji]
        exact h1 j hj
    · intro j hj
      exact List.mem_cons_of_mem _ (h2 j hj)

theorem registerOp_inv (s : AllocState) (i : Nat) (parent : Option Nat)
    (s' : AllocState) (hinv : Inv s) (h : registerOp s i parent = some s') :
    Inv s' := by
  cases parent with
  | none => exact registerCore_inv s i s.parentRef s' hinv h
  | some p =>
    unfold registerOp at h
    simp only at h
    cases hre : refOp s p 1 with
    | none => rw [hre] at h; cases h
    | some s1 =>
      rw [hre] at h
      exact registerCore_inv s1 i (alSet s1.parentRef i p) s'
        (refOp_inv s p 1 s1 hinv hre) h

theorem removeOne_invP (s : AllocState) (i : Nat) (rest : List Nat)
    (s' : AllocState) (hinv : InvP s (i :: rest))
    (h : removeOne s i = some s') : InvP s' rest := by
  unfold removeOne at h
  by_cases h0 : s.rc i ≠ 0
  · rw [if_pos h0] at h; cases h
  · rw [if_neg h0] at h
    push_neg at h0
    have hstep : ∀ (s2 : AllocState), InvP s2 (i :: rest) →
        (if i ∉ s2.registered then none
         else some { s2 with registered := s2.registered.erase i }) = some s' →
        InvP s' rest := by
      intro s2 hinv2 hc
      obtain ⟨h1, h2, h3, h4, h5, h6, h7⟩ := hinv2
      by_cases hr : i ∈ s2.registered
      · rw [if_neg (by simpa using hr)] at hc
        cases hc
        have hirest : i ∉ rest := (List.nodup_cons.mp h6).1
        refine ⟨?_, ?_, ?_, h4.erase i, h5, (List.nodup_cons.mp h6).2, ?_⟩
        · intro j hj
          have hjr : j ∈ s2.registered := List.erase_subset _ _ hj
          have hji : j ≠ i := by
            intro he
            subst he
            exact (List.Nodup.mem_erase_iff h4).mp hj |>.1 rfl
          have := h1 j hjr
          simp only [List.mem_cons] at this
          constructor
          · intro hm
            rcases hm with hm | hm
            · exact this.mp (Or.inl hm)
            · exact this.mp (Or.inr (Or.inr hm))
          · intro hz
            rcases this.mpr hz with hm | hm | hm
            · exact Or.inl hm
            · exact absurd hm hji
            · exact Or.inr hm
        · intro j hj
          have hji : j ≠ i := fun he => (h7 j (by simp [he])) hj
          exact (List.Nodup.mem_erase_iff h4).mpr ⟨hji, h2 j hj⟩
        · intro j hj
          have hji : j ≠ i := fun he => (List.nodup_cons.mp h6).1 (he ▸ hj)
          exact (List.Nodup.mem_erase_iff h4).mpr
            ⟨hji, h3 j (List.mem_cons_of_mem _ hj)⟩
        · intro j hj
          exact h7 j (List.mem_cons_of_mem _ hj)
      · rw [if_pos (by simpa using hr)] at hc; cases hc
    cases hp : s.parentRef.lookup i with
    | none =>
      rw [hp] at h
      simp only at h
      have hinv' : InvP s (i :: rest) := hinv
      exact hstep s hinv' h
    | some p =>
      rw [hp] at h
      simp only at h
      cases hd : derefOp s p 1 with
      | none => rw [hd] at h; cases h
      | some s2 =>
        rw [hd] at h
        exact hstep s2 (derefOp_invP s (i :: rest) p 1 s2 hinv hd) h

theorem removeList_invP (tmp : List Nat) :
    ∀ (s : AllocState) (s' : AllocState), InvP s tmp →
      removeList s tmp = some s' → InvP s' [] := by
  induction tmp with
  | nil =>
    intro s s' hinv h
    unfold removeList at h
    cases h
    exact hinv
  | cons i rest ih =>
    intro s s' hinv h
    unfold removeList at h
    cases ho : removeOne s i with
    | none => rw [ho] at h; cases h
    | some s1 =>
      rw [ho] at h
      exact ih s1 s' (removeOne_invP s i rest s1 hinv ho) h

theorem removeOldInodes_inv (fuel : Nat) :
    ∀ (s s' : AllocState), Inv s → removeOldInodes s fuel = some s' → Inv s' := by
  induction fuel with
  | zero =>
    intro s s' hinv h
    unfold removeOldInodes at h
    cases h
    exact hinv
  | succ n ih =>
    intro s s' hinv h
    unfold removeOldInodes at h
    by_cases hw : s.waiting = []
    · rw [if_pos hw] at h; cases h; exact hinv
    · rw [if_neg hw] at h
      have hinvP : InvP { s with waiting := [] } s.waiting := by
        obtain ⟨h1, h2, h3, h4⟩ := hinv
        refine ⟨?_, by simp, h2, h3, by simp, h4, by simp⟩
        intro j hj
        simpa using h1 j hj
      cases hr : removeList { s with waiting := [] } s.waiting with
      | none => rw [hr] at h; cases h
      | some s1 =>
        rw [hr] at h
        have := removeList_invP s.waiting _ s1 hinvP hr
        exact ih s1 s' ((inv_iff_invP s1).mpr this) h

/-- C8: the inode allocator preserves, across every successful `ref()`,
`deref()`, `register()` and `remove_old_inodes()` call, the invariant
that a registered inode is in `inodes_waiting_to_remove` iff its refcnt
is 0 — `deref` that reaches 0 queues the inode, `ref` on a refcnt-0
inode removes it from the queue, registration starts at refcnt 1 outside
the queue, and actual unregistration happens only inside
`remove_old_inodes`; moreover in `Forest.flush` the
`remove_old_inodes` phase comes only after the tree flush-and-publish
phase and the storage flush phase. -/
theorem C8_inode_allocator_invariant :
    ((∀ (s : AllocState) (i count : Nat) (s' : AllocState),
        Inv s → refOp s i count = some s' → Inv s') ∧
     (∀ (s : AllocState) (i count : Nat) (s' : AllocState),
        Inv s → derefOp s i count = some s' → Inv s') ∧
     (∀ (s : AllocState) (i : Nat) (parent : Option Nat) (s' : AllocState),
        Inv s → registerOp s i parent = some s' → Inv s') ∧
     (∀ (s : AllocState) (fuel : Nat) (s' : AllocState),
        Inv s → removeOldInodes s fuel = some s' → Inv s')) ∧
    (forestFlushPhases.indexOf FlushPhase.treeFlushAndPublish = 1 ∧
     forestFlushPhases.indexOf FlushPhase.storageFlush = 2 ∧
     forestFlushPhases.indexOf FlushPhase.removeOldInodesPhase = 3) := by
  refine ⟨⟨refOp_inv, ?_, registerOp_inv, ?_⟩, by decide, by decide, by decide⟩
  · intro s i count s' hinv h
    exact (inv_iff_invP s').mpr
      (derefOp_invP s [] i count s' ((inv_iff_invP s).mp hinv) h)
  · intro s fuel s' hinv h
    exact removeOldInodes_inv fuel s s' hinv h

/-- Witness for C8: one registered inode with refcnt 1; `deref` queues
it and the invariant carries over. -/
theorem C8_inode_allocator_invariant_witness :
    Inv (AllocState.mk [1] [(1, 1)] [] []) ∧
    derefOp (AllocState.mk [1] [(1, 1)] [] []) 1 1 =
      some (AllocState.mk [1] [(1, 0)] [1] []) ∧
    Inv (AllocState.mk [1] [(1, 0)] [1] []) :=
  ⟨by decide, by decide,
    C8_inode_allocator_invariant.1.2.1 (AllocState.mk [1] [(1, 1)] [] []) 1 1
      (AllocState.mk [1] [(1, 0)] [1] []) (by decide) (by decide)⟩

end Tfhfs.Inode

/-! ## Block store (storage.py: `Storage`, `DelayedStorage`,
`DictStorageBackend`) -/

namespace Tfhfs.Storage

/-- Generic association-list get (block ids are `Nat`). -/
def aGet {β : Type} (l : List (Nat × β)) (i : Nat) : Option β := l.lookup i

/-- Generic association-list set. -/
def aSet {β : Type} (l : List (Nat × β)) (i : Nat) (v : β) : List (Nat × β) :=
  (i, v) :: l.eraseP (fun p => p.1 == i)

theorem aGet_aSet_self {β : Type} (l : List (Nat × β)) (i : Nat) (v : β) :
    aGet (aSet l i v) i = some v := by
  simp [aGet, aSet, List.lookup]

theorem lookup_eraseP_ne' {β : Type} (i j : Nat) (h : j ≠ i)
    (l : List (Nat × β)) :
    (l.eraseP (fun p => p.1 == i)).lookup j = l.lookup j := by
  induction l with
  | nil => rfl
  | cons p t ih =>
    cases p with
    | mk a b =>
      by_cases hp : a = i
      · subst hp
        rw [List.eraseP_cons_of_pos (by simp),
          show ((a, b) :: t).lookup j = t.lookup j by
            simp [List.lookup, beq_false_of_ne h]]
      · rw [List.eraseP_cons_of_neg (by simp [hp])]
        by_cases hj : j = a
        · subst hj; simp [List.lookup]
        · rw [show ((a, b) :: t).lookup j = t.lookup j by
              simp [List.lookup, beq_false_of_ne hj],
            show ((a, b) :: t.eraseP (fun p => p.1 == i)).lookup j =
              (t.eraseP (fun p => p.1 == i)).lookup j by
              simp [List.lookup, beq_false_of_ne hj]]
          exact ih

theorem aGet_aSet_other {β : Type} (l : List (Nat × β)) (i j : Nat) (v : β)
    (h : j ≠ i) : aGet (aSet l i v) j = aGet l j := by
  simp only [aGet, aSet]
  rw [show ((i, v) :: l.eraseP (fun p => p.1 == i)).lookup j =
      (l.eraseP (fun p => p.1 == i)).lookup j by
    simp [List.lookup, beq_false_of_ne h]]
  exact lookup_eraseP_ne' i j h l

/-- Python truthiness of a refcnt that may be `None` (`not r.refcnt` is
true for both `None` and `0`). -/
def truthy : Option Nat → Bool
  | none => false
  | some 0 => false
  | some (_ + 1) => true

/-- The `self.stored` snapshot a `StoredBlock` takes in
`mark_dirty_related`. -/
structure Snapshot where
  refcnt : Option Nat
  data : Option Nat
  btype : Option Nat
deriving DecidableEq, Repr

/-- One `StoredBlock` (storage.py): current `refcnt`/`data`/`type`
(each may be unset), the `stored` snapshot while dirty, and the
`DirtyMixin.dirty` flag.  Block data is abstracted to a `Nat` (`0`
plays Python's empty/falsy `bytes`). -/
structure BlockRec where
  refcnt : Option Nat
  data : Option Nat
  btype : Option Nat
  stored : Option Snapshot
  dirty : Bool
deriving DecidableEq, Repr

def freshRec : BlockRec := ⟨none, none, none, none, false⟩

/-- The state of a `DelayedStorage` over a `DictStorageBackend`:
`recs` holds every live `StoredBlock` object by id (backend, cache and
dirty map all alias the same object, as in the source); `inBackend` is
the key set of `DictStorageBackend.bid2block`; `inCache` the key set of
`DelayedStorage._cache_bid2block`; `dirtyIds` the key set of
`Storage._dirty_bid2block`; `pending` is
`Storage.referenced_refcnt0_block_ids` (`[]` plays `None`). -/
structure St where
  recs : List (Nat × BlockRec)
  inBackend : List Nat
  inCache : List Nat
  dirtyIds : List Nat
  pending : List Nat
deriving DecidableEq, Repr

/-- The environment a storage call runs in: `claimed` is
`block_id_has_references_callback` (the registered extref callbacks,
fixed during one call), `refs` is the data-references callback
(`block_data_references_callback`) applied to a block's data. -/
structure Env where
  claimed : Nat → Bool
  refs : Nat → List Nat

/-- A backend deletion event: the block id, the deleted block's
`refcnt` at `backend.delete_block` time, and whether any extref
callback claimed the id at that moment. -/
abbrev Ev := Nat × Option Nat × Bool

/-- Add an id to a Python `set` modelled as a duplicate-free list. -/
def insertId (id : Nat) (l : List Nat) : List Nat :=
  if id ∈ l then l else l ++ [id]

/-- `DirtyMixin.mark_dirty` on a `StoredBlock`: no-op when already
dirty; otherwise `mark_dirty_related` asserts there is no `stored`
snapshot yet, takes one, and registers the block in
`Storage._dirty_bid2block`. -/
def markDirtyRec (s : St) (id : Nat) : Option St :=
  match aGet s.recs id with
  | none => none
  | some r =>
    if r.dirty then some s
    else
      match r.stored with
      | some _ => none
      | none =>
          some { s with
            recs := aSet s.recs id
              { r with dirty := true,
                       stored := some ⟨r.refcnt, r.data, r.btype⟩ },
            dirtyIds := insertId id s.dirtyIds }

/-- `StoredBlock.set_refcnt`: mark dirty, then assign. -/
def setRefcnt (s : St) (id : Nat) (v : Option Nat) : Option St :=
  match markDirtyRec s id with
  | none => none
  | some s =>
      match aGet s.recs id with
      | none => none
      | some r => some { s with recs := aSet s.recs id { r with refcnt := v } }

/-- `StoredBlock.set_data`: mark dirty, then assign. -/
def setData (s : St) (id : Nat) (v : Option Nat) : Option St :=
  match markDirtyRec s id with
  | none => none
  | some s =>
      match aGet s.recs id with
      | none => none
      | some r => some { s with recs := aSet s.recs id { r with data := v } }

/-- `StoredBlock.set_type`: mark dirty, then assign. -/
def setType (s : St) (id : Nat) (v : Option Nat) : Option St :=
  match markDirtyRec s id with
  | none => none
  | some s =>
      match aGet s.recs id with
      | none => none
      | some r => some { s with recs := aSet s.recs id { r with btype := v } }

/-- `Storage.get_block_by_id` (base class): look in the dirty map first,
then in the backend (`DictStorageBackend.get_block_by_id` is a plain
dict get); both hold the same objects that `recs` does. -/
def storageGet (s : St) (id : Nat) : Option BlockRec :=
  if id ∈ s.dirtyIds ∨ id ∈ s.inBackend then aGet s.recs id else none

/-- `DelayedStorage._goc_block_by_id`: return the cached object,
caching the base-storage object or a fresh empty `StoredBlock` on
miss. -/
def gocBlock (s : St) (id : Nat) : St × BlockRec :=
  if id ∈ s.inCache then
    match aGet s.recs id with
    | some r => (s, r)
    | none => (s, freshRec)
  else
    match storageGet s id with
    | some r => ({ s with inCache := id :: s.inCache }, r)
    | none =>
        ({ s with inCache := id :: s.inCache,
                  recs := aSet s.recs id freshRec }, freshRec)

/-- `DelayedStorage.get_block_by_id(block_id, cleanup=...)`: fetch via
`_goc_block_by_id`; report the block as absent when its refcnt is falsy
(`None` or 0), no registered extref callback claims the id, and
`cleanup` is not set. -/
def getBlockById (e : Env) (s : St) (id : Nat) (cleanup : Bool) :
    St × Option BlockRec :=
  let p := gocBlock s id
  if ¬truthy p.2.refcnt ∧ ¬e.claimed id ∧ ¬cleanup then (p.1, none)
  else (p.1, some p.2)

/-- `Storage.refer_block`: assert the block is visible, then increment
its refcnt (`None + 1` would raise, hence the guard). -/
def referBlock (e : Env) (s : St) (id : Nat) : Option St :=
  let p := getBlockById e s id false
  match p.2 with
  | none => none
  | some r =>
      match r.refcnt with
      | none => none
      | some n => setRefcnt p.1 id (some (n + 1))

/-- `Storage.release_block`: assert the block is visible, decrement,
assert the result stays non-negative. -/
def releaseBlock (e : Env) (s : St) (id : Nat) : Option St :=
  let p := getBlockById e s id false
  match p.2 with
  | none => none
  | some r =>
      match r.refcnt with
      | none => none
      | some n => if n = 0 then none else setRefcnt p.1 id (some (n - 1))

def referList (e : Env) : St → List Nat → Option St
  | s, [] => some s
  | s, rid :: rest =>
      match referBlock e s rid with
      | some s => referList e s rest
      | none => none

def releaseList (e : Env) : St → List Nat → Option St
  | s, [] => some s
  | s, rid :: rest =>
      match releaseBlock e s rid with
      | some s => releaseList e s rest
      | none => none

/-- `Storage.update_block_data_dependencies(block_data, is_add,
block_type)`: skip for `block_type >= BLOCK_TYPE_WANT_NORMAL` (= 2);
otherwise refer (or release) every truthy id yielded by the
data-references callback.  An unset type or unset data reaches a raising
comparison/callback, hence the guards. -/
def updateDeps (e : Env) (s : St) (d : Option Nat) (isAdd : Bool)
    (t : Option Nat) : Option St :=
  match t with
  | none => none
  | some tv =>
      if 2 ≤ tv then some s
      else
        match d with
        | none => none
        | some dv =>
            let bids := (e.refs dv).filter (fun x => x ≠ 0)
            if isAdd then referList e s bids else releaseList e s bids

/-- `DelayedStorage.store_block(block_id, block_data)` with the default
`refcnt=1`, `type=BLOCK_TYPE_NORMAL`: assert the data is truthy and the
cached block has no refcnt yet; set data, refcnt and type (marking the
block dirty — nothing reaches the backend yet); adjust the dependency
refcounts. -/
def storeBlockOp (e : Env) (s : St) (id : Nat) (data : Nat) : Option St :=
  if data = 0 then none
  else
    let p := gocBlock s id
    if truthy p.2.refcnt then none
    else
      match setData p.1 id (some data) with
      | none => none
      | some s =>
          match setRefcnt s id (some 1) with
          | none => none
          | some s =>
              match setType s id (some 0) with
              | none => none
              | some s => updateDeps e s (some data) true (some 0)

/-- `DelayedStorage.delete_block_be(block)`: delete from the backend
(`DictStorageBackend.delete_block` raises `KeyError` if absent) — this
is the deletion event the claim is about — then
`_delete_cached_block`: pop from the cache, and if the block was never
persisted release its data dependencies. -/
def deleteBlockBe (e : Env) (s : St) (id : Nat) (block : BlockRec) :
    Option (St × List Ev) :=
  if id ∉ s.inBackend then none
  else
    let ev : Ev := (id, block.refcnt, e.claimed id)
    let s := { s with inBackend := s.inBackend.erase id }
    if id ∉ s.inCache then none
    else
      let s := { s with inCache := s.inCache.erase id }
      match block.stored with
      | some st =>
          if st.refcnt = none then
            match updateDeps e s block.data false block.btype with
            | some s => some (s, [ev])
            | none => none
          else some (s, [ev])
      | none => some (s, [ev])

/-- `Storage.delete_block_id_with_deps`: fetch the block (with
`cleanup=True`, so the fetch always yields the cached object), release
its dependencies, and delete it from the backend. -/
def deleteWithDeps (e : Env) (s : St) (id : Nat) : Option (St × List Ev) :=
  let p := getBlockById e s id true
  match p.2 with
  | none => none
  | some r =>
      match updateDeps e p.1 r.data false r.btype with
      | none => none
      | some s => deleteBlockBe e s id r

/-- `Storage.delete_block_id_if_no_extref`: if some extref callback
claims the id, retain it on `referenced_refcnt0_block_ids` and return a
falsy value; otherwise drop it from that set and delete it (returning
`True`). -/
def ifNoExtref (e : Env) (s : St) (id : Nat) : Option (St × List Ev × Bool) :=
  if e.claimed id then
    some ({ s with pending := insertId id s.pending }, [], false)
  else
    let s := { s with pending := s.pending.erase id }
    match deleteWithDeps e s id with
    | some (s, ev) => some (s, ev, true)
    | none => none

/-- `Storage.store_block_be(block)`: `DictStorageBackend.store_block`
asserts the id is not yet present and inserts the object; then the
block's data dependencies are referred. -/
def storeBlockBe (e : Env) (s : St) (id : Nat) (data : Option Nat)
    (btype : Option Nat) : Option St :=
  if id ∈ s.inBackend then none
  else updateDeps e { s with inBackend := id :: s.inBackend } data true btype

/-- `Storage.updated_block_type(block, old_type, new_type)`: a
transition to `BLOCK_TYPE_MISSING` (1) must come from
`BLOCK_TYPE_NORMAL` (0) and adjusts nothing; otherwise the block must
have data, whose dependencies are referred under the new type and
released under the old one. -/
def updatedBlockType (e : Env) (s : St) (data : Option Nat)
    (old new : Option Nat) : Option St :=
  match new with
  | some 1 => if old = some 0 then some s else none
  | _ =>
      match data with
      | none => none
      | some dv =>
          match updateDeps e s (some dv) true new with
          | none => none
          | some s => updateDeps e s (some dv) false old

/-- `del self.stored` at the end of `StoredBlock.perform_flush`. -/
def clearStored (s : St) (id : Nat) : Option St :=
  match aGet s.recs id with
  | none => none
  | some r2 => some { s with recs := aSet s.recs id { r2 with stored := none } }

/-- `StoredBlock.flush` (`DirtyMixin.flush` + `StoredBlock.
perform_flush`) for the block object registered under `id`: clear the
dirty flag; a never-persisted block with truthy refcnt is stored to the
backend with its dependencies referred, a never-persisted block with
falsy refcnt is left alone (keeping its snapshot), and a persisted block
runs `updated_block_type` and the (no-op dict-backend) `flush_block`;
on the persisting paths the snapshot is dropped. -/
def blockFlush (e : Env) (s : St) (id : Nat) : Option St :=
  match aGet s.recs id with
  | none => none
  | some r =>
      if ¬r.dirty then some s
      else
        let r := { r with dirty := false }
        let s := { s with recs := aSet s.recs id r }
        match r.stored with
        | none => none
        | some st =>
            if st.refcnt = none then
              if truthy r.refcnt then
                match storeBlockBe e s id r.data r.btype with
                | none => none
                | some s => clearStored s id
              else some s
            else
              match updatedBlockType e s r.data st.btype r.btype with
              | none => none
              | some s => clearStored s id

/-- One pass of `Storage.flush_dirty_store_blocks` over the swapped-out
dirty map: flush each block; when its refcnt ends up falsy attempt
deletion via `delete_block_id_if_no_extref`, and on success null the
object's refcnt. -/
def flushDirtyPass (e : Env) : St → List Nat → Option (St × List Ev)
  | s, [] => some (s, [])
  | s, id :: rest =>
      match blockFlush e s id with
      | none => none
      | some s =>
          match aGet s.recs id with
          | none => none
          | some r' =>
              if ¬truthy r'.refcnt then
                match ifNoExtref e s id with
                | none => none
                | some (s, ev, b) =>
                    let s :=
                      if b then
                        match aGet s.recs id with
                        | some r2 =>
                            { s with recs := aSet s.recs id { r2 with refcnt := none } }
                        | none => s
                      else s
                    match flushDirtyPass e s rest with
                    | none => none
                    | some (s, ev2) => some (s, ev ++ ev2)
              else flushDirtyPass e s rest

/-- `Storage.flush_dirty_store_blocks`: repeat passes while the dirty
map refills (fuel-indexed; exhausted fuel stops at a pass boundary). -/
def flushDirtyLoop (e : Env) : Nat → St → Option (St × List Ev)
  | 0, s => some (s, [])
  | fuel + 1, s =>
      if s.dirtyIds = [] then some (s, [])
      else
        match flushDirtyPass e { s with dirtyIds := [] } s.dirtyIds with
        | none => none
        | some (s, ev) =>
            match flushDirtyLoop e fuel s with
            | none => none
            | some (s, ev2) => some (s, ev ++ ev2)

/-- One pass of the dangling-blocks loop in `Storage.flush` over the
swapped-out `referenced_refcnt0_block_ids`: refetch each id (with
`cleanup=True`) and, if its refcnt is still falsy, retry
`delete_block_id_if_no_extref`; the returned flag records whether any
deletion succeeded. -/
def danglingPass (e : Env) : St → List Nat → Option (St × List Ev × Bool)
  | s, [] => some (s, [], false)
  | s, id :: rest =>
      let p := getBlockById e s id true
      match p.2 with
      | none => none
      | some r =>
          if ¬truthy r.refcnt then
            match ifNoExtref e p.1 id with
            | none => none
            | some (s, ev, b) =>
                match danglingPass e s rest with
                | none => none
                | some (s, ev2, b2) => some (s, ev ++ ev2, b || b2)
          else
            match danglingPass e p.1 rest with
            | none => none
            | some (s, ev2, b2) => some (s, ev2, b2)

/-- The `while self.referenced_refcnt0_block_ids and deleted:` loop of
`Storage.flush` (fuel-indexed). -/
def danglingLoop (e : Env) : Nat → St → Option (St × List Ev)
  | 0, s => some (s, [])
  | fuel + 1, s =>
      if s.pending = [] then some (s, [])
      else
        match danglingPass e { s with pending := [] } s.pending with
        | none => none
        | some (s, ev, deleted) =>
            if deleted then
              match danglingLoop e fuel s with
              | none => none
              | some (s, ev2) => some (s, ev ++ ev2)
            else some (s, ev)

/-- `DelayedStorage.flush`: flush staged names (none are modelled — the
claim's operations do not touch names), then `Storage.flush`: retry the
dangling refcnt-0 blocks, flush the dirty blocks (possibly deleting
refcnt-0 blocks), `flush_done` (a no-op for the dict backend), and skip
cache shrinking (`maximum_cache_size` is 0). -/
def flushOp (e : Env) (f1 f2 : Nat) (s : St) : Option (St × List Ev) :=
  match danglingLoop e f1 s with
  | none => none
  | some (s, ev1) =>
      match flushDirtyLoop e f2 s with
      | none => none
      | some (s, ev2) => some (s, ev1 ++ ev2)

end Tfhfs.Storage

namespace Tfhfs.Storage

/-- C9: whenever the cached/fetched block's refcnt is falsy (0, or
`None` for a never-stored id — Python's `not r.refcnt`) and no
registered has-references callback claims the id,
`DelayedStorage.get_block_by_id` reports the block as absent — even if
its data sits in the write-back cache or the backend — unless called
with `cleanup=True`, in which case the block is returned. -/
theorem C9_delayed_get_hides_unreferenced (e : Env) (s : St) (id : Nat)
    (h0 : truthy (gocBlock s id).2.refcnt = false)
    (hc : e.claimed id = false) :
    (getBlockById e s id false).2 = none ∧
    (getBlockById e s id true).2 = some (gocBlock s id).2 := by
  unfold getBlockById
  rw [if_pos (by simp [h0, hc])]
  refine ⟨rfl, ?_⟩
  rw [if_neg (by simp)]

/-- Witness for C9: a block with refcnt 0 whose data (77) is present in
both the cache and the backend is hidden from a plain
`get_block_by_id`, and returned with `cleanup=True`. -/
theorem C9_delayed_get_hides_unreferenced_witness :
    truthy (gocBlock (St.mk [(5, BlockRec.mk (some 0) (some 77) (some 0) none false)]
        [5] [5] [] []) 5).2.refcnt = false ∧
    Env.claimed (Env.mk (fun _ => false) (fun _ => [])) 5 = false ∧
    (gocBlock (St.mk [(5, BlockRec.mk (some 0) (some 77) (some 0) none false)]
        [5] [5] [] []) 5).2.data = some 77 ∧
    ((getBlockById (Env.mk (fun _ => false) (fun _ => []))
        (St.mk [(5, BlockRec.mk (some 0) (some 77) (some 0) none false)]
          [5] [5] [] []) 5 false).2 = none ∧
     (getBlockById (Env.mk (fun _ => false) (fun _ => []))
        (St.mk [(5, BlockRec.mk (some 0) (some 77) (some 0) none false)]
          [5] [5] [] []) 5 true).2 =
       some (gocBlock (St.mk [(5, BlockRec.mk (some 0) (some 77) (some 0) none false)]
          [5] [5] [] []) 5).2) :=
  ⟨by decide, by decide, by decide,
    C9_delayed_get_hides_unreferenced (Env.mk (fun _ => false) (fun _ => []))
      (St.mk [(5, BlockRec.mk (some 0) (some 77) (some 0) none false)]
        [5] [5] [] []) 5 (by decide) (by decide)⟩

end Tfhfs.Storage

namespace Tfhfs.Storage

/-- An event is safe when the deleted block's refcnt was falsy and no
extref callback claimed it. -/
def SafeEv (ev : Ev) : Prop := truthy ev.2.1 = false ∧ ev.2.2 = false

def EvSafe (evs : List Ev) : Prop := ∀ ev ∈ evs, SafeEv ev

/-- Every id the step removed from the backend is named by one of its
deletion events. -/
def RemCovered (s s' : St) (evs : List Ev) : Prop :=
  ∀ id, id ∈ s.inBackend → id ∉ s'.inBackend → ∃ ev ∈ evs, ev.1 = id

theorem remCovered_trans (s1 s2 s3 : St) (ev1 ev2 : List Ev)
    (h1 : RemCovered s1 s2 ev1) (h2 : RemCovered s2 s3 ev2) :
    RemCovered s1 s3 (ev1 ++ ev2) := by
  intro id hm hn
  by_cases h : id ∈ s2.inBackend
  · rcases h2 id h hn with ⟨ev, hev, he⟩
    exact ⟨ev, List.mem_append_right _ hev, he⟩
  · rcases h1 id hm h with ⟨ev, hev, he⟩
    exact ⟨ev, List.mem_append_left _ hev, he⟩

theorem remCovered_of_mono (s1 s2 : St) (evs : List Ev)
    (h : s1.inBackend ⊆ s2.inBackend) : RemCovered s1 s2 evs := by
  intro id hm hn
  exact absurd (h hm) hn

/-- `_goc_block_by_id` only touches the cache and the object map. -/
theorem gocBlock_frame (s : St) (id : Nat) :
    (gocBlock s id).1.inBackend = s.inBackend ∧
    (gocBlock s id).1.pending = s.pending ∧
    (gocBlock s id).1.dirtyIds = s.dirtyIds := by
  unfold gocBlock
  by_cases hc : id ∈ s.inCache
  · rw [if_pos hc]
    cases aGet s.recs id <;> simp
  · rw [if_neg hc]
    cases storageGet s id <;> simp

theorem getBlockById_frame (e : Env) (s : St) (id : Nat) (c : Bool) :
    (getBlockById e s id c).1.inBackend = s.inBackend ∧
    (getBlockById e s id c).1.pending = s.pending ∧
    (getBlockById e s id c).1.dirtyIds = s.dirtyIds := by
  unfold getBlockById
  by_cases h : ¬truthy (gocBlock s id).2.refcnt ∧ ¬e.claimed id ∧ ¬c
  · rw [if_pos h]
    exact gocBlock_frame s id
  · rw [if_neg h]
    exact gocBlock_frame s id

theorem markDirtyRec_frame (s : St) (id : Nat) (s' : St)
    (h : markDirtyRec s id = some s') :
    s'.inBackend = s.inBackend ∧ s'.pending = s.pending ∧
    s'.inCache = s.inCache := by
  unfold markDirtyRec at h
  cases hg : aGet s.recs id with
  | none => rw [hg] at h; cases h
  | some r =>
    rw [hg] at h
    dsimp only at h
    by_cases hd : r.dirty
    · rw [if_pos hd] at h; cases h; exact ⟨rfl, rfl, rfl⟩
    · rw [if_neg hd] at h
      cases hs : r.stored with
      | some st => rw [hs] at h; cases h
      | none => rw [hs] at h; cases h; exact ⟨rfl, rfl, rfl⟩

theorem setRefcnt_frame (s : St) (id : Nat) (v : Option Nat) (s' : St)
    (h : setRefcnt s id v = some s') :
    s'.inBackend = s.inBackend ∧ s'.pending = s.pending ∧
    s'.inCache = s.inCache := by
  unfold setRefcnt at h
  cases hm : markDirtyRec s id with
  | none => rw [hm] at h; cases h
  | some s1 =>
    rw [hm] at h
    dsimp only at h
    cases hg : aGet s1.recs id with
    | none => rw [hg] at h; cases h
    | some r =>
      rw [hg] at h
      dsimp only at h
      cases h
      obtain ⟨h1, h2, h3⟩ := markDirtyRec_frame s id s1 hm
      exact ⟨h1, h2, h3⟩

theorem referBlock_frame (e : Env) (s : St) (id : Nat) (s' : St)
    (h : referBlock e s id = some s') :
    s'.inBackend = s.inBackend ∧ s'.pending = s.pending := by
  unfold referBlock at h
  dsimp only at h
  cases hp : (getBlockById e s id false).2 with
  | none => rw [hp] at h; cases h
  | some r =>
    rw [hp] at h
    dsimp only at h
    cases hr : r.refcnt with
    | none => rw [hr] at h; cases h
    | some n =>
      rw [hr] at h
      dsimp only at h
      obtain ⟨f1, f2, _⟩ := getBlockById_frame e s id false
      obtain ⟨g1, g2, _⟩ := setRefcnt_frame _ id (some (n + 1)) s' h
      exact ⟨g1.trans f1, g2.trans f2⟩

theorem releaseBlock_frame (e : Env) (s : St) (id : Nat) (s' : St)
    (h : releaseBlock e s id = some s') :
    s'.inBackend = s.inBackend ∧ s'.pending = s.pending := by
  unfold releaseBlock at h
  dsimp only at h
  cases hp : (getBlockById e s id false).2 with
  | none => rw [hp] at h; cases h
  | some r =>
    rw [hp] at h
    dsimp only at h
    cases hr : r.refcnt with
    | none => rw [hr] at h; cases h
    | some n =>
      rw [hr] at h
      dsimp only at h
      by_cases hn : n = 0
      · rw [if_pos hn] at h; cases h
      · rw [if_neg hn] at h
        obtain ⟨f1, f2, _⟩ := getBlockById_frame e s id false
        obtain ⟨g1, g2, _⟩ := setRefcnt_frame _ id (some (n - 1)) s' h
        exact ⟨g1.trans f1, g2.trans f2⟩

theorem referList_frame (e : Env) (l : List Nat) :
    ∀ (s s' : St), referList e s l = some s' →
      s'.inBackend = s.inBackend ∧ s'.pending = s.pending := by
  induction l with
  | nil =>
    intro s s' h
    unfold referList at h
    cases h
    exact ⟨rfl, rfl⟩
  | cons rid rest ih =>
    intro s s' h
    unfold referList at h
    cases hr : referBlock e s rid with
    | none => rw [hr] at h; cases h
    | some s1 =>
      rw [hr] at h
      dsimp only at h
      obtain ⟨a1, a2⟩ := referBlock_frame e s rid s1 hr
      obtain ⟨b1, b2⟩ := ih s1 s' h
      exact ⟨b1.trans a1, b2.trans a2⟩

theorem releaseList_frame (e : Env) (l : List Nat) :
    ∀ (s s' : St), releaseList e s l = some s' →
      s'.inBackend = s.inBackend ∧ s'.pending = s.pending := by
  induction l with
  | nil =>
    intro s s' h
    unfold releaseList at h
    cases h
    exact ⟨rfl, rfl⟩
  | cons rid rest ih =>
    intro s s' h
    unfold releaseList at h
    cases hr : releaseBlock e s rid with
    | none => rw [hr] at h; cases h
    | some s1 =>
      rw [hr] at h
      dsimp only at h
      obtain ⟨a1, a2⟩ := releaseBlock_frame e s rid s1 hr
      obtain ⟨b1, b2⟩ := ih s1 s' h
      exact ⟨b1.trans a1, b2.trans a2⟩

theorem updateDeps_frame (e : Env) (s : St) (d : Option Nat) (isAdd : Bool)
    (t : Option Nat) (s' : St) (h : updateDeps e s d isAdd t = some s') :
    s'.inBackend = s.inBackend ∧ s'.pending = s.pending := by
  unfold updateDeps at h
  cases t with
  | none => cases h
  | some tv =>
    simp only at h
    by_cases ht : 2 ≤ tv
    · rw [if_pos ht] at h; cases h; exact ⟨rfl, rfl⟩
    · rw [if_neg ht] at h
      cases d with
      | none => cases h
      | some dv =>
        simp only at h
        cases isAdd with
        | true => exact referList_frame e _ s s' h
        | false => exact releaseList_frame e _ s s' h

theorem gocBlock_snd (s : St) (id : Nat) :
    (gocBlock s id).2 = freshRec ∨ aGet s.recs id = some (gocBlock s id).2 := by
  unfold gocBlock
  by_cases hc : id ∈ s.inCache
  · rw [if_pos hc]
    cases hg : aGet s.recs id with
    | none => left; rfl
    | some r => right; rfl
  · rw [if_neg hc]
    cases hs : storageGet s id with
    | none => left; rfl
    | some r =>
      right
      unfold storageGet at hs
      by_cases hm : id ∈ s.dirtyIds ∨ id ∈ s.inBackend
      · rw [if_pos hm] at hs; exact hs
      · rw [if_neg hm] at hs; cases hs

theorem pre_of_rec_falsy (s : St) (id : Nat) (r : BlockRec)
    (hg : aGet s.recs id = some r) (hf : truthy r.refcnt = false) :
    truthy (gocBlock s id).2.refcnt = false := by
  rcases gocBlock_snd s id with h | h
  · rw [h]; rfl
  · rw [hg] at h
    cases h
    exact hf

theorem gocBlock_set_pending (s : St) (x : List Nat) (id : Nat) :
    (gocBlock { s with pending := x } id).2 = (gocBlock s id).2 := by
  simp only [gocBlock, storageGet]
  by_cases hc : id ∈ s.inCache
  · simp only [if_pos hc]
    cases aGet s.recs id <;> rfl
  · simp only [if_neg hc]
    by_cases hm : id ∈ s.dirtyIds ∨ id ∈ s.inBackend
    · simp only [if_pos hm]
      cases aGet s.recs id <;> rfl
    · simp only [if_neg hm]

theorem gocBlock_goc (s : St) (id : Nat) :
    (gocBlock (gocBlock s id).1 id).2 = (gocBlock s id).2 := by
  unfold gocBlock
  by_cases hc : id ∈ s.inCache
  · rw [if_pos hc]
    cases hg : aGet s.recs id with
    | none =>
      rw [if_pos hc, hg]
    | some r =>
      rw [if_pos hc, hg]
  · rw [if_neg hc]
    cases hs : storageGet s id with
    | none =>
      dsimp only
      rw [if_pos (by simp), aGet_aSet_self]
    | some r =>
      dsimp only
      rw [if_pos (by simp)]
      unfold storageGet at hs
      by_cases hm : id ∈ s.dirtyIds ∨ id ∈ s.inBackend
      · rw [if_pos hm] at hs
        rw [hs]
      · rw [if_neg hm] at hs; cases hs

theorem evSafe_append (ev1 ev2 : List Ev) (h1 : EvSafe ev1) (h2 : EvSafe ev2) :
    EvSafe (ev1 ++ ev2) := by
  intro ev hm
  rcases List.mem_append.mp hm with h | h
  · exact h1 ev h
  · exact h2 ev h

theorem deleteBlockBe_spec (e : Env) (s : St) (id : Nat) (block : BlockRec)
    (s' : St) (evs : List Ev) (h : deleteBlockBe e s id block = some (s', evs)) :
    evs = [(id, block.refcnt, e.claimed id)] ∧ RemCovered s s' evs ∧
    s'.pending = s.pending := by
  unfold deleteBlockBe at h
  by_cases hb : id ∈ s.inBackend
  · rw [if_neg (by simpa using hb)] at h
    dsimp only at h
    by_cases hcc : id ∈ s.inCache
    · rw [if_neg (by simpa using hcc)] at h
      have cover : ∀ (t : St), t.inBackend = s.inBackend.erase id →
          RemCovered s t [(id, block.refcnt, e.claimed id)] := by
        intro t ht jd hj1 hj2
        refine ⟨(id, block.refcnt, e.claimed id), by simp, ?_⟩
        by_contra hne
        exact hj2 (ht ▸ (List.mem_erase_of_ne (fun he => hne he.symm)).mpr hj1)
      cases hst : block.stored with
      | some st =>
        rw [hst] at h
        dsimp only at h
        by_cases hr : st.refcnt = none
        · rw [if_pos hr] at h
          cases hu : updateDeps e
              { s with inBackend := s.inBackend.erase id,
                       inCache := s.inCache.erase id } block.data false block.btype with
          | none => rw [hu] at h; cases h
          | some s2 =>
            rw [hu] at h
            cases h
            obtain ⟨f1, f2⟩ := updateDeps_frame e _ _ _ _ _ hu
            exact ⟨rfl, cover _ f1, f2⟩
        · rw [if_neg hr] at h
          cases h
          exact ⟨rfl, cover _ rfl, rfl⟩
      | none =>
        rw [hst] at h
        cases h
        exact ⟨rfl, cover _ rfl, rfl⟩
    · rw [if_pos (by simpa using hcc)] at h; cases h
  · rw [if_pos (by simpa using hb)] at h; cases h

theorem deleteWithDeps_spec (e : Env) (s : St) (id : Nat) (s' : St)
    (evs : List Ev) (hsafe : truthy (gocBlock s id).2.refcnt = false)
    (hcl : e.claimed id = false)
    (h : deleteWithDeps e s id = some (s', evs)) :
    EvSafe evs ∧ RemCovered s s' evs ∧ s'.pending = s.pending := by
  unfold deleteWithDeps getBlockById at h
  rw [if_neg (by simp)] at h
  dsimp only at h
  cases hu : updateDeps e (gocBlock s id).1 (gocBlock s id).2.data false
      (gocBlock s id).2.btype with
  | none => rw [hu] at h; cases h
  | some s1 =>
    rw [hu] at h
    obtain ⟨ev1, cov1, pend1⟩ := deleteBlockBe_spec e s1 id (gocBlock s id).2 s' evs h
    obtain ⟨gb, gp, _⟩ := gocBlock_frame s id
    obtain ⟨ub, up⟩ := updateDeps_frame e _ _ _ _ _ hu
    refine ⟨?_, ?_, ?_⟩
    · intro ev hm
      rw [ev1] at hm
      rcases List.mem_singleton.mp hm with rfl
      exact ⟨hsafe, hcl⟩
    · have cov0 : RemCovered s s1 [] :=
        remCovered_of_mono s s1 [] (by rw [ub, gb]; exact fun a ha => ha)
      have := remCovered_trans s s1 s' [] evs cov0 cov1
      simpa using this
    · rw [pend1, up, gp]

theorem ifNoExtref_spec (e : Env) (s : St) (id : Nat) (s' : St)
    (evs : List Ev) (b : Bool)
    (hsafe : truthy (gocBlock s id).2.refcnt = false)
    (h : ifNoExtref e s id = some (s', evs, b)) :
    EvSafe evs ∧ RemCovered s s' evs ∧
    ((∀ jd ∈ s.pending, e.claimed jd = true) →
      (∀ jd ∈ s'.pending, e.claimed jd = true)) := by
  unfold ifNoExtref at h
  by_cases hc : e.claimed id
  · rw [if_pos hc] at h
    cases h
    refine ⟨(by intro ev hm; cases hm), remCovered_of_mono _ _ _ (by simp), ?_⟩
    intro hp jd hj
    dsimp only [insertId] at hj
    by_cases hmem : id ∈ s.pending
    · rw [if_pos hmem] at hj
      exact hp jd hj
    · rw [if_neg hmem] at hj
      rcases List.mem_append.mp hj with hj | hj
      · exact hp jd hj
      · rcases List.mem_singleton.mp hj with rfl
        exact hc
  · rw [if_neg hc] at h
    dsimp only at h
    cases hd : deleteWithDeps e { s with pending := s.pending.erase id } id with
    | none => rw [hd] at h; cases h
    | some p =>
      rw [hd] at h
      obtain ⟨s2, ev2⟩ := p
      cases h
      have hsafe2 : truthy (gocBlock { s with pending := s.pending.erase id } id).2.refcnt
          = false := by
        rw [gocBlock_set_pending]
        exact hsafe
      obtain ⟨e1, c1, p1⟩ := deleteWithDeps_spec e _ id s' evs hsafe2
        (by simpa using hc) hd
      refine ⟨e1, ?_, ?_⟩
      · intro jd hj1 hj2
        exact c1 jd hj1 hj2
      · intro hp jd hj
        rw [p1] at hj
        dsimp only at hj
        exact hp jd (List.erase_subset _ _ hj)


theorem storeBlockBe_frame (e : Env) (s : St) (id : Nat) (d t : Option Nat)
    (s' : St) (h : storeBlockBe e s id d t = some s') :
    s.inBackend ⊆ s'.inBackend ∧ s'.pending = s.pending := by
  unfold storeBlockBe at h
  by_cases hb : id ∈ s.inBackend
  · rw [if_pos hb] at h; cases h
  · rw [if_neg hb] at h
    obtain ⟨u1, u2⟩ := updateDeps_frame e _ _ _ _ _ h
    constructor
    · intro a ha
      rw [u1]
      exact List.mem_cons_of_mem _ ha
    · exact u2

theorem updatedBlockType_deps_frame (e : Env) (s : St) (d : Option Nat)
    (old new : Option Nat) (s' : St)
    (hg : (match d with
           | none => none
           | some dv =>
               match updateDeps e s (some dv) true new with
               | none => none
               | some s => updateDeps e s (some dv) false old) = some s') :
    s'.inBackend = s.inBackend ∧ s'.pending = s.pending := by
  rcases d with _ | dv
  · cases hg
  · dsimp only at hg
    cases hu : updateDeps e s (some dv) true new with
    | none => rw [hu] at hg; cases hg
    | some s1 =>
      rw [hu] at hg
      obtain ⟨a1, a2⟩ := updateDeps_frame e _ _ _ _ _ hu
      obtain ⟨b1, b2⟩ := updateDeps_frame e _ _ _ _ _ hg
      exact ⟨b1.trans a1, b2.trans a2⟩

theorem updatedBlockType_frame (e : Env) (s : St) (d old new : Option Nat)
    (s' : St) (h : updatedBlockType e s d old new = some s') :
    s'.inBackend = s.inBackend ∧ s'.pending = s.pending := by
  unfold updatedBlockType at h
  rcases new with _ | nv
  · exact updatedBlockType_deps_frame e s d old none s' h
  · rcases nv with _ | nv1
    · exact updatedBlockType_deps_frame e s d old (some 0) s' h
    · rcases nv1 with _ | nv2
      · by_cases ho : old = some 0
        · rw [if_pos ho] at h
          cases h
          exact ⟨rfl, rfl⟩
        · rw [if_neg ho] at h; cases h
      · exact updatedBlockType_deps_frame e s d old (some (nv2 + 2)) s' h

theorem clearStored_frame (s : St) (id : Nat) (s' : St)
    (h : clearStored s id = some s') :
    s'.inBackend = s.inBackend ∧ s'.pending = s.pending := by
  unfold clearStored at h
  cases hg : aGet s.recs id with
  | none => rw [hg] at h; cases h
  | some r2 =>
    rw [hg] at h
    cases h
    exact ⟨rfl, rfl⟩

theorem blockFlush_frame (e : Env) (s : St) (id : Nat) (s' : St)
    (h : blockFlush e s id = some s') :
    s.inBackend ⊆ s'.inBackend ∧ s'.pending = s.pending := by
  unfold blockFlush at h
  cases hg : aGet s.recs id with
  | none => rw [hg] at h; cases h
  | some r =>
    rw [hg] at h
    dsimp only at h
    by_cases hd : r.dirty
    · rw [if_neg (by simpa using hd)] at h
      cases hst : r.stored with
      | none => rw [hst] at h; cases h
      | some st =>
        rw [hst] at h
        dsimp only at h
        by_cases hr : st.refcnt = none
        · rw [if_pos hr] at h
          by_cases ht : truthy r.refcnt = true
          · rw [if_pos ht] at h
            split at h
            · cases h
            · rename_i s1 hsb
              obtain ⟨a1, a2⟩ := storeBlockBe_frame e _ id _ _ _ hsb
              obtain ⟨b1, b2⟩ := clearStored_frame s1 id s' h
              refine ⟨?_, b2.trans a2⟩
              intro x hx
              rw [b1]
              exact a1 hx
          · rw [if_neg ht] at h
            cases h
            exact ⟨fun a ha => ha, rfl⟩
        · rw [if_neg hr] at h
          split at h
          · cases h
          · rename_i s1 hub
            obtain ⟨a1, a2⟩ := updatedBlockType_frame e _ _ _ _ _ hub
            obtain ⟨b1, b2⟩ := clearStored_frame s1 id s' h
            refine ⟨?_, b2.trans a2⟩
            intro x hx
            rw [b1, a1]
            exact hx
    · rw [if_pos (by simpa using hd)] at h
      cases h
      exact ⟨fun a ha => ha, rfl⟩

theorem remCovered_left (s0 s1 s2 : St) (evs : List Ev)
    (h0 : s0.inBackend ⊆ s1.inBackend) (hc : RemCovered s1 s2 evs) :
    RemCovered s0 s2 evs := by
  intro id hm hn
  exact hc id (h0 hm) hn

/-- All ids on `referenced_refcnt0_block_ids` are claimed by some
extref callback. -/
def PendClaimed (e : Env) (s : St) : Prop :=
  ∀ jd ∈ s.pending, e.claimed jd = true

theorem getBlockById_true_eq (e : Env) (s : St) (id : Nat) :
    getBlockById e s id true = ((gocBlock s id).1, some (gocBlock s id).2) := by
  unfold getBlockById
  rw [if_neg (by simp)]

theorem condWrite_frame (s : St) (id : Nat) (b : Bool) :
    (if b then
      match aGet s.recs id with
      | some r2 => { s with recs := aSet s.recs id { r2 with refcnt := none } }
      | none => s
     else s).inBackend = s.inBackend ∧
    (if b then
      match aGet s.recs id with
      | some r2 => { s with recs := aSet s.recs id { r2 with refcnt := none } }
      | none => s
     else s).pending = s.pending := by
  cases b
  · exact ⟨rfl, rfl⟩
  · cases aGet s.recs id <;> exact ⟨rfl, rfl⟩


theorem flushDirtyPass_spec (e : Env) (l : List Nat) :
    ∀ (s s' : St) (evs : List Ev), flushDirtyPass e s l = some (s', evs) →
      EvSafe evs ∧ RemCovered s s' evs ∧
      (PendClaimed e s → PendClaimed e s') := by
  induction l with
  | nil =>
    intro s s' evs h
    unfold flushDirtyPass at h
    cases h
    exact ⟨fun ev hm => absurd hm (by simp),
      remCovered_of_mono _ _ _ (fun a ha => ha), fun hp => hp⟩
  | cons id rest ih =>
    intro s s' evs h
    unfold flushDirtyPass at h
    split at h
    · cases h
    · rename_i s1 hbf
      split at h
      · cases h
      · rename_i r' hg'
        split at h
        · rename_i hrt
          split at h
          · cases h
          · rename_i s2 ev b hext
            obtain ⟨bf1, bf2⟩ := blockFlush_frame e s id s1 hbf
            have hfalsy : truthy r'.refcnt = false := by
              simpa using hrt
            have hpre : truthy (gocBlock s1 id).2.refcnt = false :=
              pre_of_rec_falsy s1 id r' hg' hfalsy
            obtain ⟨ex1, ex2, ex3⟩ := ifNoExtref_spec e s1 id s2 ev b hpre hext
            have finish : ∀ (s3 : St), s3.inBackend = s2.inBackend →
                s3.pending = s2.pending →
                (match flushDirtyPass e s3 rest with
                 | none => none
                 | some (s, ev2) => some (s, ev ++ ev2)) = some (s', evs) →
                EvSafe evs ∧ RemCovered s s' evs ∧
                (PendClaimed e s → PendClaimed e s') := by
              intro s3 hb3 hp3 hmm
              split at hmm
              · cases hmm
              · rename_i s4 ev2 hrec
                cases hmm
                obtain ⟨ih1, ih2, ih3⟩ := ih s3 s' ev2 hrec
                refine ⟨evSafe_append ev ev2 ex1 ih1, ?_, ?_⟩
                · have c1 : RemCovered s s2 ev := remCovered_left s s1 s2 ev bf1 ex2
                  have c2 : RemCovered s2 s' ev2 :=
                    remCovered_left s2 s3 s' ev2 (by rw [hb3]; exact fun a ha => ha) ih2
                  exact remCovered_trans s s2 s' ev ev2 c1 c2
                · intro hp
                  refine ih3 ?_
                  intro jd hj
                  rw [hp3] at hj
                  refine ex3 ?_ jd hj
                  intro jd2 hj2
                  rw [bf2] at hj2
                  exact hp jd2 hj2
            split at h
            · split at h
              · rename_i r2 hr2
                exact finish
                  { s2 with recs := aSet s2.recs id { r2 with refcnt := none } }
                  rfl rfl h
              · exact finish s2 rfl rfl h
            · exact finish s2 rfl rfl h
        · rename_i hrt
          obtain ⟨bf1, bf2⟩ := blockFlush_frame e s id s1 hbf
          obtain ⟨ih1, ih2, ih3⟩ := ih s1 s' evs h
          refine ⟨ih1, remCovered_left s s1 s' evs bf1 ih2, ?_⟩
          intro hp
          refine ih3 ?_
          intro jd hj
          rw [bf2] at hj
          exact hp jd hj

theorem flushDirtyLoop_spec (e : Env) (fuel : Nat) :
    ∀ (s s' : St) (evs : List Ev), flushDirtyLoop e fuel s = some (s', evs) →
      EvSafe evs ∧ RemCovered s s' evs ∧
      (PendClaimed e s → PendClaimed e s') := by
  induction fuel with
  | zero =>
    intro s s' evs h
    unfold flushDirtyLoop at h
    cases h
    exact ⟨fun ev hm => absurd hm (by simp),
      remCovered_of_mono _ _ _ (fun a ha => ha), fun hp => hp⟩
  | succ n ihn =>
    intro s s' evs h
    unfold flushDirtyLoop at h
    split at h
    · cases h
      exact ⟨fun ev hm => absurd hm (by simp),
        remCovered_of_mono _ _ _ (fun a ha => ha), fun hp => hp⟩
    · split at h
      · cases h
      · rename_i s1 ev hpass
        split at h
        · cases h
        · rename_i s2 ev2 hloop
          cases h
          obtain ⟨p1, p2, p3⟩ := flushDirtyPass_spec e s.dirtyIds _ s1 ev hpass
          obtain ⟨q1, q2, q3⟩ := ihn s1 s' ev2 hloop
          refine ⟨evSafe_append ev ev2 p1 q1, ?_, ?_⟩
          · have c1 : RemCovered s s1 ev :=
              remCovered_left s _ s1 ev (fun a ha => ha) p2
            exact remCovered_trans s s1 s' ev ev2 c1 q2
          · intro hp
            exact q3 (p3 hp)

theorem danglingPass_spec (e : Env) (l : List Nat) :
    ∀ (s s' : St) (evs : List Ev) (b : Bool),
      danglingPass e s l = some (s', evs, b) →
      EvSafe evs ∧ RemCovered s s' evs ∧
      (PendClaimed e s → PendClaimed e s') := by
  induction l with
  | nil =>
    intro s s' evs b h
    unfold danglingPass at h
    cases h
    exact ⟨fun ev hm => absurd hm (by simp),
      remCovered_of_mono _ _ _ (fun a ha => ha), fun hp => hp⟩
  | cons id rest ih =>
    intro s s' evs b h
    unfold danglingPass at h
    rw [getBlockById_true_eq] at h
    dsimp only at h
    split at h
    · rename_i hrt
      split at h
      · cases h
      · rename_i s2 ev bb hext
        split at h
        · cases h
        · rename_i s4 ev2 b2 hrec
          cases h
          have hpre : truthy (gocBlock (gocBlock s id).1 id).2.refcnt = false := by
            rw [gocBlock_goc]
            simpa using hrt
          obtain ⟨g1, g2, _⟩ := gocBlock_frame s id
          obtain ⟨ex1, ex2, ex3⟩ := ifNoExtref_spec e _ id s2 ev bb hpre hext
          obtain ⟨ih1, ih2, ih3⟩ := ih s2 s' ev2 b2 hrec
          refine ⟨evSafe_append ev ev2 ex1 ih1, ?_, ?_⟩
          · have c1 : RemCovered s s2 ev :=
              remCovered_left s _ s2 ev (by rw [g1]; exact fun a ha => ha) ex2
            exact remCovered_trans s s2 s' ev ev2 c1 ih2
          · intro hp
            refine ih3 (ex3 ?_)
            intro jd hj
            rw [g2] at hj
            exact hp jd hj
    · rename_i hrt
      split at h
      · cases h
      · rename_i s4 ev2 b2 hrec
        cases h
        obtain ⟨g1, g2, _⟩ := gocBlock_frame s id
        obtain ⟨ih1, ih2, ih3⟩ := ih _ s' evs b hrec
        refine ⟨ih1,
          remCovered_left s _ s' evs (by rw [g1]; exact fun a ha => ha) ih2, ?_⟩
        intro hp
        refine ih3 ?_
        intro jd hj
        rw [g2] at hj
        exact hp jd hj

theorem danglingLoop_spec (e : Env) (fuel : Nat) :
    ∀ (s s' : St) (evs : List Ev), danglingLoop e fuel s = some (s', evs) →
      EvSafe evs ∧ RemCovered s s' evs ∧
      (PendClaimed e s → PendClaimed e s') := by
  induction fuel with
  | zero =>
    intro s s' evs h
    unfold danglingLoop at h
    cases h
    exact ⟨fun ev hm => absurd hm (by simp),
      remCovered_of_mono _ _ _ (fun a ha => ha), fun hp => hp⟩
  | succ n ihn =>
    intro s s' evs h
    unfold danglingLoop at h
    split at h
    · cases h
      exact ⟨fun ev hm => absurd hm (by simp),
        remCovered_of_mono _ _ _ (fun a ha => ha), fun hp => hp⟩
    · split at h
      · cases h
      · rename_i s1 ev deleted hpass
        split at h
        · split at h
          · cases h
          · rename_i s2 ev2 hloop
            cases h
            obtain ⟨p1, p2, p3⟩ := danglingPass_spec e s.pending _ s1 ev deleted hpass
            obtain ⟨q1, q2, q3⟩ := ihn s1 s' ev2 hloop
            refine ⟨evSafe_append ev ev2 p1 q1, ?_, ?_⟩
            · have c1 : RemCovered s s1 ev :=
                remCovered_left s _ s1 ev (fun a ha => ha) p2
              exact remCovered_trans s s1 s' ev ev2 c1 q2
            · intro hp
              refine q3 (p3 ?_)
              intro jd hj
              cases hj
        · cases h
          obtain ⟨p1, p2, p3⟩ := danglingPass_spec e s.pending _ s' evs deleted hpass
          refine ⟨p1, remCovered_left s _ s' evs (fun a ha => ha) p2, ?_⟩
          intro hp
          refine p3 ?_
          intro jd hj
          cases hj

/-- After a dangling loop that ran at least one pass (or found nothing
pending), every id still pending is claimed by some extref callback:
the pass starts from an emptied set and
`delete_block_id_if_no_extref` re-adds only claimed ids. -/
theorem danglingLoop_claimed (e : Env) (fuel : Nat) (s s' : St)
    (evs : List Ev) (h : danglingLoop e (fuel + 1) s = some (s', evs)) :
    PendClaimed e s' := by
  unfold danglingLoop at h
  split at h
  · rename_i hpend
    cases h
    intro jd hj
    rw [hpend] at hj
    cases hj
  · split at h
    · cases h
    · rename_i s1 ev deleted hpass
      obtain ⟨_, _, p3⟩ := danglingPass_spec e s.pending _ s1 ev deleted hpass
      have hc1 : PendClaimed e s1 := p3 (by intro jd hj; cases hj)
      split at h
      · split at h
        · cases h
        · rename_i s2 ev2 hloop
          cases h
          obtain ⟨_, _, q3⟩ := danglingLoop_spec e fuel s1 s' ev2 hloop
          exact q3 hc1
      · cases h
        exact hc1

theorem setData_frame (s : St) (id : Nat) (v : Option Nat) (s' : St)
    (h : setData s id v = some s') :
    s'.inBackend = s.inBackend ∧ s'.pending = s.pending := by
  unfold setData at h
  cases hm : markDirtyRec s id with
  | none => rw [hm] at h; cases h
  | some s1 =>
    rw [hm] at h
    dsimp only at h
    cases hg : aGet s1.recs id with
    | none => rw [hg] at h; cases h
    | some r =>
      rw [hg] at h
      dsimp only at h
      cases h
      obtain ⟨h1, h2, _⟩ := markDirtyRec_frame s id s1 hm
      exact ⟨h1, h2⟩

theorem setType_frame (s : St) (id : Nat) (v : Option Nat) (s' : St)
    (h : setType s id v = some s') :
    s'.inBackend = s.inBackend ∧ s'.pending = s.pending := by
  unfold setType at h
  cases hm : markDirtyRec s id with
  | none => rw [hm] at h; cases h
  | some s1 =>
    rw [hm] at h
    dsimp only at h
    cases hg : aGet s1.recs id with
    | none => rw [hg] at h; cases h
    | some r =>
      rw [hg] at h
      dsimp only at h
      cases h
      obtain ⟨h1, h2, _⟩ := markDirtyRec_frame s id s1 hm
      exact ⟨h1, h2⟩

theorem storeBlockOp_frame (e : Env) (s : St) (id data : Nat) (s' : St)
    (h : storeBlockOp e s id data = some s') :
    s'.inBackend = s.inBackend ∧ s'.pending = s.pending := by
  unfold storeBlockOp at h
  dsimp only at h
  split at h
  · cases h
  · split at h
    · cases h
    · split at h
      · cases h
      · rename_i s1 hsd
        split at h
        · cases h
        · rename_i s2 hsr
          split at h
          · cases h
          · rename_i s3 hst
            obtain ⟨g1, g2, _⟩ := gocBlock_frame s id
            obtain ⟨d1, d2⟩ := setData_frame _ id (some data) s1 hsd
            obtain ⟨r1, r2, _⟩ := setRefcnt_frame s1 id (some 1) s2 hsr
            obtain ⟨t1, t2⟩ := setType_frame s2 id (some 0) s3 hst
            obtain ⟨u1, u2⟩ := updateDeps_frame e s3 (some data) true (some 0) s' h
            exact ⟨u1.trans (t1.trans (r1.trans (d1.trans g1))),
                   u2.trans (t2.trans (r2.trans (d2.trans g2)))⟩

/-- C5: never-delete-while-referenced, over the step operations of the
delayed store (`store_block`, `refer_block`, `release_block`, `flush`).
(1)–(3): `store_block`, `refer_block` and `release_block` never remove
a block from the backend and never touch the pending
`referenced_refcnt0_block_ids` set, so only `flush` can delete.
(4): when a registered extref callback claims a refcnt-0 id,
`delete_block_id_if_no_extref` retains it on the pending set and
deletes nothing.  (5): a `flush` removes a block from the backend only
under a deletion event taken at a moment when the block's refcnt was
falsy and no extref callback claimed its id (`EvSafe` plus
`RemCovered`), and after a flush whose dangling loop ran at least once
every id still pending is claimed by some callback — the flush retried
the deletion of every previously pending id and kept exactly the
still-referenced ones. -/
theorem C5_never_delete_while_referenced (e : Env) (s : St) :
    (∀ id data s', storeBlockOp e s id data = some s' →
        s'.inBackend = s.inBackend ∧ s'.pending = s.pending) ∧
    (∀ id s', referBlock e s id = some s' →
        s'.inBackend = s.inBackend ∧ s'.pending = s.pending) ∧
    (∀ id s', releaseBlock e s id = some s' →
        s'.inBackend = s.inBackend ∧ s'.pending = s.pending) ∧
    (∀ id, e.claimed id = true →
        ifNoExtref e s id =
          some ({ s with pending := insertId id s.pending }, [], false)) ∧
    (∀ f1 f2 s' evs, flushOp e f1 f2 s = some (s', evs) →
        EvSafe evs ∧ RemCovered s s' evs ∧ (0 < f1 → PendClaimed e s')) := by
  refine ⟨fun id data s' h => storeBlockOp_frame e s id data s' h,
    fun id s' h => referBlock_frame e s id s' h,
    fun id s' h => releaseBlock_frame e s id s' h,
    ?_, ?_⟩
  · intro id hc
    unfold ifNoExtref
    rw [if_pos hc]
  · intro f1 f2 s' evs h
    unfold flushOp at h
    split at h
    · cases h
    · rename_i s1 ev1 hd
      split at h
      · cases h
      · rename_i s2 ev2 hf
        cases h
        obtain ⟨d1, d2, d3⟩ := danglingLoop_spec e f1 s s1 ev1 hd
        obtain ⟨q1, q2, q3⟩ := flushDirtyLoop_spec e f2 s1 s' ev2 hf
        refine ⟨evSafe_append ev1 ev2 d1 q1,
          remCovered_trans s s1 s' ev1 ev2 d2 q2, ?_⟩
        intro hf1
        rcases f1 with _ | n
        · exact absurd hf1 (by omega)
        · exact q3 (danglingLoop_claimed e n s s1 ev1 hd)

def c5E : Env := Env.mk (fun id => id == 7) (fun _ => [])

def c5S : St := St.mk
  [(7, BlockRec.mk (some 0) (some 1) (some 0) none false),
   (3, BlockRec.mk (some 0) (some 2) (some 0) none false)]
  [7, 3] [7, 3] [] [7, 3]

def c5Srefer : St := St.mk
  [(7, BlockRec.mk (some 1) (some 1) (some 0)
      (some (Snapshot.mk (some 0) (some 1) (some 0))) true),
   (3, BlockRec.mk (some 0) (some 2) (some 0) none false)]
  [7, 3] [7, 3] [7] [7, 3]

def c5Srelease : St := St.mk
  [(7, BlockRec.mk (some 0) (some 1) (some 0)
      (some (Snapshot.mk (some 0) (some 1) (some 0))) true),
   (3, BlockRec.mk (some 0) (some 2) (some 0) none false)]
  [7, 3] [7, 3] [7] [7, 3]

def c5Sstore : St := St.mk
  [(9, BlockRec.mk (some 1) (some 5) (some 0)
      (some (Snapshot.mk none none none)) true),
   (7, BlockRec.mk (some 0) (some 1) (some 0) none false),
   (3, BlockRec.mk (some 0) (some 2) (some 0) none false)]
  [7, 3] [9, 7, 3] [9] [7, 3]

def c5Sflushed : St := St.mk
  [(7, BlockRec.mk (some 0) (some 1) (some 0) none false),
   (3, BlockRec.mk (some 0) (some 2) (some 0) none false)]
  [7] [7] [] [7]

/-- Witness for C5 at a concrete store holding blocks 7 and 3, both
with refcnt 0 and only block 7 claimed by the extref callback: a fresh
`store_block` of block 9, a `refer_block`/`release_block` pair on block
7 all leave backend membership and the pending set untouched;
`delete_block_id_if_no_extref` on the claimed block 7 retains it
pending; and `flush` deletes exactly the unclaimed block 3 (event
refcnt 0, unclaimed) while the claimed block 7 survives in the backend
and is the only id left pending. -/
theorem C5_never_delete_while_referenced_witness :
    (storeBlockOp c5E c5S 9 5 = some c5Sstore ∧
      c5Sstore.inBackend = c5S.inBackend ∧ c5Sstore.pending = c5S.pending) ∧
    (referBlock c5E c5S 7 = some c5Srefer ∧
      c5Srefer.inBackend = c5S.inBackend ∧ c5Srefer.pending = c5S.pending) ∧
    (releaseBlock c5E c5Srefer 7 = some c5Srelease ∧
      c5Srelease.inBackend = c5Srefer.inBackend ∧
      c5Srelease.pending = c5Srefer.pending) ∧
    (c5E.claimed 7 = true ∧
      ifNoExtref c5E c5S 7 =
        some ({ c5S with pending := insertId 7 c5S.pending }, [], false)) ∧
    (flushOp c5E 1 1 c5S = some (c5Sflushed, [(3, some 0, false)]) ∧
      EvSafe [(3, some 0, false)] ∧
      RemCovered c5S c5Sflushed [(3, some 0, false)] ∧
      PendClaimed c5E c5Sflushed) := by
  have main := C5_never_delete_while_referenced c5E c5S
  have main2 := C5_never_delete_while_referenced c5E c5Srefer
  have h1 : storeBlockOp c5E c5S 9 5 = some c5Sstore := by decide
  have h2 : referBlock c5E c5S 7 = some c5Srefer := by decide
  have h3 : releaseBlock c5E c5Srefer 7 = some c5Srelease := by decide
  have h5 : flushOp c5E 1 1 c5S = some (c5Sflushed, [(3, some 0, false)]) := by
    decide
  obtain ⟨e1, e2, e3⟩ :=
    main.2.2.2.2 1 1 c5Sflushed [(3, some 0, false)] h5
  exact ⟨⟨h1, main.1 9 5 c5Sstore h1⟩,
    ⟨h2, main.2.1 7 c5Srefer h2⟩,
    ⟨h3, main2.2.2.1 7 c5Srelease h3⟩,
    ⟨rfl, main.2.2.2.1 7 rfl⟩,
    ⟨h5, e1, e2, e3 (by decide)⟩⟩

end Tfhfs.Storage

namespace Tfhfs.Codec

open Tfhfs (Bytes)

/-- `const.BIT_COMPRESSED` (0x80). -/
def BIT_COMPRESSED : Nat := 128

/-- Python `t & ~BIT_COMPRESSED` on a non-negative int: clear bit 7. -/
def clearBit7 (t : Nat) : Nat := if t.testBit 7 then t - 128 else t

/-- `NopBlockCodec.encode_block`: the identity. -/
def nopEncode (blockId d : Bytes) : Option Bytes := some d

/-- `NopBlockCodec.decode_block`: the identity. -/
def nopDecode (blockId d : Bytes) : Option Bytes := some d

/-- `TypedBlockCodec.encode_block` over an inner codec `enc`: assert
`0 <= t < 256` and prepend the type byte (`bytes([t]) + d`). -/
def typedEncode (enc : Bytes → Bytes → Option Bytes) (blockId : Bytes)
    (t : Nat) (d : Bytes) : Option Bytes :=
  if t < 256 then enc blockId (t :: d) else none

/-- `TypedBlockCodec.decode_block` over an inner codec `dec`: assert the
input and the inner decode result are non-empty, and split off the type
byte (`(rd[0], rd[1:])`). -/
def typedDecode (dec : Bytes → Bytes → Option Bytes) (blockId : Bytes)
    (bd : Bytes) : Option (Nat × Bytes) :=
  if bd.length = 0 then none
  else
    match dec blockId bd with
    | none => none
    | some [] => none
    | some (t :: rest) => some (t, rest)

/-- `CompressingTypedBlockCodec.encode_block`: assert the COMPRESSED bit
is clear, compress, and keep the compressed form (setting the bit in the
type byte) only when it is strictly shorter.  `compress` stands for
`lz4.compress`. -/
def compressingEncode (compress : Bytes → Bytes)
    (enc : Bytes → Bytes → Option Bytes) (blockId : Bytes)
    (t : Nat) (d : Bytes) : Option Bytes :=
  if t &&& BIT_COMPRESSED ≠ 0 then none
  else
    let cd := compress d
    if cd.length < d.length then
      typedEncode enc blockId (t ||| BIT_COMPRESSED) cd
    else typedEncode enc blockId t d

/-- `CompressingTypedBlockCodec.decode_block`: decode, and when the
COMPRESSED bit is set decompress and clear it.  `loads` stands for
`lz4.loads`. -/
def compressingDecode (loads : Bytes → Bytes)
    (dec : Bytes → Bytes → Option Bytes) (blockId : Bytes)
    (bd : Bytes) : Option (Nat × Bytes) :=
  match typedDecode dec blockId bd with
  | none => none
  | some (t, d) =>
      if t &&& BIT_COMPRESSED ≠ 0 then some (clearBit7 t, loads d)
      else some (t, d)

/-- `ConfidentialBlockCodec.magic` (`b'4207'`). -/
def magic : Bytes := [52, 50, 48, 55]

/-- `ConfidentialBlockCodec.encode_block`: assert the 32-byte id,
draw a 16-byte IV (`iv` is the randomness drawn, fixed as a parameter),
AES-GCM-encrypt with the id as authenticated data (`encAead iv aad d`
yields the ciphertext/tag pair of the keyed cipher), assert the 16-byte
tag, and emit `magic ++ iv ++ tag ++ ciphertext`. -/
def confidentialEncode (encAead : Bytes → Bytes → Bytes → Bytes × Bytes)
    (iv : Bytes) (blockId : Bytes) (d : Bytes) : Option Bytes :=
  if blockId.length = 32 ∧ iv.length = 16 ∧
      ((encAead iv blockId d).2).length = 16 then
    some (magic ++ (iv ++ ((encAead iv blockId d).2 ++ (encAead iv blockId d).1)))
  else none

/-- `ConfidentialBlockCodec.decode_block`: assert the 32-byte id and a
payload longer than magic+IV+tag, check the magic, split off IV and tag
and decrypt the rest (`decAead iv tag aad ct` is the keyed decryption,
`none` on an `InvalidTag`). -/
def confidentialDecode (decAead : Bytes → Bytes → Bytes → Bytes → Option Bytes)
    (blockId : Bytes) (bd : Bytes) : Option Bytes :=
  if blockId.length = 32 ∧ 36 < bd.length then
    if bd.take 4 = magic then
      decAead ((bd.take 20).drop 4) ((bd.take 36).drop 20) blockId (bd.drop 36)
    else none
  else none

theorem byte7_facts (t : Nat) (ht : t < 256) :
    t &&& 128 = 0 →
      (t ||| 128) < 256 ∧ (t ||| 128) &&& 128 ≠ 0 ∧
        clearBit7 (t ||| 128) = t := by
  interval_cases t <;> decide

theorem slice_parts (m i tg c : Bytes) (hm : m.length = 4)
    (hi : i.length = 16) (htg : tg.length = 16) :
    (m ++ (i ++ (tg ++ c))).take 4 = m ∧
    ((m ++ (i ++ (tg ++ c))).take 20).drop 4 = i ∧
    ((m ++ (i ++ (tg ++ c))).take 36).drop 20 = tg ∧
    (m ++ (i ++ (tg ++ c))).drop 36 = c ∧
    (m ++ (i ++ (tg ++ c))).length = 36 + c.length := by
  have h2 : (m ++ (i ++ (tg ++ c))).drop 4 = i ++ (tg ++ c) :=
    List.drop_left' hm
  have h3 : (m ++ (i ++ (tg ++ c))).drop 20 = tg ++ c := by
    rw [show (20 : Nat) = 4 + 16 by omega, ← List.drop_drop, h2,
      List.drop_left' hi]
  refine ⟨?_, ?_, ?_, ?_, ?_⟩
  · rw [List.take_append_of_le_length (by omega), ← hm, List.take_length]
  · rw [List.drop_take, h2, List.take_append_of_le_length (by omega)]
    rw [show (20 - 4 : Nat) = 16 by omega, ← hi, List.take_length]
  · rw [List.drop_take, h3, List.take_append_of_le_length (by omega)]
    rw [show (36 - 20 : Nat) = 16 by omega, ← htg, List.take_length]
  · rw [show (36 : Nat) = 20 + 16 by omega, ← List.drop_drop, h3,
      List.drop_left' htg]
  · simp [hm, hi, htg]; omega

/-- Round trip through the typed+compressing layer over an arbitrary
inner codec that succeeds and round-trips on non-empty payloads. -/
theorem compressing_roundtrip (compress loads : Bytes → Bytes)
    (hlz : ∀ d, loads (compress d) = d)
    (enc : Bytes → Bytes → Option Bytes)
    (dec : Bytes → Bytes → Option Bytes)
    (blockId : Bytes)
    (hinner : ∀ x xs, ∃ s, enc blockId (x :: xs) = some s ∧
      s.length ≠ 0 ∧ dec blockId s = some (x :: xs))
    (t : Nat) (ht : t < 256) (htc : t &&& 128 = 0)
    (d : Bytes) :
    (compressingEncode compress enc blockId t d).bind
      (compressingDecode loads dec blockId) = some (t, d) := by
  obtain ⟨b1, b2, b3⟩ := byte7_facts t ht htc
  unfold compressingEncode
  rw [if_neg (by simp only [BIT_COMPRESSED]; simpa using htc)]
  dsimp only
  by_cases hlen : (compress d).length < d.length
  · rw [if_pos hlen]
    unfold typedEncode
    rw [if_pos (by simp only [BIT_COMPRESSED]; simpa using b1)]
    obtain ⟨s0, hs0, hs1, hs2⟩ := hinner (t ||| BIT_COMPRESSED) (compress d)
    rw [hs0]
    show compressingDecode loads dec blockId s0 = some (t, d)
    unfold compressingDecode typedDecode
    rw [if_neg hs1, hs2]
    dsimp only
    rw [if_pos (by simp only [BIT_COMPRESSED]; simpa using b2)]
    simp only [BIT_COMPRESSED]
    rw [b3, hlz]
  · rw [if_neg hlen]
    unfold typedEncode
    rw [if_pos ht]
    obtain ⟨s0, hs0, hs1, hs2⟩ := hinner t d
    rw [hs0]
    show compressingDecode loads dec blockId s0 = some (t, d)
    unfold compressingDecode typedDecode
    rw [if_neg hs1, hs2]
    dsimp only
    rw [if_neg (by simp only [BIT_COMPRESSED]; simpa using htc)]

/-- The confidential codec succeeds, produces non-empty output and
round-trips on non-empty payloads, assuming the AES-GCM primitive
round-trips with matching parameters, produces 16-byte tags, and is
length-preserving on the ciphertext. -/
theorem confidential_inner (encAead : Bytes → Bytes → Bytes → Bytes × Bytes)
    (decAead : Bytes → Bytes → Bytes → Bytes → Option Bytes)
    (htag : ∀ iv aad d, ((encAead iv aad d).2).length = 16)
    (hct : ∀ iv aad d, ((encAead iv aad d).1).length = d.length)
    (hdec : ∀ iv aad d,
      decAead iv ((encAead iv aad d).2) aad ((encAead iv aad d).1) = some d)
    (iv : Bytes) (hiv : iv.length = 16)
    (blockId : Bytes) (hid : blockId.length = 32) :
    ∀ x xs, ∃ s, confidentialEncode encAead iv blockId (x :: xs) = some s ∧
      s.length ≠ 0 ∧ confidentialDecode decAead blockId s = some (x :: xs) := by
  intro x xs
  refine ⟨magic ++ (iv ++ ((encAead iv blockId (x :: xs)).2 ++
    (encAead iv blockId (x :: xs)).1)), ?_, ?_, ?_⟩
  · unfold confidentialEncode
    rw [if_pos ⟨hid, hiv, htag iv blockId (x :: xs)⟩]
  · obtain ⟨_, _, _, _, p5⟩ := slice_parts magic iv
      ((encAead iv blockId (x :: xs)).2) ((encAead iv blockId (x :: xs)).1)
      (by decide) hiv (htag iv blockId (x :: xs))
    rw [p5]; omega
  · obtain ⟨p1, p2, p3, p4, p5⟩ := slice_parts magic iv
      ((encAead iv blockId (x :: xs)).2) ((encAead iv blockId (x :: xs)).1)
      (by decide) hiv (htag iv blockId (x :: xs))
    unfold confidentialDecode
    rw [if_pos ⟨hid, by rw [p5, hct]; simp⟩, if_pos p1, p2, p3, p4, hdec]

/-- C6: with the third-party primitives modelled abstractly — `lz4`
as any `compress`/`loads` pair with `loads (compress d) = d`, and the
keyed AES-GCM cipher of a `ConfidentialBlockCodec` (for an arbitrary
password/salt-derived key) as any `encAead`/`decAead` pair that
round-trips with matching IV/tag/AAD, produces 16-byte tags and
length-preserving ciphertexts — the codec stack round-trips: for every
32-byte block id, type byte `t < 256` with the COMPRESSED bit clear,
and data, `decode_block (encode_block (t, d)) = (t, d)`, both for
`CompressingTypedBlockCodec(NopBlockCodec())` and for
`CompressingTypedBlockCodec(ConfidentialBlockCodec(password))` at any
16-byte IV drawn during encoding. -/
theorem C6_codec_roundtrip (compress loads : Bytes → Bytes)
    (hlz : ∀ d, loads (compress d) = d)
    (encAead : Bytes → Bytes → Bytes → Bytes × Bytes)
    (decAead : Bytes → Bytes → Bytes → Bytes → Option Bytes)
    (htag : ∀ iv aad d, ((encAead iv aad d).2).length = 16)
    (hct : ∀ iv aad d, ((encAead iv aad d).1).length = d.length)
    (hdec : ∀ iv aad d,
      decAead iv ((encAead iv aad d).2) aad ((encAead iv aad d).1) = some d)
    (iv : Bytes) (hiv : iv.length = 16)
    (blockId : Bytes) (hid : blockId.length = 32)
    (t : Nat) (ht : t < 256) (htc : t &&& 128 = 0) (d : Bytes) :
    (compressingEncode compress nopEncode blockId t d).bind
      (compressingDecode loads nopDecode blockId) = some (t, d) ∧
    (compressingEncode compress (confidentialEncode encAead iv) blockId t d).bind
      (compressingDecode loads (confidentialDecode decAead) blockId) =
      some (t, d) := by
  constructor
  · exact compressing_roundtrip compress loads hlz nopEncode nopDecode blockId
      (fun x xs => ⟨x :: xs, rfl, by simp, rfl⟩) t ht htc d
  · exact compressing_roundtrip compress loads hlz
      (confidentialEncode encAead iv) (confidentialDecode decAead) blockId
      (confidential_inner encAead decAead htag hct hdec iv hiv blockId hid)
      t ht htc d

/-- Witness for C6: identity `compress`/`loads`, a trivial
length-preserving AEAD (ciphertext = plaintext, tag = 16 zero bytes,
decryption ignores the tag), a zero 16-byte IV and a zero 32-byte id,
type byte 5 and data `[1, 2, 3]`: both stacks decode their own encoding
back to `(5, [1, 2, 3])`. -/
theorem C6_codec_roundtrip_witness :
    (compressingEncode (fun d => d) nopEncode (List.replicate 32 0) 5
        [1, 2, 3]).bind
      (compressingDecode (fun d => d) nopDecode (List.replicate 32 0)) =
      some (5, [1, 2, 3]) ∧
    (compressingEncode (fun d => d)
        (confidentialEncode (fun _ _ d => (d, List.replicate 16 0))
          (List.replicate 16 0))
        (List.replicate 32 0) 5 [1, 2, 3]).bind
      (compressingDecode (fun d => d)
        (confidentialDecode (fun _ _ _ c => some c))
        (List.replicate 32 0)) =
      some (5, [1, 2, 3]) :=
  C6_codec_roundtrip (fun d => d) (fun d => d) (fun d => rfl)
    (fun _ _ d => (d, List.replicate 16 0)) (fun _ _ _ c => some c)
    (fun iv aad d => by simp) (fun iv aad d => rfl) (fun iv aad d => rfl)
    (List.replicate 16 0) (by simp) (List.replicate 32 0) (by simp)
    5 (by omega) (by decide) [1, 2, 3]

end Tfhfs.Codec

namespace Tfhfs.Btree

/-- A btree node (`btree.py`): a `LeafNode` (its key — the hashed,
prefixed name — is always set; its size is `header_size + len(name)`) or
a `TreeNode` (the stored `key`, `None` until first assigned, and the
ordered `children`; `child_keys` and `csize` are derived).  Keys are
embedded as `Nat` (the source's byte strings under their lexicographic
order). -/
inductive BNode where
  | leaf (key : Nat) (sz : Nat)
  | tree (key : Option Nat) (children : List BNode)
deriving Repr

/-- `Node.key`. -/
def keyOf : BNode → Option Nat
  | .leaf k _ => some k
  | .tree k _ => k

/-- `LeafNode.size` (`header_size + len(name)`, carried as `sz`) and
`TreeNode.size` (`header_size + NAME_SIZE` = 36 + 256 = 292). -/
def sizeOfNode : BNode → Nat
  | .leaf _ s => s
  | .tree _ _ => 292

/-- `TreeNode.csize` — maintained incrementally in the source, always
equal to the sum of the children's sizes. -/
def csize (cs : List BNode) : Nat := (cs.map sizeOfNode).sum

/-- `TreeNode.child_keys` — maintained incrementally in the source,
always the list of the children's keys. -/
def keysOf (cs : List BNode) : List (Option Nat) := cs.map keyOf

/-- `bisect.bisect(child_keys, k)` over a (sorted) key list; a `None`
among the keys would raise a `TypeError` comparing it against bytes. -/
def bisectR : List (Option Nat) → Nat → Option Nat
  | [], _ => some 0
  | none :: _, _ => none
  | some x :: xs, k => if k < x then some 0 else (bisectR xs k).map (· + 1)

/-- `search_prev_or_eq`'s index: `idx = bisect_right(child_keys, k); if
idx: idx -= 1`. -/
def descIdx (i0 : Nat) : Nat := if i0 = 0 then 0 else i0 - 1

/-- `TreeNode.add_child_nocheck(c, idx=...)`: `assert k` on the child's
key, locate the insertion point by `bisect` when no index is given, and
insert into `children`/`child_keys` (`csize` adjusts implicitly). -/
def addChildNocheck (cs : List BNode) (c : BNode) (idx? : Option Nat) :
    Option (Nat × List BNode) :=
  match keyOf c with
  | none => none
  | some k =>
      match idx? with
      | some i => some (i, cs.insertIdx i c)
      | none => (bisectR (keysOf cs) k).map (fun i => (i, cs.insertIdx i c))

/-- `TreeNode._update_key_maybe()` (the non-force form, the only one on
the add paths), acting on a single node: read `nk = self.child_keys[0]`
(`IndexError` on an empty node), return unchanged for the root (`not
self.parent`) or when `self.key <= nk` (`None` on either side of the
comparison raises), else set `key = nk`.  The flag reports that the key
was updated — the source then recurses into the parent when this node
sits at index 0 there, which the caller (one level up) decides. -/
def updateKeyMaybeNF (isRoot : Bool) (key : Option Nat) (cs : List BNode) :
    Option (Option Nat × Bool) :=
  match cs.head? with
  | none => none
  | some c0 =>
      if isRoot then some (key, false)
      else
        match key, keyOf c0 with
        | some k, some nk =>
            if k ≤ nk then some (key, false) else some (some nk, true)
        | _, _ => none

/-- The split loop of `TreeNode.add_child`: `while self.csize >
tn.csize: tn.add_child_nocheck(self._pop_child(-1), idx=0)` — children
move one at a time from the end of `cs` to the front of `acc` (each move
runs `add_child_nocheck`'s `assert k`), so the moved suffix keeps its
order; fuel `cs.length` suffices since every iteration shortens `cs`. -/
def splitOff : Nat → List BNode → List BNode →
    Option (List BNode × List BNode)
  | 0, cs, acc => if csize acc < csize cs then none else some (cs, acc)
  | fuel + 1, cs, acc =>
      if csize acc < csize cs then
        match cs.getLast? with
        | none => none
        | some c =>
            match keyOf c with
            | none => none
            | some _ => splitOff fuel cs.dropLast (c :: acc)
      else some (cs, acc)

/-- The root-split second loop: `while self.children:
tn2.add_child_nocheck(self._pop_child(-1), idx=0)` — popping from the
end and inserting at the front moves every child, reassembling the list
in its original order; each move runs the `assert k` on the child's
key. -/
def moveAll (cs : List BNode) : Option (List BNode) :=
  if cs.all (fun c => (keyOf c).isSome) then some cs else none

/-- The outcome of one `add_to_tree` descent into a subtree:
`search_prev_or_eq` hit a node with no children (`sc = None` — the add
then happens at the root), the found leaf had the added key
(`assert sc.key != c.key` fails), or the subtree was rebuilt — `chain`
records that the node's key was updated (so the source recurses its
`_update_key_maybe` into the parent when the node is that parent's first
child), and `sib` carries a split-off sibling for
`self.parent.add_child(tn)`. -/
inductive AddRes where
  | empty
  | dup
  | ok (n : BNode) (chain : Bool) (sib : Option BNode)

/-- `TreeNode.add_child(c)` acting on the node it is invoked on: insert
`c` by bisect, run `_update_key_maybe` when it landed at index 0, and
when `csize` exceeds `maximum_size` (= `BLOCK_SIZE_LIMIT` = 128000)
split: the upper half moves to a fresh `tn` (`tn.key =
tn.child_keys[0]`, an `IndexError` when empty), which a non-root hands
to its caller for `self.parent.add_child(tn)`; a root moves its
remaining children to a fresh `tn2` and re-inserts `[tn2, tn]` (each
re-insertion running `assert k`), keeping its own key. -/
def addChildHere (isRoot : Bool) (key : Option Nat) (cs : List BNode)
    (c : BNode) : Option (BNode × Bool × Option BNode) :=
  match addChildNocheck cs c none with
  | none => none
  | some (idx, cs1) =>
      match (if idx = 0 then updateKeyMaybeNF isRoot key cs1
             else some (key, false)) with
      | none => none
      | some (key1, chain) =>
          if csize cs1 ≤ 128000 then some (.tree key1 cs1, chain, none)
          else
            match splitOff cs1.length cs1 [] with
            | none => none
            | some (rest, tnCs) =>
                match tnCs.head? with
                | none => none
                | some t0 =>
                    if isRoot then
                      match moveAll rest with
                      | none => none
                      | some tn2Cs =>
                          match tn2Cs.head? with
                          | none => none
                          | some r0 =>
                              match keyOf r0, keyOf t0 with
                              | some _, some _ =>
                                  some (.tree key1
                                    [.tree (keyOf r0) tn2Cs,
                                     .tree (keyOf t0) tnCs], chain, none)
                              | _, _ => none
                    else
                      some (.tree key1 rest, chain,
                        some (.tree (keyOf t0) tnCs))

mutual
/-- One `add_to_tree(c)` descent at a node: follow `search_prev_or_eq`
(empty `child_keys` ends the search with `None`; otherwise step to
`children[bisect_right(child_keys, k) - 1]`), and on reaching the node
whose chosen child is a leaf run the duplicate `assert` and
`sc.parent.add_child(c)` there.  On the way back up: rebuild the child
slot; when the child reported a key update and the source's gate
(`parent.child_keys.index(self.key)`, looked up with the child's
pre-update key in the pre-update key list) is 0, run
`_update_key_maybe`; then a split-off child sibling is added to this
node (`self.parent.add_child(tn)`), whose own key-update request is
merged into this node's (`_update_key_maybe` applies the same
conditional assignment whether invoked once or twice). -/
def addRec (isRoot : Bool) (c : BNode) : BNode → Option AddRes
  | .leaf _ _ => none
  | .tree key cs =>
      match keyOf c with
      | none => none
      | some k =>
          if cs.isEmpty then some .empty
          else
            match bisectR (keysOf cs) k with
            | none => none
            | some i0 =>
                match cs[descIdx i0]? with
                | none => none
                | some (.leaf lk _) =>
                    if lk = k then some .dup
                    else
                      (addChildHere isRoot key cs c).map
                        (fun p => .ok p.1 p.2.1 p.2.2)
                | some (.tree _ _) =>
                    match addRecNth c cs (descIdx i0) with
                    | none => none
                    | some .empty => some .empty
                    | some .dup => some .dup
                    | some (.ok ch' chain sib) =>
                        match cs[descIdx i0]? with
                        | none => none
                        | some ch =>
                            match (if chain &&
                                ((keysOf cs).indexOf (keyOf ch) == 0) then
                                  updateKeyMaybeNF isRoot key
                                    (cs.set (descIdx i0) ch')
                                else some (key, false)) with
                            | none => none
                            | some (key1, chainUp) =>
                                match sib with
                                | none =>
                                    some (.ok
                                      (.tree key1 (cs.set (descIdx i0) ch'))
                                      chainUp none)
                                | some tn =>
                                    match addChildHere isRoot key1
                                        (cs.set (descIdx i0) ch') tn with
                                    | none => none
                                    | some (n2, chain2, sib2) =>
                                        some (.ok n2 (chainUp || chain2) sib2)

/-- Walk to the `i`-th child and run the descent there (the child of a
deeper node is never the root). -/
def addRecNth (c : BNode) : List BNode → Nat → Option AddRes
  | [], _ => none
  | ch :: _, 0 => addRec false c ch
  | _ :: rest, i + 1 => addRecNth c rest i
end

/-- `TreeNode.add_to_tree(c)` invoked on the root: search for the
previous-or-equal leaf; on an exact key match `assert sc.key != c.key`
fails; add at the found leaf's parent, or at the root itself when the
search came back empty. -/
def addToTree (root : BNode) (c : BNode) : Option BNode :=
  match root with
  | .leaf _ _ => none
  | .tree key cs =>
      match addRec true c (.tree key cs) with
      | none => none
      | some .dup => none
      | some .empty =>
          match addChildHere true key cs c with
          | none => none
          | some (r', _, _) => some r'
      | some (.ok r' _ _) => some r'

/-- A sequence of `add_to_tree` calls, each adding a fresh leaf with the
given key and size. -/
def addAll : BNode → List (Nat × Nat) → Option BNode
  | r, [] => some r
  | r, (k, sz) :: rest =>
      match addToTree r (.leaf k sz) with
      | none => none
      | some r' => addAll r' rest

mutual
/-- The claim's property, read off the spec: every tree node's key
equals its first child's key, or is null when it has no children. -/
def specKeyInvB : BNode → Bool
  | .leaf _ _ => true
  | .tree key cs =>
      (match cs with
       | [] => key == none
       | c0 :: _ => key == keyOf c0) && specKeyInvList cs

def specKeyInvList : List BNode → Bool
  | [] => true
  | c :: rest => specKeyInvB c && specKeyInvList rest
end

mutual
/-- The amended invariant: the root's key stays null; every non-root
tree node is non-empty with its key equal to its first child's key; and
every leaf's size is at most `header_size + NAME_SIZE` = 292 (names are
at most `NAME_SIZE` bytes). -/
def goodB (isRoot : Bool) : BNode → Bool
  | .leaf _ sz => decide (sz ≤ 292)
  | .tree key cs =>
      (if isRoot then key == none
       else
         match cs with
         | [] => false
         | c0 :: _ => key == keyOf c0) && goodList cs

def goodList : List BNode → Bool
  | [] => true
  | c :: rest => goodB false c && goodList rest
end

end Tfhfs.Btree

namespace Tfhfs.Btree

/-- C7 (counterexample): adding a single leaf to the empty tree leaves
the root's key `None` although the root now has a child —
`_update_key_maybe` returns immediately on the root (`not
self.parent`), and the source comments the root collapse with "this is
root so no need to worry about .key handling".  The claimed property
(every tree node, the root included, has `key = children[0].key`, or a
null key only when childless) is thus already false after one
`add_to_tree` on an empty tree. -/
theorem C7_key_propagation_counterexample :
    addToTree (BNode.tree none []) (BNode.leaf 5 100) =
      some (BNode.tree none [BNode.leaf 5 100]) ∧
    specKeyInvB (BNode.tree none [BNode.leaf 5 100]) = false :=
  ⟨rfl, rfl⟩

theorem goodB_tree (isRoot : Bool) (key : Option Nat) (cs : List BNode) :
    goodB isRoot (.tree key cs) =
      ((if isRoot then key == none
        else
          match cs with
          | [] => false
          | c0 :: _ => key == keyOf c0) && goodList cs) := by
  unfold goodB
  rfl

theorem goodList_iff (cs : List BNode) :
    goodList cs = true ↔ ∀ x ∈ cs, goodB false x = true := by
  induction cs with
  | nil => simp [goodList]
  | cons c rest ih =>
    unfold goodList
    rw [Bool.and_eq_true, ih]
    constructor
    · rintro ⟨h1, h2⟩ x hx
      rcases List.mem_cons.mp hx with rfl | hx
      · exact h1
      · exact h2 x hx
    · intro h
      exact ⟨h c (by simp), fun x hx => h x (List.mem_cons_of_mem _ hx)⟩

theorem size_le_of_good (x : BNode) (h : goodB false x = true) :
    sizeOfNode x ≤ 292 := by
  cases x with
  | leaf k sz =>
    unfold goodB at h
    exact of_decide_eq_true h
  | tree key cs => exact le_refl 292

theorem key_eq_of_good (key : Option Nat) (c0 : BNode) (rest : List BNode)
    (h : goodB false (.tree key (c0 :: rest)) = true) :
    key = keyOf c0 ∧ goodList (c0 :: rest) = true := by
  rw [goodB_tree, Bool.and_eq_true] at h
  exact ⟨by simpa using h.1, h.2⟩

theorem good_nonempty (key : Option Nat) (cs : List BNode)
    (h : goodB false (.tree key cs) = true) : cs ≠ [] := by
  intro hcs
  subst hcs
  rw [goodB_tree] at h
  simp at h

theorem root_key_none (key : Option Nat) (cs : List BNode)
    (h : goodB true (.tree key cs) = true) :
    key = none ∧ goodList cs = true := by
  rw [goodB_tree, Bool.and_eq_true] at h
  exact ⟨by simpa using h.1, h.2⟩

theorem good_isSome (n : BNode) (h : goodB false n = true) :
    (keyOf n).isSome := by
  match n with
  | .leaf k s => rfl
  | .tree key cs =>
    match cs with
    | [] => exact absurd rfl (good_nonempty key [] h)
    | c0 :: rest =>
      obtain ⟨hk, hl⟩ := key_eq_of_good key c0 rest h
      have hg : goodB false c0 = true :=
        (goodList_iff _).mp hl c0 (by simp)
      rw [show keyOf (BNode.tree key (c0 :: rest)) = key from rfl, hk]
      exact good_isSome c0 hg

theorem bisectR_le (ks : List (Option Nat)) (k : Nat) :
    ∀ i, bisectR ks k = some i → i ≤ ks.length := by
  induction ks with
  | nil => intro i h; simp only [bisectR] at h; cases h; simp
  | cons x xs ih =>
    intro i h
    cases x with
    | none => simp only [bisectR] at h; cases h
    | some v =>
      simp only [bisectR] at h
      by_cases hk : k < v
      · rw [if_pos hk] at h; cases h; simp
      · rw [if_neg hk] at h
        cases hx : bisectR xs k with
        | none => rw [hx] at h; cases h
        | some j =>
          rw [hx] at h
          simp only [Option.map_some'] at h
          cases h
          have := ih j hx
          simp only [List.length_cons]
          omega

theorem bisectR_zero (ks : List (Option Nat)) (k : Nat)
    (h : bisectR ks k = some 0) :
    ks = [] ∨ ∃ v vs, ks = some v :: vs ∧ k < v := by
  match ks with
  | [] => exact Or.inl rfl
  | none :: xs => simp only [bisectR] at h; cases h
  | some v :: xs =>
    right
    refine ⟨v, xs, rfl, ?_⟩
    simp only [bisectR] at h
    by_cases hk : k < v
    · exact hk
    · rw [if_neg hk] at h
      cases hx : bisectR xs k with
      | none => rw [hx] at h; cases h
      | some j => rw [hx] at h; simp at h

theorem insertIdx_zero (cs : List BNode) (c : BNode) :
    cs.insertIdx 0 c = c :: cs := rfl

theorem insertIdx_succ (c0 : BNode) (rest : List BNode) (c : BNode)
    (j : Nat) :
    (c0 :: rest).insertIdx (j + 1) c = c0 :: rest.insertIdx j c := rfl

theorem mem_insertIdx (cs : List BNode) (c : BNode) (i : Nat) :
    ∀ x ∈ cs.insertIdx i c, x = c ∨ x ∈ cs := by
  induction cs generalizing i with
  | nil =>
    intro x hx
    match i, hx with
    | 0, hx => exact Or.inl (by simpa using hx)
    | j + 1, hx => simp [List.insertIdx] at hx
  | cons c0 rest ih =>
    intro x hx
    match i with
    | 0 =>
      rw [insertIdx_zero] at hx
      rcases List.mem_cons.mp hx with rfl | hx
      · exact Or.inl rfl
      · exact Or.inr hx
    | j + 1 =>
      rw [insertIdx_succ] at hx
      rcases List.mem_cons.mp hx with rfl | hx
      · exact Or.inr (by simp)
      · rcases ih j x hx with h | h
        · exact Or.inl h
        · exact Or.inr (List.mem_cons_of_mem _ h)

theorem insertIdx_ne_nil (cs : List BNode) (c : BNode) (i : Nat)
    (hle : i ≤ cs.length) : cs.insertIdx i c ≠ [] := by
  match cs, i with
  | [], 0 => simp [insertIdx_zero]
  | [], j + 1 => simp at hle
  | c0 :: rest, 0 => simp [insertIdx_zero]
  | c0 :: rest, j + 1 => simp [insertIdx_succ]

theorem addChildNocheck_bisect (cs : List BNode) (c : BNode) (idx : Nat)
    (cs1 : List BNode) (h : addChildNocheck cs c none = some (idx, cs1)) :
    ∃ k, keyOf c = some k ∧ bisectR (keysOf cs) k = some idx ∧
      cs1 = cs.insertIdx idx c := by
  unfold addChildNocheck at h
  cases hk : keyOf c with
  | none => rw [hk] at h; cases h
  | some k =>
    rw [hk] at h
    dsimp only at h
    cases hb : bisectR (keysOf cs) k with
    | none => rw [hb] at h; cases h
    | some i =>
      rw [hb] at h
      cases h
      exact ⟨k, rfl, hb, rfl⟩

theorem updateKeyMaybeNF_spec (isRoot : Bool) (key : Option Nat)
    (cs : List BNode) (key1 : Option Nat) (chain : Bool)
    (h : updateKeyMaybeNF isRoot key cs = some (key1, chain)) :
    (isRoot = true → key1 = key ∧ chain = false) ∧
    (chain = false → key1 = key) ∧
    (chain = true → ∃ k nk, key = some k ∧ cs.head?.map keyOf =
      some (some nk) ∧ key1 = some nk ∧ nk < k) := by
  unfold updateKeyMaybeNF at h
  cases hh : cs.head? with
  | none => rw [hh] at h; cases h
  | some c0 =>
    rw [hh] at h
    dsimp only at h
    cases isRoot with
    | true =>
      rw [if_pos rfl] at h
      cases h
      exact ⟨fun _ => ⟨rfl, rfl⟩, fun _ => rfl, fun hc => (by cases hc)⟩
    | false =>
      rw [if_neg (by simp)] at h
      split at h
      · rename_i k nk heq
        by_cases hle : k ≤ nk
        · rw [if_pos hle] at h
          cases h
          exact ⟨fun hh2 => (by cases hh2), fun _ => rfl,
            fun hc => (by cases hc)⟩
        · rw [if_neg hle] at h
          cases h
          refine ⟨fun hh2 => (by cases hh2), fun hc => (by cases hc), ?_⟩
          intro _
          exact ⟨k, nk, rfl, (by simp [heq]), rfl, (by omega)⟩
      · cases h

theorem moveAll_eq (cs l : List BNode) (h : moveAll cs = some l) : l = cs := by
  unfold moveAll at h
  by_cases hc : cs.all (fun c => (keyOf c).isSome) = true
  · rw [if_pos hc] at h; cases h; rfl
  · rw [if_neg hc] at h; cases h

theorem csize_append (a b : List BNode) :
    csize (a ++ b) = csize a + csize b := by
  simp [csize]

theorem csize_cons (c : BNode) (cs : List BNode) :
    csize (c :: cs) = sizeOfNode c + csize cs := by
  simp [csize]

theorem head?_dropLast (l : List BNode) (h : l.dropLast ≠ []) :
    l.dropLast.head? = l.head? := by
  match l with
  | [] => simp at h
  | [x] => simp [List.dropLast] at h
  | x :: y :: rest => simp [List.dropLast]

theorem splitOff_spec (fuel : Nat) :
    ∀ (cs acc rest tnCs : List BNode),
      (∀ x ∈ cs, sizeOfNode x ≤ 292) →
      splitOff fuel cs acc = some (rest, tnCs) →
      (∀ x ∈ rest, x ∈ cs) ∧
      (∀ x ∈ tnCs, x ∈ cs ∨ x ∈ acc) ∧
      csize rest + csize tnCs = csize cs + csize acc ∧
      (rest ≠ [] → rest.head? = cs.head?) ∧
      ((rest = cs ∧ tnCs = acc) ∨ csize tnCs < csize rest + 584) := by
  induction fuel with
  | zero =>
    intro cs acc rest tnCs hsz h
    unfold splitOff at h
    by_cases hlt : csize acc < csize cs
    · rw [if_pos hlt] at h; cases h
    · rw [if_neg hlt] at h
      cases h
      exact ⟨fun x hx => hx, fun x hx => Or.inr hx, by omega,
        fun _ => rfl, Or.inl ⟨rfl, rfl⟩⟩
  | succ n ih =>
    intro cs acc rest tnCs hsz h
    unfold splitOff at h
    by_cases hlt : csize acc < csize cs
    · rw [if_pos hlt] at h
      cases hg : cs.getLast? with
      | none => rw [hg] at h; cases h
      | some c =>
        rw [hg] at h
        dsimp only at h
        cases hkc : keyOf c with
        | none => rw [hkc] at h; cases h
        | some _ =>
          rw [hkc] at h
          have hne : cs ≠ [] := by
            intro hcs; rw [hcs] at hg; cases hg
          have hsplit : cs.dropLast ++ [c] = cs := by
            have hc : cs.getLast hne = c := by
              have := List.getLast?_eq_getLast cs hne
              rw [hg] at this
              exact (Option.some_injective _ this.symm)
            rw [← hc]
            exact List.dropLast_append_getLast hne
          have hmemc : c ∈ cs := by
            rw [← hsplit]; simp
          have hszdrop : ∀ x ∈ cs.dropLast, sizeOfNode x ≤ 292 := by
            intro x hx
            exact hsz x (by rw [← hsplit]; exact List.mem_append_left _ hx)
          obtain ⟨m1, m2, m3, m4, m5⟩ := ih cs.dropLast (c :: acc) rest tnCs
            hszdrop h
          have hcs_sz : csize cs = csize cs.dropLast + sizeOfNode c := by
            conv_lhs => rw [← hsplit]
            rw [csize_append, csize_cons]
            simp [csize]
          refine ⟨?_, ?_, ?_, ?_, ?_⟩
          · intro x hx
            rw [← hsplit]
            exact List.mem_append_left _ (m1 x hx)
          · intro x hx
            rcases m2 x hx with hx2 | hx2
            · exact Or.inl (by rw [← hsplit]; exact List.mem_append_left _ hx2)
            · rcases List.mem_cons.mp hx2 with rfl | hx3
              · exact Or.inl hmemc
              · exact Or.inr hx3
          · rw [m3, csize_cons, hcs_sz]
            omega
          · intro hrne
            rw [m4 hrne]
            exact head?_dropLast cs (by
              intro hdl
              rw [hdl] at m4
              have h0 := m4 hrne
              match rest, hrne with
              | r0 :: rrest, _ => simp at h0)
          · rcases m5 with ⟨hr, ht⟩ | hbound
            · right
              rw [hr, ht, csize_cons]
              have hb : sizeOfNode c ≤ 292 := hsz c hmemc
              have : csize acc < csize cs.dropLast + sizeOfNode c := by
                rw [← hcs_sz]; exact hlt
              omega
            · exact Or.inr hbound
    · rw [if_neg hlt] at h
      cases h
      exact ⟨fun x hx => hx, fun x hx => Or.inr hx, by omega,
        fun _ => rfl, Or.inl ⟨rfl, rfl⟩⟩

theorem good_tree_intro_false (key : Option Nat) (c0 : BNode)
    (rest : List BNode) (hk : key = keyOf c0)
    (hl : goodList (c0 :: rest) = true) :
    goodB false (.tree key (c0 :: rest)) = true := by
  rw [goodB_tree, Bool.and_eq_true]
  exact ⟨by simp [hk], hl⟩

theorem good_tree_intro_true (key : Option Nat) (cs : List BNode)
    (hk : key = none) (hl : goodList cs = true) :
    goodB true (.tree key cs) = true := by
  rw [goodB_tree, Bool.and_eq_true]
  exact ⟨by simp [hk], hl⟩

theorem goodList_insertIdx (cs : List BNode) (c : BNode) (i : Nat)
    (hl : goodList cs = true) (hc : goodB false c = true) :
    goodList (cs.insertIdx i c) = true := by
  rw [goodList_iff]
  intro x hx
  rcases mem_insertIdx cs c i x hx with rfl | hx2
  · exact hc
  · exact (goodList_iff cs).mp hl x hx2

theorem goodList_of_mem (cs : List BNode) (l : List BNode)
    (hsub : ∀ x ∈ l, x ∈ cs) (hl : goodList cs = true) :
    goodList l = true := by
  rw [goodList_iff]
  intro x hx
  exact (goodList_iff cs).mp hl x (hsub x hx)

theorem good_tree_elim (isRoot : Bool) (key : Option Nat) (cs : List BNode)
    (h : goodB isRoot (.tree key cs) = true) :
    goodList cs = true ∧ (isRoot = true → key = none) ∧
    (isRoot = false → ∃ c0 rest, cs = c0 :: rest ∧ key = keyOf c0) := by
  rw [goodB_tree, Bool.and_eq_true] at h
  obtain ⟨h1, h2⟩ := h
  refine ⟨h2, ?_, ?_⟩
  · intro hr; rw [hr] at h1; simpa using h1
  · intro hr; rw [hr] at h1
    match cs, h1 with
    | c0 :: rest, h1 => exact ⟨c0, rest, rfl, by simpa using h1⟩

theorem updateKeyMaybeNF_false_nonroot (key : Option Nat)
    (cs : List BNode) (key1 : Option Nat)
    (h : updateKeyMaybeNF false key cs = some (key1, false)) :
    ∃ k nk c0, key = some k ∧ cs.head? = some c0 ∧ keyOf c0 = some nk ∧
      key1 = key ∧ k ≤ nk := by
  unfold updateKeyMaybeNF at h
  cases hh : cs.head? with
  | none => rw [hh] at h; cases h
  | some c0 =>
    rw [hh] at h
    dsimp only at h
    rw [if_neg (by simp)] at h
    split at h
    · rename_i k nk heq
      by_cases hle : k ≤ nk
      · rw [if_pos hle] at h
        cases h
        exact ⟨k, nk, c0, rfl, rfl, heq, rfl, hle⟩
      · rw [if_neg hle] at h
        cases h
    · cases h

theorem bisectR_succ_ne_nil (ks : List (Option Nat)) (k j : Nat)
    (h : bisectR ks k = some (j + 1)) : ks ≠ [] := by
  intro hks
  rw [hks] at h
  simp only [bisectR] at h
  cases h

theorem addChildHere_key1 (isRoot : Bool) (key : Option Nat)
    (cs : List BNode) (c : BNode) (idx : Nat) (kc : Nat)
    (key1 : Option Nat) (chain0 : Bool)
    (hn : goodB isRoot (.tree key cs) = true)
    (hkc : keyOf c = some kc)
    (hbis : bisectR (keysOf cs) kc = some idx)
    (hupd : (if idx = 0 then updateKeyMaybeNF isRoot key (cs.insertIdx idx c)
             else some (key, false)) = some (key1, chain0)) :
    (∃ c0 rest, cs.insertIdx idx c = c0 :: rest ∧
       (isRoot = false → key1 = keyOf c0)) ∧
    (isRoot = true → key1 = key ∧ chain0 = false) ∧
    (chain0 = false → key1 = key) ∧
    (chain0 = true → ∃ k k', key = some k ∧ key1 = some k' ∧ k' < k) := by
  by_cases hidx : idx = 0
  · subst hidx
    rw [if_pos rfl] at hupd
    rw [insertIdx_zero] at hupd
    obtain ⟨sroot, sfalse, strue⟩ :=
      updateKeyMaybeNF_spec isRoot key (c :: cs) key1 chain0 hupd
    cases isRoot with
    | true =>
      obtain ⟨hk1, hch⟩ := sroot rfl
      refine ⟨⟨c, cs, insertIdx_zero cs c, fun hr => (by cases hr)⟩,
        fun _ => ⟨hk1, hch⟩, fun _ => hk1, ?_⟩
      intro hch2
      rw [hch] at hch2
      cases hch2
    | false =>
      obtain ⟨_, _, helim⟩ := good_tree_elim false key cs hn
      obtain ⟨c0, rest0, hcs, hkey⟩ := helim rfl
      have hc0v : ∃ v, keyOf c0 = some v ∧ kc < v := by
        rcases bisectR_zero (keysOf cs) kc hbis with hnil | ⟨v, vs, hks, hlt⟩
        · rw [hcs] at hnil; simp [keysOf] at hnil
        · rw [hcs] at hks
          simp only [keysOf, List.map_cons, List.cons.injEq] at hks
          exact ⟨v, hks.1, hlt⟩
      obtain ⟨v, hc0v, hltv⟩ := hc0v
      cases chain0 with
      | false =>
        obtain ⟨k, nk, c0', hkeyk, hhead, hknk, hk1, hle⟩ :=
          updateKeyMaybeNF_false_nonroot key (c :: cs) key1 hupd
        have hc0'c : c = c0' := by simpa using hhead
        subst hc0'c
        rw [hkc] at hknk
        cases hknk
        rw [hkey, hc0v] at hkeyk
        cases hkeyk
        omega
      | true =>
        obtain ⟨k, nk, hkeyk, hheadmap, hk1, hnk⟩ := strue rfl
        have hnkkc : nk = kc := by
          simp only [List.head?_cons, Option.map_some'] at hheadmap
          rw [hkc] at hheadmap
          simpa using hheadmap.symm
        refine ⟨⟨c, cs, insertIdx_zero cs c, fun _ => ?_⟩,
          fun hr => (by cases hr), fun hch => (by cases hch),
          fun _ => ⟨k, nk, hkeyk, hk1, hnk⟩⟩
        rw [hk1, hnkkc, hkc]
  · rw [if_neg hidx] at hupd
    cases hupd
    obtain ⟨j, rfl⟩ : ∃ j, idx = j + 1 := ⟨idx - 1, by omega⟩
    have hcs_ne : cs ≠ [] := by
      intro hcs
      have := bisectR_succ_ne_nil (keysOf cs) kc j hbis
      rw [hcs] at this
      simp [keysOf] at this
    match cs, hcs_ne with
    | c0 :: rest0, _ =>
      refine ⟨⟨c0, rest0.insertIdx j c, insertIdx_succ c0 rest0 c j, ?_⟩,
        fun _ => ⟨rfl, rfl⟩, fun _ => rfl, fun hch => (by cases hch)⟩
      intro hr
      obtain ⟨_, _, helim⟩ := good_tree_elim false key (c0 :: rest0)
        (by rw [hr] at hn; exact hn)
      obtain ⟨c0', rest0', heq, hkey⟩ := helim rfl
      cases heq
      exact hkey

theorem addChildHere_spec (isRoot : Bool) (key : Option Nat)
    (cs : List BNode) (c : BNode) (n' : BNode) (chain : Bool)
    (sib : Option BNode)
    (hn : goodB isRoot (.tree key cs) = true)
    (hc : goodB false c = true)
    (h : addChildHere isRoot key cs c = some (n', chain, sib)) :
    goodB isRoot n' = true ∧
    (chain = false → keyOf n' = key) ∧
    (chain = true → ∃ k k', key = some k ∧ keyOf n' = some k' ∧ k' < k) ∧
    (∀ t, sib = some t → goodB false t = true) ∧
    (isRoot = true → sib = none ∧ chain = false) := by
  unfold addChildHere at h
  cases hacn : addChildNocheck cs c none with
  | none => rw [hacn] at h; cases h
  | some p =>
    obtain ⟨idx, cs1⟩ := p
    rw [hacn] at h
    dsimp only at h
    obtain ⟨kc, hkc, hbis, hcs1⟩ := addChildNocheck_bisect cs c idx cs1 hacn
    cases hupd : (if idx = 0 then updateKeyMaybeNF isRoot key (cs.insertIdx idx c)
                  else some (key, false)) with
    | none =>
      rw [← hcs1] at hupd
      rw [hupd] at h
      cases h
    | some q =>
      obtain ⟨key1, chain0⟩ := q
      obtain ⟨⟨c0, rest, hcons, hkhead⟩, hroot0, hchf, hcht⟩ :=
        addChildHere_key1 isRoot key cs c idx kc key1 chain0 hn hkc hbis hupd
      rw [← hcs1] at hupd
      rw [hupd] at h
      dsimp only at h
      rw [← hcs1] at hcons
      have hlcs : goodList cs = true := (good_tree_elim isRoot key cs hn).1
      have hlcs1 : goodList cs1 = true := by
        rw [hcs1]
        exact goodList_insertIdx cs c idx hlcs hc
      have hgood1 : goodB isRoot (.tree key1 cs1) = true := by
        cases isRoot with
        | true =>
          obtain ⟨hk1, _⟩ := hroot0 rfl
          refine good_tree_intro_true key1 cs1 ?_ hlcs1
          rw [hk1]
          exact ((good_tree_elim true key cs hn).2.1) rfl
        | false =>
          rw [hcons]
          exact good_tree_intro_false key1 c0 rest (hkhead rfl)
            (by rw [← hcons]; exact hlcs1)
      by_cases hsz : csize cs1 ≤ 128000
      · rw [if_pos hsz] at h
        cases h
        refine ⟨hgood1, fun hch => hchf hch, fun hch => ?_,
          fun t ht => (by cases ht), fun hr => ⟨rfl, (hroot0 hr).2⟩⟩
        obtain ⟨k, k', h1, h2, h3⟩ := hcht hch
        exact ⟨k, k', h1, h2, h3⟩
      · rw [if_neg hsz] at h
        cases hso : splitOff cs1.length cs1 [] with
        | none => rw [hso] at h; cases h
        | some pr =>
          obtain ⟨rest1, tnCs⟩ := pr
          rw [hso] at h
          dsimp only at h
          cases hhd : tnCs.head? with
          | none => rw [hhd] at h; cases h
          | some t0 =>
            rw [hhd] at h
            dsimp only at h
            have hsz1 : ∀ x ∈ cs1, sizeOfNode x ≤ 292 := by
              intro x hx
              exact size_le_of_good x ((goodList_iff cs1).mp hlcs1 x hx)
            obtain ⟨m1, m2, m3, m4, m5⟩ :=
              splitOff_spec cs1.length cs1 [] rest1 tnCs hsz1 hso
            have htn_ne : tnCs ≠ [] := by
              intro ht; rw [ht] at hhd; cases hhd
            have hbound : csize tnCs < csize rest1 + 584 := by
              rcases m5 with ⟨hr1, ht1⟩ | hb
              · exact absurd ht1 htn_ne
              · exact hb
            have hrest_ne : rest1 ≠ [] := by
              intro hr1
              rw [hr1] at m3 hbound
              have hz : csize ([] : List BNode) = 0 := rfl
              rw [hz] at m3 hbound
              omega
            have hgr : goodList rest1 = true :=
              goodList_of_mem cs1 rest1 m1 hlcs1
            have hgt : goodList tnCs = true :=
              goodList_of_mem cs1 tnCs
                (fun x hx => (m2 x hx).resolve_right (by simp)) hlcs1
            have htnCs_cons : ∃ ttail, tnCs = t0 :: ttail := by
              match tnCs, hhd with
              | t0' :: ttail, hhd =>
                exact ⟨ttail, by simpa using (by
                  simp only [List.head?_cons] at hhd
                  rw [show t0' = t0 from by simpa using hhd])⟩
            obtain ⟨ttail, httn⟩ := htnCs_cons
            have hgood_tn : goodB false (.tree (keyOf t0) tnCs) = true := by
              rw [httn]
              exact good_tree_intro_false (keyOf t0) t0 ttail rfl
                (by rw [← httn]; exact hgt)
            have hrest_cons : ∃ rtail, rest1 = c0 :: rtail := by
              have hh := m4 hrest_ne
              rw [hcons] at hh
              match rest1, hrest_ne with
              | r0 :: rtail, _ =>
                simp only [List.head?_cons] at hh
                exact ⟨rtail, by rw [show r0 = c0 from by simpa using hh]⟩
            obtain ⟨rtail, hrest_eq⟩ := hrest_cons
            have hgood_rest : goodB isRoot (.tree key1 rest1) = true := by
              cases isRoot with
              | true =>
                obtain ⟨hk1, _⟩ := hroot0 rfl
                refine good_tree_intro_true key1 rest1 ?_ hgr
                rw [hk1]
                exact ((good_tree_elim true key cs hn).2.1) rfl
              | false =>
                rw [hrest_eq]
                exact good_tree_intro_false key1 c0 rtail (hkhead rfl)
                  (by rw [← hrest_eq]; exact hgr)
            cases isRoot with
            | false =>
              rw [if_neg (by simp)] at h
              cases h
              refine ⟨hgood_rest,
                fun hch => hchf hch, fun hch => hcht hch,
                fun t ht => ?_, fun hr => (by cases hr)⟩
              cases ht
              exact hgood_tn
            | true =>
              rw [if_pos rfl] at h
              cases hma : moveAll rest1 with
              | none => rw [hma] at h; cases h
              | some tn2Cs =>
                rw [hma] at h
                dsimp only at h
                have htn2 : tn2Cs = rest1 := moveAll_eq rest1 tn2Cs hma
                subst htn2
                cases hhd2 : tn2Cs.head? with
                | none => rw [hhd2] at h; cases h
                | some r0 =>
                  rw [hhd2] at h
                  dsimp only at h
                  split at h
                  · rename_i u v hu hv
                    cases h
                    have hr0 : c0 = r0 := by
                      rw [hrest_eq] at hhd2
                      simpa using hhd2
                    obtain ⟨hk1, hch0⟩ := hroot0 rfl
                    have hkeynone : key = none :=
                      ((good_tree_elim true key cs hn).2.1) rfl
                    refine ⟨?_, fun _ => (by rw [hk1, hkeynone]; rfl),
                      fun hch => (by rw [hch0] at hch; cases hch),
                      fun t ht => (by cases ht), fun _ => ⟨rfl, hch0⟩⟩
                    refine good_tree_intro_true key1 _
                      (by rw [hk1, hkeynone]) ?_
                    rw [goodList_iff]
                    intro x hx
                    rcases List.mem_cons.mp hx with rfl | hx
                    · rw [← hr0, hrest_eq]
                      exact good_tree_intro_false (keyOf c0) c0 rtail rfl
                        (by rw [← hrest_eq]; exact hgr)
                    · rcases List.mem_cons.mp hx with rfl | hx
                      · exact hgood_tn
                      · cases hx
                  · cases h

theorem addRecNth_eq (c : BNode) : ∀ (cs : List BNode) (i : Nat),
    addRecNth c cs i =
      match cs[i]? with
      | none => none
      | some ch => addRec false c ch := by
  intro cs
  induction cs with
  | nil => intro i; cases i <;> rfl
  | cons ch rest ih =>
    intro i
    cases i with
    | zero => simp only [addRecNth, List.getElem?_cons_zero]
    | succ j =>
      simp only [addRecNth]
      rw [ih j]
      simp

/-- What a successful non-failing descent guarantees: the rebuilt node
is good; a `false` chain flag means its key is untouched, a `true` one
that it strictly decreased; any split-off sibling is good; and a root
never emits a sibling or a chain request. -/
def OkSpec (isRoot : Bool) (n n' : BNode) (chain : Bool)
    (sib : Option BNode) : Prop :=
  goodB isRoot n' = true ∧
  (chain = false → keyOf n' = keyOf n) ∧
  (chain = true → ∃ k k', keyOf n = some k ∧ keyOf n' = some k' ∧ k' < k) ∧
  (∀ t, sib = some t → goodB false t = true) ∧
  (isRoot = true → sib = none ∧ chain = false)

theorem addRec_ok_tail (isRoot : Bool) (key key1 : Option Nat)
    (cs' : List BNode) (chainUp : Bool) (sib : Option BNode) (res : AddRes)
    (hA : goodB isRoot (.tree key1 cs') = true)
    (hB : chainUp = false → key1 = key)
    (hC : chainUp = true → ∃ k k', key = some k ∧ key1 = some k' ∧ k' < k)
    (hRoot : isRoot = true → chainUp = false)
    (h : (match sib with
          | none => some (.ok (.tree key1 cs') chainUp none)
          | some tn =>
              match addChildHere isRoot key1 cs' tn with
              | none => none
              | some (n2, chain2, sib2) =>
                  some (.ok n2 (chainUp || chain2) sib2)) = some res)
    (hsibg : ∀ t, sib = some t → goodB false t = true) :
    ∀ n' chain' sib', res = .ok n' chain' sib' →
      goodB isRoot n' = true ∧
      (chain' = false → keyOf n' = key) ∧
      (chain' = true → ∃ k k', key = some k ∧ keyOf n' = some k' ∧ k' < k) ∧
      (∀ t, sib' = some t → goodB false t = true) ∧
      (isRoot = true → sib' = none ∧ chain' = false) := by
  cases sib with
  | none =>
    dsimp only at h
    cases h
    intro n' chain' sib' heq
    cases heq
    refine ⟨hA, fun hf => (by rw [show keyOf (BNode.tree key1 cs') = key1
      from rfl, hB hf]), ?_, fun t ht => (by cases ht),
      fun hr => ⟨rfl, hRoot hr⟩⟩
    intro ht
    obtain ⟨k, k', h1, h2, h3⟩ := hC ht
    exact ⟨k, k', h1, h2, h3⟩
  | some tn =>
    dsimp only at h
    cases hach2 : addChildHere isRoot key1 cs' tn with
    | none => rw [hach2] at h; cases h
    | some p =>
      obtain ⟨n2, chain2, sib2⟩ := p
      rw [hach2] at h
      cases h
      obtain ⟨g2, f2, t2, s2, r2⟩ :=
        addChildHere_spec isRoot key1 cs' tn n2 chain2 sib2 hA
          (hsibg tn rfl) hach2
      intro n' chain' sib' heq
      cases heq
      refine ⟨g2, ?_, ?_, s2, ?_⟩
      · intro hf
        rw [Bool.or_eq_false_iff] at hf
        rw [f2 hf.2, hB hf.1]
      · intro ht
        cases hcu : chainUp with
        | true =>
          obtain ⟨k, k', h1, h2, h3⟩ := hC hcu
          cases hc2 : chain2 with
          | true =>
            obtain ⟨k1, k2, j1, j2, j3⟩ := t2 hc2
            rw [h2] at j1
            cases j1
            exact ⟨k, k2, h1, j2, by omega⟩
          | false =>
            rw [f2 hc2, h2]
            exact ⟨k, k', h1, rfl, h3⟩
        | false =>
          have hc2 : chain2 = true := by
            rw [hcu] at ht
            simpa using ht
          obtain ⟨k1, k2, j1, j2, j3⟩ := t2 hc2
          rw [hB hcu] at j1
          exact ⟨k1, k2, j1, j2, j3⟩
      · intro hr
        obtain ⟨hs2, hc2⟩ := r2 hr
        exact ⟨hs2, by simp [hRoot hr, hc2]⟩

theorem addRec_good (c : BNode) (hc : goodB false c = true) (n : BNode) :
    ∀ (isRoot : Bool) (res : AddRes),
      goodB isRoot n = true → addRec isRoot c n = some res →
      (isRoot = false → res ≠ .empty) ∧
      (∀ n' chain sib, res = .ok n' chain sib →
        OkSpec isRoot n n' chain sib) := by
  intro isRoot res hgood h
  match n with
  | .leaf lk lsz =>
    unfold addRec at h
    cases h
  | .tree key cs =>
    unfold addRec at h
    cases hkc : keyOf c with
    | none => rw [hkc] at h; cases h
    | some k =>
      rw [hkc] at h
      dsimp only at h
      by_cases hemp : cs.isEmpty = true
      · rw [if_pos hemp] at h
        cases h
        refine ⟨?_, fun n' chain sib heq => (by cases heq)⟩
        intro hroot _
        rw [hroot] at hgood
        have := good_nonempty key cs hgood
        rw [List.isEmpty_iff] at hemp
        exact this hemp
      · rw [if_neg hemp] at h
        cases hbis : bisectR (keysOf cs) k with
        | none => rw [hbis] at h; cases h
        | some i0 =>
          rw [hbis] at h
          dsimp only at h
          cases hch : cs[descIdx i0]? with
          | none => rw [hch] at h; cases h
          | some ch =>
            rw [hch] at h
            dsimp only at h
            have hlcs : goodList cs = true :=
              (good_tree_elim isRoot key cs hgood).1
            cases ch with
            | leaf lk lsz =>
              dsimp only at h
              by_cases hlk : lk = k
              · rw [if_pos hlk] at h
                cases h
                exact ⟨fun _ h2 => (by cases h2),
                  fun n' chain sib heq => (by cases heq)⟩
              · rw [if_neg hlk] at h
                cases hach : addChildHere isRoot key cs c with
                | none => rw [hach] at h; cases h
                | some p =>
                  obtain ⟨n', ch2, sib⟩ := p
                  rw [hach] at h
                  cases h
                  obtain ⟨g1, g2, g3, g4, g5⟩ :=
                    addChildHere_spec isRoot key cs c n' ch2 sib hgood hc hach
                  refine ⟨fun _ h2 => (by cases h2), ?_⟩
                  intro n'' chain' sib' heq
                  cases heq
                  exact ⟨g1, g2, g3, g4, g5⟩
            | tree chkey chcs =>
              cases hrec : addRecNth c cs (descIdx i0) with
              | none => rw [hrec] at h; cases h
              | some res2 =>
                rw [hrec] at h
                dsimp only at h
                have hgch : goodB false (.tree chkey chcs) = true :=
                  (goodList_iff cs).mp hlcs _ (List.getElem?_mem hch)
                have hrec' : addRec false c (.tree chkey chcs) = some res2 := by
                  rw [addRecNth_eq c cs (descIdx i0), hch] at hrec
                  exact hrec
                have recspec := addRec_good c hc (.tree chkey chcs) false res2
                  hgch hrec'
                cases res2 with
                | empty => exact absurd rfl (recspec.1 rfl)
                | dup =>
                  cases h
                  exact ⟨fun _ h2 => (by cases h2),
                    fun n' chain sib heq => (by cases heq)⟩
                | ok ch' chain sib =>
                  dsimp only at h
                  obtain ⟨okg, okf, okt, oks, _⟩ :=
                    recspec.2 ch' chain sib rfl
                  have hlset : goodList (cs.set (descIdx i0) ch') = true := by
                    rw [goodList_iff]
                    intro x hx
                    rcases List.mem_or_eq_of_mem_set hx with hx2 | rfl
                    · exact (goodList_iff cs).mp hlcs x hx2
                    · exact okg
                  obtain ⟨ch0, ctail, rfl⟩ : ∃ ch0 ctail, cs = ch0 :: ctail := by
                    match cs, hch with
                    | ch0 :: ctail, _ => exact ⟨ch0, ctail, rfl⟩
                  have hfacts : ∀ key1 chainUp,
                      (if chain &&
                          ((keysOf (ch0 :: ctail)).indexOf
                            (keyOf (BNode.tree chkey chcs)) == 0) then
                         updateKeyMaybeNF isRoot key
                           ((ch0 :: ctail).set (descIdx i0) ch')
                       else some (key, false)) = some (key1, chainUp) →
                      goodB isRoot
                        (.tree key1 ((ch0 :: ctail).set (descIdx i0) ch'))
                          = true ∧
                      (chainUp = false → key1 = key) ∧
                      (chainUp = true →
                        ∃ k k', key = some k ∧ key1 = some k' ∧ k' < k) ∧
                      (isRoot = true → chainUp = false) := by
                    intro key1 chainUp hupd2
                    by_cases hi : descIdx i0 = 0
                    · rw [hi] at hch hupd2 hlset ⊢
                      have hch0 : ch0 = BNode.tree chkey chcs := by
                        simpa using hch
                      rw [← hch0] at hupd2 okf okt
                      have hset0 : (ch0 :: ctail).set 0 ch' = ch' :: ctail := rfl
                      rw [hset0] at hupd2 hlset ⊢
                      have hidx0 : ((keysOf (ch0 :: ctail)).indexOf
                          (keyOf ch0) == 0) = true := by
                        simp only [keysOf, List.map_cons]
                        unfold List.indexOf
                        simp [List.findIdx_cons]
                      rw [hidx0, Bool.and_true] at hupd2
                      by_cases hchain : chain = true
                      · rw [hchain, if_pos rfl] at hupd2
                        obtain ⟨k0, k0', hk0, hk0', hlt0⟩ := okt hchain
                        cases isRoot with
                        | true =>
                          obtain ⟨hk1, hcu⟩ :=
                            (updateKeyMaybeNF_spec true key _ key1 chainUp
                              hupd2).1 rfl
                          refine ⟨?_, fun _ => hk1,
                            fun ht => (by rw [hcu] at ht; cases ht),
                            fun _ => hcu⟩
                          exact good_tree_intro_true key1 _
                            (by rw [hk1];
                                exact ((good_tree_elim true key _
                                  hgood).2.1) rfl) hlset
                        | false =>
                          obtain ⟨c0', rest', heq', hkey'⟩ :=
                            (good_tree_elim false key _ hgood).2.2 rfl
                          cases heq'
                          by_cases hcu : chainUp = true
                          · obtain ⟨k, nk, hkeyk, hheadmap, hk1, hnk⟩ :=
                              (updateKeyMaybeNF_spec false key _ key1 chainUp
                                hupd2).2.2 hcu
                            have hnkch' : keyOf ch' = some nk := by
                              simp only [List.head?_cons,
                                Option.map_some'] at hheadmap
                              simpa using hheadmap
                            refine ⟨?_,
                              fun hf => (by rw [hcu] at hf; cases hf),
                              fun _ => ⟨k, nk, hkeyk, hk1, hnk⟩,
                              fun hr => (by cases hr)⟩
                            exact good_tree_intro_false key1 ch' ctail
                              (by rw [hk1, hnkch']) hlset
                          · rw [Bool.not_eq_true] at hcu
                            rw [hcu] at hupd2
                            obtain ⟨k, nk, cac, hkeyk, hheadc, hknk, hk1, hle⟩ :=
                              updateKeyMaybeNF_false_nonroot key _ key1 hupd2
                            have hcac : ch' = cac := by simpa using hheadc
                            subst hcac
                            rw [hk0'] at hknk
                            cases hknk
                            rw [hkey', hk0] at hkeyk
                            cases hkeyk
                            omega
                      · rw [Bool.not_eq_true] at hchain
                        rw [hchain] at hupd2
                        rw [if_neg (by simp)] at hupd2
                        cases hupd2
                        have hkch' : keyOf ch' = keyOf ch0 := okf hchain
                        refine ⟨?_, fun _ => rfl, fun ht => (by cases ht),
                          fun _ => rfl⟩
                        cases isRoot with
                        | true =>
                          exact good_tree_intro_true key _
                            (((good_tree_elim true key _ hgood).2.1) rfl) hlset
                        | false =>
                          obtain ⟨c0', rest', heq', hkey'⟩ :=
                            (good_tree_elim false key _ hgood).2.2 rfl
                          cases heq'
                          exact good_tree_intro_false key ch' ctail
                            (by rw [hkey', hkch']) hlset
                    · obtain ⟨j, hij⟩ : ∃ j, descIdx i0 = j + 1 :=
                        ⟨descIdx i0 - 1, by omega⟩
                      rw [hij] at hch hupd2 hlset ⊢
                      have hsetS : (ch0 :: ctail).set (j + 1) ch' =
                          ch0 :: ctail.set j ch' := rfl
                      rw [hsetS] at hupd2 hlset ⊢
                      have hA : goodB isRoot
                          (.tree key (ch0 :: ctail.set j ch')) = true := by
                        cases isRoot with
                        | true =>
                          exact good_tree_intro_true key _
                            (((good_tree_elim true key _ hgood).2.1) rfl) hlset
                        | false =>
                          obtain ⟨c0', rest', heq', hkey'⟩ :=
                            (good_tree_elim false key _ hgood).2.2 rfl
                          cases heq'
                          exact good_tree_intro_false key ch0 _ hkey' hlset
                      split at hupd2
                      · cases isRoot with
                        | true =>
                          obtain ⟨hk1, hcu⟩ :=
                            (updateKeyMaybeNF_spec true key _ key1 chainUp
                              hupd2).1 rfl
                          exact ⟨by rw [hk1]; exact hA, fun _ => hk1,
                            fun ht => (by rw [hcu] at ht; cases ht),
                            fun _ => hcu⟩
                        | false =>
                          obtain ⟨c0', rest', heq', hkey'⟩ :=
                            (good_tree_elim false key _ hgood).2.2 rfl
                          cases heq'
                          by_cases hcu : chainUp = true
                          · obtain ⟨k, nk, hkeyk, hheadmap, hk1, hnk⟩ :=
                              (updateKeyMaybeNF_spec false key _ key1 chainUp
                                hupd2).2.2 hcu
                            have hnkch0 : keyOf ch0 = some nk := by
                              simp only [List.head?_cons,
                                Option.map_some'] at hheadmap
                              simpa using hheadmap
                            rw [hkey', hnkch0] at hkeyk
                            cases hkeyk
                            omega
                          · rw [Bool.not_eq_true] at hcu
                            have hk1 : key1 = key :=
                              (updateKeyMaybeNF_spec false key _ key1 chainUp
                                hupd2).2.1 hcu
                            exact ⟨by rw [hk1]; exact hA, fun _ => hk1,
                              fun ht => (by rw [hcu] at ht; cases ht),
                              fun hr => (by cases hr)⟩
                      · cases hupd2
                        exact ⟨hA, fun _ => rfl,
                          fun ht => (by cases ht), fun _ => rfl⟩
                  cases hupd3 : (if chain &&
                      ((keysOf (ch0 :: ctail)).indexOf
                        (keyOf (BNode.tree chkey chcs)) == 0) then
                        updateKeyMaybeNF isRoot key
                          ((ch0 :: ctail).set (descIdx i0) ch')
                      else some (key, false)) with
                  | none => rw [hupd3] at h; cases h
                  | some q =>
                    obtain ⟨key1, chainUp⟩ := q
                    rw [hupd3] at h
                    dsimp only at h
                    obtain ⟨fA, fB, fC, fR⟩ := hfacts key1 chainUp hupd3
                    refine ⟨fun _ h2 => ?_, ?_⟩
                    · rw [h2] at h
                      cases sib with
                      | none => dsimp only at h; cases h
                      | some tn =>
                        dsimp only at h
                        cases hach2 : addChildHere isRoot key1
                            ((ch0 :: ctail).set (descIdx i0) ch') tn with
                        | none => rw [hach2] at h; cases h
                        | some p2 =>
                          obtain ⟨a, b, c2⟩ := p2
                          rw [hach2] at h
                          cases h
                    · exact addRec_ok_tail isRoot key key1 _ chainUp sib res
                        fA fB fC fR h oks
termination_by sizeOf n
decreasing_by
  simp_wf
  have hm := List.sizeOf_lt_of_mem (List.getElem?_mem hch)
  simp only [BNode.tree.sizeOf_spec] at *
  omega

theorem addToTree_good (r c r' : BNode) (hr : goodB true r = true)
    (hc : goodB false c = true) (h : addToTree r c = some r') :
    goodB true r' = true := by
  cases r with
  | leaf lk lsz => simp only [addToTree] at h; cases h
  | tree key cs =>
    simp only [addToTree] at h
    cases hrec : addRec true c (.tree key cs) with
    | none => rw [hrec] at h; cases h
    | some res =>
      rw [hrec] at h
      cases res with
      | dup => cases h
      | empty =>
        cases hach : addChildHere true key cs c with
        | none => rw [hach] at h; cases h
        | some p =>
          obtain ⟨r2, ch2, sib2⟩ := p
          rw [hach] at h
          cases h
          exact (addChildHere_spec true key cs c r' ch2 sib2 hr hc hach).1
      | ok r2 chain sib =>
        cases h
        exact ((addRec_good c hc (.tree key cs) true _ hr hrec).2
          r' chain sib rfl).1

/-- C7 (amended): the property that actually holds after any sequence
of `add_to_tree` calls on an initially empty tree (each adding a leaf
of size at most `header_size + NAME_SIZE` = 292, the bound the leaf
layout implies): every non-root tree node is non-empty and its key
EQUALS its first child's key, while the root's key remains null even
when it has children (`_update_key_maybe` skips the root).  The
original claim fails at the root (see the counterexample) and, after
`remove_from_tree` — excluded here — also at non-root nodes, because
`remove_child_nocheck` removes a first child without any key update,
leaving a stale smaller key. -/
theorem C7_key_propagation (ops : List (Nat × Nat))
    (hsz : ∀ p ∈ ops, p.2 ≤ 292) (r : BNode)
    (h : addAll (BNode.tree none []) ops = some r) :
    goodB true r = true := by
  have main : ∀ (ops2 : List (Nat × Nat)) (s r2 : BNode),
      (∀ p ∈ ops2, p.2 ≤ 292) → goodB true s = true →
      addAll s ops2 = some r2 → goodB true r2 = true := by
    intro ops2
    induction ops2 with
    | nil =>
      intro s r2 _ hs h2
      unfold addAll at h2
      cases h2
      exact hs
    | cons p rest ih =>
      intro s r2 hsz2 hs h2
      obtain ⟨k, sz⟩ := p
      unfold addAll at h2
      cases hstep : addToTree s (.leaf k sz) with
      | none => rw [hstep] at h2; cases h2
      | some s1 =>
        rw [hstep] at h2
        dsimp only at h2
        have hleaf : goodB false (.leaf k sz) = true := by
          unfold goodB
          exact decide_eq_true (hsz2 (k, sz) (by simp))
        exact ih s1 r2 (fun q hq => hsz2 q (List.mem_cons_of_mem _ hq))
          (addToTree_good s (.leaf k sz) s1 hs hleaf hstep) h2
  exact main ops (BNode.tree none []) r hsz (by rfl) h

/-- Witness for C7 (amended): three adds into the empty tree produce a
single-level tree whose root key is null while holding the sorted
leaves; the invariant holds on the result. -/
theorem C7_key_propagation_witness :
    (∀ p ∈ [((5 : Nat), (100 : Nat)), (3, 100), (8, 100)], p.2 ≤ 292) ∧
    addAll (BNode.tree none []) [(5, 100), (3, 100), (8, 100)] =
      some (BNode.tree none
        [BNode.leaf 3 100, BNode.leaf 5 100, BNode.leaf 8 100]) ∧
    goodB true (BNode.tree none
      [BNode.leaf 3 100, BNode.leaf 5 100, BNode.leaf 8 100]) = true :=
  ⟨by decide, rfl,
    C7_key_propagation [(5, 100), (3, 100), (8, 100)] (by decide) _ rfl⟩

end Tfhfs.Btree

namespace Tfhfs.FFile

open Tfhfs (Bytes pySlice zeropad_bytes)

/-- `const.BLOCK_SIZE_LIMIT`. -/
def BSL : Nat := 128000

/-- `const.INTERNED_BLOCK_DATA_SIZE_LIMIT`. -/
def IBL : Nat := 128

/-- The in-memory `INode.node` of a `FileINode` (`forest_nodes.py`):
nothing, a `FileData` object (its `content` bytes — the storage
indirection through `block_id`/`refer_or_store_block` is the subject of
C5, not of the file layer, so content is carried directly), or a
`FileBlockTreeNode`.  The tree is keyed by `struct.pack('>Q', kn)`
(`FileBlockEntry.name_hash_size = 0`, so `key = name`), a strictly
monotone encoding of the block index `kn`, and each `FileBlockEntry`
carries its block's content; it is embedded as an association list from
`kn` to the content, with `search_name` a lookup, `add_to_tree` +
`set_block_id` an insert/update, `last_leaf` the entry with the largest
key and `remove_from_tree` an erase (the btree's own mechanics are
verified separately against C7/C3). -/
inductive FNode where
  | nil
  | fdata (content : Bytes)
  | ftree (entries : List (Nat × Bytes))
deriving DecidableEq, Repr

/-- A linked `FileINode` (its `leaf_node` is present; the unlinked
variants read their size through `stored_size` and are not part of the
claims' scenarios): the leaf's `block_data` and `minifile` flag, the
direntry's `st_size`, the loaded `node`, the `_write_blocks` pending
map (`None` until first used; keyed by the packed block index, holding
`[node-or-None, data]`, the node part embedded as an existence flag),
and a marker for the spec-modelled `changed_mtime`. -/
structure FState where
  blockData : Option Bytes
  minifile : Bool
  stSize : Option Nat
  node : FNode
  wb : Option (List (Nat × (Bool × Bytes)))
  mtime : Bool
deriving DecidableEq, Repr

/-- `FileINode.size` for a linked inode:
`self.direntry.data.get('st_size', 0)`. -/
def sizeOf (st : FState) : Nat := st.stSize.getD 0

/-- The `ns` slice of `_replace`: `buf[bufofs:bufofs + bufmax]` after
`bufmax = bufmax or len(buf)` (a zero `bufmax` is falsy). -/
def nsOf (buf : Bytes) (bufofs bufmax : Nat) : Bytes :=
  pySlice bufofs (bufofs + (if bufmax = 0 then buf.length else bufmax)) buf

/-- The byte-splice of `_replace`:
`s[:ofs] + bytes(topad) + ns + s[rofs:]` with
`topad = max(0, ofs - len(s))` and `rofs = ofs + len(ns)`. -/
def replaceWith (s : Bytes) (ofs : Nat) (ns : Bytes) : Bytes :=
  s.take ofs ++ List.replicate (ofs - s.length) 0 ++ ns ++
    s.drop (ofs + ns.length)

/-- `FileINode._write._replace(s, ofs, buf, bufofs, bufmax)` (a `None`
`s` becomes `b''`); returns the new block bytes and the advanced
`bufofs`. -/
def _replace (s : Option Bytes) (ofs : Nat) (buf : Bytes)
    (bufofs bufmax : Nat) : Bytes × Nat :=
  (replaceWith (s.getD []) ofs (nsOf buf bufofs bufmax),
   bufofs + (nsOf buf bufofs bufmax).length)

/-- `FileINode._tree_key_for_ofs`: the block index (the packed key),
the offset within the block, and the size clipped to the block. -/
def treeKeyForOfs (ofs size : Nat) : Nat × Nat × Nat :=
  (ofs / BSL, ofs % BSL, min size (BSL - ofs % BSL))

/-- `FileINode._tree_node_key_data_for_ofs` on a tree node: consult the
pending `_write_blocks` first, then the tree; a missing block is
implicitly all zeroes (`bytes(size)`).  Returns the child-exists flag
(the `n` object, `None` when the entry has not been created), the key,
the data and the in-block offset. -/
def treeNodeKeyData (wb : Option (List (Nat × (Bool × Bytes))))
    (entries : List (Nat × Bytes)) (ofs size : Nat) :
    Bool × Nat × Bytes × Nat :=
  match treeKeyForOfs ofs size with
  | (kn, ofs2, size2) =>
      match Storage.aGet (wb.getD []) kn with
      | some (b, d) => (b, kn, d, ofs2)
      | none =>
          match Storage.aGet entries kn with
          | some d => (true, kn, d, ofs2)
          | none => (false, kn, List.replicate size2 0, ofs2)

/-- `FileINode._read(ofs, size, pad=...)`: inline data (an empty
`block_data` is falsy, but yields `b''` either way), `FileData`
content, or one block of the tree — where the size is re-clipped to
`min(size, self.size - oofs, BLOCK_SIZE_LIMIT - ofs)` (a negative
Python value and the truncated `Nat` subtraction both produce the empty
read) and the result is always zero-padded. -/
def _readF (st : FState) (ofs size : Nat) (pad : Bool) : Bytes :=
  match st.node with
  | .nil =>
      (if pad then zeropad_bytes size else id)
        (match st.blockData with
         | some d => pySlice ofs (ofs + size) d
         | none => [])
  | .fdata c =>
      (if pad then zeropad_bytes size else id) (pySlice ofs (ofs + size) c)
  | .ftree entries =>
      match treeNodeKeyData st.wb entries ofs size with
      | (_, _, d, ofs2) =>
          zeropad_bytes (min size (min (sizeOf st - ofs) (BSL - ofs2)))
            (pySlice ofs2
              (ofs2 + min size (min (sizeOf st - ofs) (BSL - ofs2))) d)

/-- The `while size > 0` loop of `FileINode.read`: collect `_read`
chunks until one comes back empty; each non-empty chunk strictly
shrinks `size`, so `size` itself is enough fuel. -/
def readLoop (st : FState) : Nat → Nat → Nat → Bytes
  | 0, _, _ => []
  | fuel + 1, ofs, size =>
      if size = 0 then []
      else
        if (_readF st ofs size false).length = 0 then []
        else
          _readF st ofs size false ++
            readLoop st fuel (ofs + (_readF st ofs size false).length)
              (size - (_readF st ofs size false).length)

/-- `FileINode.read(ofs, size)`. -/
def readF (st : FState) (ofs size : Nat) : Bytes := readLoop st size ofs size

/-- `FileINode.set_write_block(node, name, data)`. -/
def setWriteBlock (st : FState) (kn : Nat) (b : Bool) (data : Bytes) :
    FState :=
  { st with wb := some (Storage.aSet (st.wb.getD []) kn (b, data)) }

/-- `FileINode._write(ofs, buf, bufofs)`: splice into the inline data,
the `FileData` content, or — via the pending-write map — one block of
the tree (`bufmax = min(size, BLOCK_SIZE_LIMIT - ofs)` with
`size = len(buf)`); returns the new state and the number of bytes
written (`bufofs - obufofs`).  `mark_dirty` only registers the inode in
the forest's dirty set and is not modelled. -/
def _writeF (st : FState) (ofs : Nat) (buf : Bytes) (bufofs : Nat) :
    FState × Nat :=
  match st.node with
  | .nil =>
      match _replace st.blockData ofs buf bufofs 0 with
      | (s, bufofs2) => ({ st with blockData := some s }, bufofs2 - bufofs)
  | .fdata c =>
      match _replace (some c) ofs buf bufofs 0 with
      | (s, bufofs2) => ({ st with node := .fdata s }, bufofs2 - bufofs)
  | .ftree entries =>
      match treeNodeKeyData st.wb entries ofs buf.length with
      | (cnb, kn, d, ofs2) =>
          match _replace (some d) ofs2 buf bufofs
              (min buf.length (BSL - ofs2)) with
          | (s, bufofs2) => (setWriteBlock st kn cnb s, bufofs2 - bufofs)

/-- `DirtyMixin.flush` / `FileINode.perform_flush`: a falsy
`_write_blocks` is a no-op; otherwise each pending entry is created in
the tree when missing (`add_to_tree`) and its content stored
(`refer_or_store_block_by_data` + `set_block_id`, embedded as updating
the entry's content), and the map is deleted.  A pending map on a
non-tree node would fault on `self.node.add_to_tree`. -/
def flushF (st : FState) : Option FState :=
  match st.wb with
  | none => some st
  | some [] => some st
  | some l =>
      match st.node with
      | .ftree entries =>
          some { st with
            node := .ftree
              (l.foldl (fun es p => Storage.aSet es p.1 p.2.2) entries),
            wb := none }
      | _ => none

/-- `last_leaf` of the block tree: the entry with the largest packed
key. -/
def maxEntry : List (Nat × Bytes) → Option (Nat × Bytes)
  | [] => none
  | (k, v) :: rest =>
      match maxEntry rest with
      | none => some (k, v)
      | some (k2, v2) => if k < k2 then some (k2, v2) else some (k, v)

/-- `FileINode.stored_size`: flush, then measure the loaded node —
inline length, `FileData` content length, or
`last_leaf_index * BLOCK_SIZE_LIMIT + len(last_leaf.content)` (0 on
`IndexError` for an empty tree). -/
def storedSizeF (st : FState) : Option (FState × Nat) :=
  match flushF st with
  | none => none
  | some st2 =>
      match st2.node with
      | .nil => some (st2, (st2.blockData.getD []).length)
      | .fdata c => some (st2, c.length)
      | .ftree entries =>
          match maxEntry entries with
          | none => some (st2, 0)
          | some (kn, c) => some (st2, kn * BSL + c.length)

/-- `if self._write_blocks: del self._write_blocks` — only a truthy
(non-empty) map is deleted. -/
def delWbIf (w : Option (List (Nat × (Bool × Bytes)))) :
    Option (List (Nat × (Bool × Bytes))) :=
  match w with
  | some (_ :: _) => none
  | w => w

/-- `FileINode._to_interned_data(size)`: read (padded) the first `size`
bytes, clear `minifile`, stash them in the leaf's `block_data`, drop
the node. -/
def toInternedData (st : FState) (size : Nat) : Option FState :=
  some { st with
    minifile := false,
    blockData := some (_readF st 0 size true),
    node := .nil,
    wb := delWbIf st.wb }

/-- `FileINode._to_block_data(size)`: read (padded) the first `size`
bytes, set `minifile`, clear the leaf's `block_data`, hold the bytes in
a fresh `FileData` node. -/
def toBlockData (st : FState) (size : Nat) : Option FState :=
  some { st with
    minifile := true,
    blockData := none,
    node := .fdata (_readF st 0 size true),
    wb := delWbIf st.wb }

/-- The block-killing `while True` loop of `_to_block_tree`: drop
`last_leaf` while its block offset is at or past the target size
(`IndexError` on an empty tree breaks); every removal shrinks the tree,
so `length + 1` fuel suffices. -/
def killLoop : Nat → List (Nat × Bytes) → Nat → Option (List (Nat × Bytes))
  | 0, _, _ => none
  | fuel + 1, es, size =>
      match maxEntry es with
      | none => some es
      | some (kn, _) =>
          if size ≤ kn * BSL then
            killLoop fuel (es.eraseP (fun p => p.1 == kn)) size
          else some es

/-- `FileINode._to_block_tree(size, minimum_size)`: convert a non-tree
node by re-reading its whole content into a fresh tree (one `_write`
covers it — the old content is at most `BLOCK_SIZE_LIMIT` bytes);
shrink an oversized tree (flush, save the live tail of the last block,
kill the dead blocks, rewrite the tail, flush); and extend a too-short
tree with an empty write at the target (or at `minimum_size` when the
caller is about to write that range anyway).  This definition is the
conversion prologue (`if not isinstance(self.node, FileBlockTreeNode)`),
returning the tree-backed state and its `stored_size`. -/
def toTreeConvert (st : FState) : Option (FState × Nat) :=
  match st.node with
  | .ftree _ => some (st, sizeOf st)
  | _ =>
      match _writeF
          { st with minifile := false, blockData := none, node := .ftree [] }
          0 (readF st 0 (sizeOf st)) 0 with
      | (st2, _) => storedSizeF st2

/-- The main body of `_to_block_tree` (see `toTreeConvert` for the
non-tree conversion prologue). -/
def toBlockTree (st : FState) (size : Nat) (minSz : Option Nat) :
    Option FState :=
  match toTreeConvert st with
  | none => none
  | some (st3, ssize) =>
      match (if size < ssize then
               match flushF st3 with
               | none => none
               | some st4 =>
                   match st4.node with
                   | .ftree entries =>
                       match killLoop (entries.length + 1) entries size with
                       | none => none
                       | some entries2 =>
                           match (if (readF st4 (size - size % BSL)
                                      (size % BSL)).length = 0 then
                                    ({ st4 with node := .ftree entries2 }, 0)
                                  else
                                    _writeF
                                      { st4 with node := .ftree entries2 }
                                      (size - size % BSL)
                                      (readF st4 (size - size % BSL)
                                        (size % BSL)) 0) with
                           | (st5, _) => storedSizeF st5
                   | _ => none
             else some (st3, ssize)) with
      | none => none
      | some (st6, ssize2) =>
          if ssize2 < minSz.getD size then
            some (_writeF st6 (minSz.getD size) [] 0).1
          else some st6

/-- `FileINode.set_size(size, minimum_size=None)`: a no-op when the
size already matches; flush first only on an explicit `set_size` (the
write path passes `minimum_size`); then dispatch on the thresholds —
`> BLOCK_SIZE_LIMIT` becomes a block tree, `> INTERNED_BLOCK_DATA_
SIZE_LIMIT` a single `FileData` block, anything else interned data —
record `st_size`, and `assert self.size == size`. -/
def setSizeF (st : FState) (size : Nat) (minSz : Option Nat) :
    Option FState :=
  if sizeOf st = size then some st
  else
    match (if minSz = none then flushF st else some st) with
    | none => none
    | some st1 =>
        match (if BSL < size then toBlockTree st1 size minSz
               else if IBL < size then toBlockData st1 size
               else toInternedData st1 size) with
        | none => none
        | some st2 =>
            if sizeOf { st2 with stSize := some size } = size then
              some { st2 with stSize := some size }
            else none

/-- Modelled from the spec: `changed_mtime` (called by `write` but not
present in this source snapshot; `ops.py` calls it on every mutation)
stamps the direntry's `st_mtime_ns` with the current time — pure
metadata, recorded here as a flag. -/
def changedMtime (st : FState) : FState := { st with mtime := true }

/-- The `while done < len(buf)` loop of `FileINode.write`; each `_write`
consumes at least one byte of `buf` while `done < len(buf)`, so
`len(buf)` is enough fuel. -/
def writeLoop : Nat → FState → Nat → Bytes → Nat → Option (FState × Nat)
  | fuel, st, ofs, buf, done =>
      if done < buf.length then
        match fuel with
        | 0 => none
        | fuel + 1 =>
            match _writeF st (ofs + done) buf done with
            | (st2, wrote) => writeLoop fuel st2 ofs buf (done + wrote)
      else some (st, done)

/-- `FileINode.write(ofs, buf)`: grow to `ofs + len(buf)` if needed
(passing `minimum_size=ofs`), write block by block, stamp the mtime
(spec-modelled `changed_mtime`), and return the byte count written. -/
def writeF (st : FState) (ofs : Nat) (buf : Bytes) :
    Option (FState × Nat) :=
  match (if sizeOf st < ofs + buf.length then
           setSizeF st (ofs + buf.length) (some ofs)
         else some st) with
  | none => none
  | some st2 =>
      match writeLoop buf.length st2 ofs buf 0 with
      | none => none
      | some (st3, done) => some (changedMtime st3, done)


/-- `_write` never changes `st_size` or `minifile`, keeps an inline
node inline (establishing `block_data`), a `FileData` node a
`FileData`, and leaves a tree node and its entries untouched (the write
goes to the pending map). -/
theorem _writeF_frame (st : FState) (ofs : Nat) (buf : Bytes) (bo : Nat) :
    ((_writeF st ofs buf bo).1.stSize = st.stSize ∧
     (_writeF st ofs buf bo).1.minifile = st.minifile) ∧
    (st.node = FNode.nil → (_writeF st ofs buf bo).1.node = FNode.nil ∧
       ∃ s, (_writeF st ofs buf bo).1.blockData = some s) ∧
    (∀ c, st.node = FNode.fdata c →
       ∃ c2, (_writeF st ofs buf bo).1.node = FNode.fdata c2) ∧
    (∀ es, st.node = FNode.ftree es →
       (_writeF st ofs buf bo).1.node = FNode.ftree es ∧
       (_writeF st ofs buf bo).1.blockData = st.blockData) := by
  rcases st with ⟨bd, mf, sz, nd, wb, mt⟩
  cases nd with
  | nil => simp [_writeF, _replace]
  | fdata c => simp [_writeF, _replace]
  | ftree es =>
      rcases h4 : treeNodeKeyData wb es ofs buf.length with ⟨cnb, kn, d, ofs2⟩
      simp only [_writeF, h4, _replace, setWriteBlock]
      simp

/-- The write loop never changes `st_size` or `minifile` and preserves
the node's representation kind. -/
theorem writeLoop_frame : ∀ fuel st ofs buf done st2 n,
    writeLoop fuel st ofs buf done = some (st2, n) →
    st2.stSize = st.stSize ∧ st2.minifile = st.minifile ∧
    (st.node = FNode.nil → st2.node = FNode.nil ∧
       (st.blockData.isSome = true → st2.blockData.isSome = true)) ∧
    ((∃ c, st.node = FNode.fdata c) → ∃ c, st2.node = FNode.fdata c) ∧
    ((∃ es, st.node = FNode.ftree es) →
       ∃ es, st2.node = FNode.ftree es) := by
  intro fuel
  induction fuel with
  | zero =>
      intro st ofs buf done st2 n h
      unfold writeLoop at h
      split at h
      · simp at h
      · cases h
        simp
  | succ fuel ih =>
      intro st ofs buf done st2 n h
      unfold writeLoop at h
      split at h
      · dsimp only at h
        rcases hw : _writeF st (ofs + done) buf done with ⟨st3, wrote⟩
        rw [hw] at h
        dsimp only at h
        have hr := ih st3 ofs buf (done + wrote) st2 n h
        have hf := _writeF_frame st (ofs + done) buf done
        rw [hw] at hf
        dsimp only at hf
        refine ⟨hr.1.trans hf.1.1, hr.2.1.trans hf.1.2, ?_, ?_, ?_⟩
        · intro hn
          rcases hf.2.1 hn with ⟨hn3, s, hbd3⟩
          rcases hr.2.2.1 hn3 with ⟨hn2, hbd2⟩
          exact ⟨hn2, fun _ => hbd2 (by simp [hbd3])⟩
        · intro hc
          rcases hc with ⟨c, hc⟩
          rcases hf.2.2.1 c hc with ⟨c2, hc3⟩
          exact hr.2.2.2.1 ⟨c2, hc3⟩
        · intro he
          rcases he with ⟨es, he⟩
          exact hr.2.2.2.2 ⟨es, (hf.2.2.2 es he).1⟩
      · cases h
        simp

/-- `flush` on a tree-backed inode always succeeds and only merges the
pending map into the tree: every other field survives. -/
theorem flushF_ftree (st : FState) (es : List (Nat × Bytes))
    (h : st.node = FNode.ftree es) :
    ∃ st2, flushF st = some st2 ∧ (∃ es2, st2.node = FNode.ftree es2) ∧
      st2.stSize = st.stSize ∧ st2.minifile = st.minifile ∧
      st2.blockData = st.blockData := by
  rcases st with ⟨bd, mf, sz, nd, wb, mt⟩
  simp only at h
  subst h
  match wb with
  | none => exact ⟨_, rfl, ⟨es, rfl⟩, rfl, rfl, rfl⟩
  | some [] => exact ⟨_, rfl, ⟨es, rfl⟩, rfl, rfl, rfl⟩
  | some (x :: l) => exact ⟨_, rfl, ⟨_, rfl⟩, rfl, rfl, rfl⟩

/-- `stored_size` keeps a tree-backed node tree-backed. -/
theorem storedSizeF_ftree (st : FState) (es : List (Nat × Bytes))
    (h : st.node = FNode.ftree es) :
    ∀ st2 n, storedSizeF st = some (st2, n) →
      ∃ es2, st2.node = FNode.ftree es2 := by
  intro st2 n hs
  rcases flushF_ftree st es h with ⟨st3, hf, ⟨es3, hn3⟩, _⟩
  unfold storedSizeF at hs
  rw [hf] at hs
  dsimp only at hs
  rw [hn3] at hs
  dsimp only at hs
  rcases hme : maxEntry es3 with _ | ⟨kn, c⟩ <;> rw [hme] at hs <;>
    dsimp only at hs <;> cases hs <;> exact ⟨es3, hn3⟩

/-- The `_to_block_tree` conversion prologue yields a tree-backed
state. -/
theorem toTreeConvert_ftree (st : FState) (st2 : FState) (n : Nat)
    (h : toTreeConvert st = some (st2, n)) :
    ∃ es2, st2.node = FNode.ftree es2 := by
  rcases st with ⟨bd, mf, sz, nd, wb, mt⟩
  cases nd with
  | ftree es =>
      cases h
      exact ⟨es, rfl⟩
  | nil =>
      unfold toTreeConvert at h
      dsimp only at h
      rcases hw : _writeF ⟨none, false, sz, FNode.ftree [], wb, mt⟩ 0
          (readF ⟨bd, mf, sz, FNode.nil, wb, mt⟩ 0
            (sizeOf ⟨bd, mf, sz, FNode.nil, wb, mt⟩)) 0 with ⟨st3, w⟩
      have hfr := _writeF_frame ⟨none, false, sz, FNode.ftree [], wb, mt⟩ 0
        (readF ⟨bd, mf, sz, FNode.nil, wb, mt⟩ 0
          (sizeOf ⟨bd, mf, sz, FNode.nil, wb, mt⟩)) 0
      rw [hw] at hfr h
      dsimp only at hfr h
      exact storedSizeF_ftree st3 [] (hfr.2.2.2 [] rfl).1 st2 n h
  | fdata c =>
      unfold toTreeConvert at h
      dsimp only at h
      rcases hw : _writeF ⟨none, false, sz, FNode.ftree [], wb, mt⟩ 0
          (readF ⟨bd, mf, sz, FNode.fdata c, wb, mt⟩ 0
            (sizeOf ⟨bd, mf, sz, FNode.fdata c, wb, mt⟩)) 0 with ⟨st3, w⟩
      have hfr := _writeF_frame ⟨none, false, sz, FNode.ftree [], wb, mt⟩ 0
        (readF ⟨bd, mf, sz, FNode.fdata c, wb, mt⟩ 0
          (sizeOf ⟨bd, mf, sz, FNode.fdata c, wb, mt⟩)) 0
      rw [hw] at hfr h
      dsimp only at hfr h
      exact storedSizeF_ftree st3 [] (hfr.2.2.2 [] rfl).1 st2 n h

/-- `_to_block_tree` always leaves the node tree-backed. -/
theorem toBlockTree_ftree (st : FState) (size : Nat) (mz : Option Nat)
    (st2 : FState) (h : toBlockTree st size mz = some st2) :
    ∃ es2, st2.node = FNode.ftree es2 := by
  unfold toBlockTree at h
  rcases hc : toTreeConvert st with _ | ⟨st3, ssize⟩ <;> rw [hc] at h
  · simp at h
  dsimp only at h
  rcases toTreeConvert_ftree st st3 ssize hc with ⟨es3, hn3⟩
  have hmain : ∀ st6 ssize2,
      (if size < ssize then
         match flushF st3 with
         | none => none
         | some st4 =>
             match st4.node with
             | FNode.ftree entries =>
                 match killLoop (entries.length + 1) entries size with
                 | none => none
                 | some entries2 =>
                     match (if (readF st4 (size - size % BSL)
                                (size % BSL)).length = 0 then
                              ({ st4 with node := FNode.ftree entries2 }, 0)
                            else
                              _writeF { st4 with node := FNode.ftree entries2 }
                                (size - size % BSL)
                                (readF st4 (size - size % BSL) (size % BSL))
                                0) with
                     | (st5, _) => storedSizeF st5
             | _ => none
       else some (st3, ssize)) = some (st6, ssize2) →
      ∃ es6, st6.node = FNode.ftree es6 := by
    intro st6 ssize2 h6
    split at h6
    · rcases flushF_ftree st3 es3 hn3 with ⟨st4, hf, ⟨es4, hn4⟩, _⟩
      rw [hf] at h6
      dsimp only at h6
      rw [hn4] at h6
      dsimp only at h6
      rcases hk : killLoop (es4.length + 1) es4 size with _ | es5 <;>
        rw [hk] at h6
      · simp at h6
      dsimp only at h6
      split at h6
      · dsimp only at h6
        exact storedSizeF_ftree _ es5 rfl st6 ssize2 h6
      · rcases hw : _writeF { st4 with node := FNode.ftree es5 }
            (size - size % BSL)
            (readF st4 (size - size % BSL) (size % BSL)) 0 with ⟨st5, w⟩
        have hfr := _writeF_frame { st4 with node := FNode.ftree es5 }
          (size - size % BSL) (readF st4 (size - size % BSL) (size % BSL)) 0
        rw [hw] at hfr h6
        dsimp only at hfr h6
        exact storedSizeF_ftree st5 es5 (hfr.2.2.2 es5 rfl).1 st6 ssize2 h6
    · cases h6
      exact ⟨es3, hn3⟩
  rcases h7 : (if size < ssize then _ else some (st3, ssize)) with _ | ⟨st6, ssize2⟩ <;>
    rw [h7] at h
  · simp at h
  dsimp only at h
  rcases hmain st6 ssize2 h7 with ⟨es6, hn6⟩
  split at h
  · cases h
    have hfr := _writeF_frame st6 (mz.getD size) [] 0
    exact ⟨es6, (hfr.2.2.2 es6 hn6).1⟩
  · cases h
    exact ⟨es6, hn6⟩


/-- A successful `set_size` to a genuinely new size lands in the
representation regime dictated by the thresholds and records the new
`st_size`. -/
theorem setSizeF_regime (st : FState) (size : Nat) (mz : Option Nat)
    (st2 : FState) (hne : sizeOf st ≠ size)
    (h : setSizeF st size mz = some st2) :
    sizeOf st2 = size ∧
    (size ≤ IBL → st2.node = FNode.nil ∧ st2.blockData.isSome = true ∧
       st2.minifile = false) ∧
    (IBL < size → size ≤ BSL → (∃ c, st2.node = FNode.fdata c) ∧
       st2.blockData = none ∧ st2.minifile = true) ∧
    (BSL < size → ∃ es, st2.node = FNode.ftree es) := by
  unfold setSizeF at h
  rw [if_neg hne] at h
  rcases hf : (if mz = none then flushF st else some st) with _ | st1 <;>
    rw [hf] at h
  · simp at h
  dsimp only at h
  rcases hd : (if BSL < size then toBlockTree st1 size mz
               else if IBL < size then toBlockData st1 size
               else toInternedData st1 size) with _ | st3 <;> rw [hd] at h
  · simp at h
  dsimp only at h
  rw [if_pos (by simp [sizeOf])] at h
  cases h
  have hIB : IBL ≤ BSL := by decide
  refine ⟨by simp [sizeOf], ?_, ?_, ?_⟩
  · intro hle
    rw [if_neg (by omega), if_neg (by omega)] at hd
    unfold toInternedData at hd
    cases hd
    simp
  · intro hgt hle
    rw [if_neg (by omega), if_pos hgt] at hd
    unfold toBlockData at hd
    cases hd
    exact ⟨⟨_, rfl⟩, rfl, rfl⟩
  · intro hgt
    rw [if_pos hgt] at hd
    rcases toBlockTree_ftree st1 size mz st3 hd with ⟨es, hn⟩
    exact ⟨es, hn⟩


/-- **C4.** The storage regime after `set_size` (or a growing `write`)
is determined exactly by the size thresholds: a 128-byte file is kept
inline in the leaf's `block_data` (`node` dropped, `minifile` clear), a
129-byte and a `BLOCK_SIZE_LIMIT`(=128000)-byte file each become a
single `FileData` block with `minifile` set and no inline data, and a
128001-byte file becomes a block tree; `st_size` records the new size
in every regime.  The no-transition hypothesis `sizeOf st ≠ target`
reflects "after set_size": `set_size` returns immediately when the
size already matches, leaving whatever representation was there. -/
theorem C4_storage_regimes (st : FState) :
    (∀ st2, sizeOf st ≠ 128 → setSizeF st 128 none = some st2 →
       st2.node = FNode.nil ∧ st2.blockData.isSome = true ∧
       st2.minifile = false ∧ sizeOf st2 = 128) ∧
    (∀ st2, sizeOf st ≠ 129 → setSizeF st 129 none = some st2 →
       (∃ c, st2.node = FNode.fdata c) ∧ st2.blockData = none ∧
       st2.minifile = true ∧ sizeOf st2 = 129) ∧
    (∀ st2, sizeOf st ≠ 128000 → setSizeF st 128000 none = some st2 →
       (∃ c, st2.node = FNode.fdata c) ∧ st2.blockData = none ∧
       st2.minifile = true ∧ sizeOf st2 = 128000) ∧
    (∀ st2, sizeOf st ≠ 128001 → setSizeF st 128001 none = some st2 →
       (∃ es, st2.node = FNode.ftree es) ∧ sizeOf st2 = 128001) ∧
    (∀ ofs buf st2 n, sizeOf st < ofs + buf.length →
       writeF st ofs buf = some (st2, n) →
       (ofs + buf.length ≤ 128 → st2.node = FNode.nil ∧
          st2.blockData.isSome = true) ∧
       (128 < ofs + buf.length → ofs + buf.length ≤ 128000 →
          ∃ c, st2.node = FNode.fdata c) ∧
       (128000 < ofs + buf.length → ∃ es, st2.node = FNode.ftree es) ∧
       sizeOf st2 = ofs + buf.length) := by
  refine ⟨?_, ?_, ?_, ?_, ?_⟩
  · intro st2 hne h
    have hr := setSizeF_regime st 128 none st2 hne h
    have hc := hr.2.1 (by decide)
    exact ⟨hc.1, hc.2.1, hc.2.2, hr.1⟩
  · intro st2 hne h
    have hr := setSizeF_regime st 129 none st2 hne h
    have hc := hr.2.2.1 (by decide) (by decide)
    exact ⟨hc.1, hc.2.1, hc.2.2, hr.1⟩
  · intro st2 hne h
    have hr := setSizeF_regime st 128000 none st2 hne h
    have hc := hr.2.2.1 (by decide) (by decide)
    exact ⟨hc.1, hc.2.1, hc.2.2, hr.1⟩
  · intro st2 hne h
    have hr := setSizeF_regime st 128001 none st2 hne h
    exact ⟨hr.2.2.2 (by decide), hr.1⟩
  · intro ofs buf st2 n hlt h
    unfold writeF at h
    rw [if_pos hlt] at h
    rcases hss : setSizeF st (ofs + buf.length) (some ofs) with _ | st3 <;>
      rw [hss] at h
    · simp at h
    dsimp only at h
    rcases hwl : writeLoop buf.length st3 ofs buf 0 with _ | ⟨st4, dn⟩ <;>
      rw [hwl] at h
    · simp at h
    dsimp only at h
    injection h with h1
    injection h1 with hA hB
    subst hA
    have hr := setSizeF_regime st (ofs + buf.length) (some ofs) st3
      (by omega) hss
    have hfr := writeLoop_frame buf.length st3 ofs buf 0 st4 dn hwl
    have hsz : sizeOf (changedMtime st4) = sizeOf st3 := by
      simp [changedMtime, sizeOf, hfr.1]
    refine ⟨?_, ?_, ?_, by rw [hsz, hr.1]⟩
    · intro hle
      have hc := hr.2.1 hle
      rcases hfr.2.2.1 hc.1 with ⟨hn4, hbd4⟩
      exact ⟨hn4, hbd4 hc.2.1⟩
    · intro hgt hle
      have hc := hr.2.2.1 hgt hle
      exact hfr.2.2.2.1 hc.1
    · intro hgt
      exact hfr.2.2.2.2 (hr.2.2.2 hgt)


/-- A freshly created, empty file inode. -/
def c4st0 : FState := ⟨none, false, none, FNode.nil, none, false⟩

/-- `c4st0` after `set_size(128)`: 128 inline zero bytes. -/
def c4s128 : FState :=
  ⟨some (List.replicate 128 0), false, some 128, FNode.nil, none, false⟩

/-- `c4st0` after `set_size(129)`: one `FileData` block. -/
def c4s129 : FState :=
  ⟨none, true, some 129, FNode.fdata (List.replicate 129 0), none, false⟩

/-- `c4st0` after `set_size(128000)`: still one `FileData` block. -/
def c4s128000 : FState :=
  ⟨none, true, some 128000, FNode.fdata (List.replicate 128000 0), none,
   false⟩

/-- `c4st0` after `set_size(128001)`: a block tree (block 0 created by
the conversion's empty write, the one byte of block 1 pending). -/
def c4s128001 : FState :=
  ⟨none, false, some 128001, FNode.ftree [(0, [])],
   some [(1, false, [0])], false⟩

/-- `c4st0` after `write(128000, bytes([9]))`: a block tree. -/
def c4w : FState :=
  ⟨none, false, some 128001, FNode.ftree [(0, [])],
   some [(1, false, [9])], true⟩

/-- Concrete regime transitions of an initially empty file at each
threshold, certified by `C4_storage_regimes`. -/
theorem C4_storage_regimes_witness :
    (sizeOf c4st0 ≠ 128 ∧ setSizeF c4st0 128 none = some c4s128 ∧
     c4s128.node = FNode.nil ∧ c4s128.blockData.isSome = true ∧
     c4s128.minifile = false ∧ sizeOf c4s128 = 128) ∧
    (sizeOf c4st0 ≠ 129 ∧ setSizeF c4st0 129 none = some c4s129 ∧
     (∃ c, c4s129.node = FNode.fdata c) ∧ c4s129.blockData = none ∧
     c4s129.minifile = true ∧ sizeOf c4s129 = 129) ∧
    (sizeOf c4st0 ≠ 128000 ∧ setSizeF c4st0 128000 none = some c4s128000 ∧
     (∃ c, c4s128000.node = FNode.fdata c) ∧ c4s128000.blockData = none ∧
     c4s128000.minifile = true ∧ sizeOf c4s128000 = 128000) ∧
    (sizeOf c4st0 ≠ 128001 ∧ setSizeF c4st0 128001 none = some c4s128001 ∧
     (∃ es, c4s128001.node = FNode.ftree es) ∧
     sizeOf c4s128001 = 128001) ∧
    (sizeOf c4st0 < 128000 + [9].length ∧
     writeF c4st0 128000 [9] = some (c4w, 1) ∧
     (∃ es, c4w.node = FNode.ftree es) ∧ sizeOf c4w = 128001) := by
  have hm := C4_storage_regimes c4st0
  have h128 : setSizeF c4st0 128 none = some c4s128 := rfl
  have h129 : setSizeF c4st0 129 none = some c4s129 := rfl
  have h128000 : setSizeF c4st0 128000 none = some c4s128000 := rfl
  have h128001 : setSizeF c4st0 128001 none = some c4s128001 := rfl
  have hw : writeF c4st0 128000 [9] = some (c4w, 1) := rfl
  have hc1 := hm.1 c4s128 (by decide) h128
  have hc2 := hm.2.1 c4s129 (by decide) h129
  have hc3 := hm.2.2.1 c4s128000 (by decide) h128000
  have hc4 := hm.2.2.2.1 c4s128001 (by decide) h128001
  have hc5 := hm.2.2.2.2 128000 [9] c4w 1 (by decide) hw
  exact ⟨⟨by decide, h128, hc1.1, hc1.2.1, hc1.2.2.1, hc1.2.2.2⟩,
    ⟨by decide, h129, hc2.1, hc2.2.1, hc2.2.2.1, hc2.2.2.2⟩,
    ⟨by decide, h128000, hc3.1, hc3.2.1, hc3.2.2.1, hc3.2.2.2⟩,
    ⟨by decide, h128001, hc4.1, hc4.2⟩,
    ⟨by decide, hw, hc5.2.2.1 (by decide), hc5.2.2.2⟩⟩


theorem nsOf_zero_zero (buf : Bytes) : nsOf buf 0 0 = buf := by
  simp [nsOf, Tfhfs.pySlice]

theorem pySlice_getD (l : Bytes) (a b i : Nat) :
    (pySlice a b l).getD i 0 = if a + i < b then l.getD (a + i) 0 else 0 := by
  simp only [Tfhfs.pySlice, List.getD_eq_getElem?_getD, List.getElem?_drop,
    List.getElem?_take]
  split
  · rfl
  · simp

theorem prefix_length (s : Bytes) (o : Nat) :
    (s.take o ++ List.replicate (o - s.length) 0).length = o := by
  simp
  omega

theorem replaceWith_length (s ns : Bytes) (o : Nat) :
    (replaceWith s o ns).length = max (o + ns.length) s.length := by
  simp [replaceWith]
  omega

theorem replaceWith_assoc (s ns : Bytes) (o : Nat) :
    replaceWith s o ns =
      (s.take o ++ List.replicate (o - s.length) 0) ++
        (ns ++ s.drop (o + ns.length)) := by
  simp [replaceWith]

theorem slice_middle (A mid B : Bytes) (o : Nat) (hA : A.length = o) :
    pySlice o (o + mid.length) (A ++ (mid ++ B)) = mid := by
  subst hA
  unfold Tfhfs.pySlice
  rw [List.take_append, List.take_left, List.drop_left]

theorem slice_replaceWith (s ns : Bytes) (o : Nat) :
    pySlice o (o + ns.length) (replaceWith s o ns) = ns := by
  rw [replaceWith_assoc]
  exact slice_middle _ ns _ o (prefix_length s o)

theorem getD_replaceWith (s ns : Bytes) (o q : Nat) :
    (replaceWith s o ns).getD q 0 =
      if o ≤ q ∧ q < o + ns.length then ns.getD (q - o) 0
      else s.getD q 0 := by
  rw [replaceWith_assoc]
  simp only [List.getD_eq_getElem?_getD, List.getElem?_append,
    prefix_length, List.length_take, List.getElem?_take,
    List.getElem?_replicate, List.getElem?_drop, List.length_replicate]
  split_ifs <;>
    first
      | rfl
      | omega
      | (rw [List.getElem?_eq_none (by omega)]; rfl)
      | (rw [List.getElem?_eq_none (by omega),
             List.getElem?_eq_none (by omega)])
      | (have hq : o + ns.length + (q - o - ns.length) = q := by omega
         rw [hq])

theorem chunk_map (d : Bytes) (o c : Nat) :
    zeropad_bytes c (pySlice o (o + c) d) =
      (List.range c).map (fun i => d.getD (o + i) 0) := by
  apply List.ext_getElem?
  intro i
  by_cases hic : i < c
  · rw [List.getElem?_map, List.getElem?_range hic]
    simp only [Option.map_some']
    simp only [Tfhfs.zeropad_bytes, Tfhfs.pySlice, List.getElem?_append,
      List.getElem?_replicate, List.length_drop, List.length_take,
      List.getElem?_drop, List.getElem?_take]
    by_cases hd : o + i < d.length
    · rw [if_pos (by omega), if_pos (by omega),
        List.getElem?_eq_getElem hd, List.getD_eq_getElem?_getD,
        List.getElem?_eq_getElem hd]
      rfl
    · rw [if_neg (by omega), if_pos (by omega),
        List.getD_eq_getElem?_getD, List.getElem?_eq_none (by omega)]
      rfl
  · rw [List.getElem?_eq_none (by
        simp only [Tfhfs.zeropad_bytes, Tfhfs.pySlice, List.length_append,
          List.length_replicate, List.length_drop, List.length_take]
        omega),
      List.getElem?_eq_none (by
        simp only [List.length_map, List.length_range]; omega)]

theorem mapRange_getD (l : Bytes) :
    (List.range l.length).map (fun i => l.getD i 0) = l := by
  apply List.ext_getElem?
  intro i
  by_cases h : i < l.length
  · rw [List.getElem?_map, List.getElem?_range h,
      List.getElem?_eq_getElem h]
    simp [List.getD_eq_getElem?_getD, List.getElem?_eq_getElem h]
  · rw [List.getElem?_eq_none (by
        simp only [List.length_map, List.length_range]; omega),
      List.getElem?_eq_none (by omega)]


/-- The bytes stored for block `kn` of a tree-backed file: the pending
`_write_blocks` entry if present, else the tree entry, else nothing
(an absent block reads as zeroes). -/
def blockAt (w : Option (List (Nat × (Bool × Bytes))))
    (es : List (Nat × Bytes)) (kn : Nat) : Bytes :=
  match Storage.aGet (w.getD []) kn with
  | some p => p.2
  | none =>
      match Storage.aGet es kn with
      | some d => d
      | none => []

/-- The effective byte at file offset `p` of a tree-backed file. -/
def treeByte (w : Option (List (Nat × (Bool × Bytes))))
    (es : List (Nat × Bytes)) (p : Nat) : Nat :=
  (blockAt w es (p / BSL)).getD (p % BSL) 0

theorem treeNodeKeyData_kn (w : Option (List (Nat × (Bool × Bytes))))
    (es : List (Nat × Bytes)) (ofs size : Nat) :
    (treeNodeKeyData w es ofs size).2.1 = ofs / BSL ∧
    (treeNodeKeyData w es ofs size).2.2.2 = ofs % BSL := by
  unfold treeNodeKeyData treeKeyForOfs
  dsimp only
  rcases Storage.aGet (w.getD []) (ofs / BSL) with _ | ⟨b, d⟩
  · rcases Storage.aGet es (ofs / BSL) with _ | d <;> exact ⟨rfl, rfl⟩
  · exact ⟨rfl, rfl⟩

theorem treeNodeKeyData_getD (w : Option (List (Nat × (Bool × Bytes))))
    (es : List (Nat × Bytes)) (ofs size j : Nat) :
    ((treeNodeKeyData w es ofs size).2.2.1).getD j 0 =
      (blockAt w es (ofs / BSL)).getD j 0 := by
  unfold treeNodeKeyData treeKeyForOfs blockAt
  dsimp only
  rcases Storage.aGet (w.getD []) (ofs / BSL) with _ | ⟨b, d⟩
  · rcases Storage.aGet es (ofs / BSL) with _ | d
    · dsimp only
      rw [List.getD_eq_getElem?_getD, List.getElem?_replicate]
      split <;> rfl
    · rfl
  · rfl

theorem readLoop_zero (st : FState) : ∀ fuel a,
    readLoop st fuel a 0 = [] := by
  intro fuel a
  cases fuel <;> simp [readLoop]

/-- Reading a range of a tree-backed file inside its size returns
exactly the effective bytes, chunked at block boundaries. -/
theorem readLoop_tree (es : List (Nat × Bytes)) :
    ∀ fuel (st : FState) a sz, st.node = FNode.ftree es → sz ≤ fuel →
      a + sz ≤ sizeOf st →
      readLoop st fuel a sz =
        (List.range sz).map (fun i => treeByte st.wb es (a + i)) := by
  intro fuel
  induction fuel with
  | zero =>
      intro st a sz hn hsz hb
      have h0 : sz = 0 := by omega
      subst h0
      simp [readLoop]
  | succ fuel ih =>
      intro st a sz hn hsz hb
      by_cases h0 : sz = 0
      · subst h0
        simp [readLoop_zero]
      have hBpos : (0 : Nat) < BSL := by decide
      have hmod : a % BSL < BSL := Nat.mod_lt _ hBpos
      have hsz1 : 1 ≤ sz := by omega
      -- the chunk the loop reads in this iteration
      have hchunk : _readF st a sz false =
          (List.range (min sz (BSL - a % BSL))).map
            (fun i => treeByte st.wb es (a + i)) := by
        unfold _readF
        rw [hn]
        dsimp only
        rcases h4 : treeNodeKeyData st.wb es a sz with ⟨cnb, kn, d, ofs2⟩
        have hk := treeNodeKeyData_kn st.wb es a sz
        rw [h4] at hk
        dsimp only at hk ⊢
        rcases hk with ⟨hk1, hk2⟩
        subst hk1
        subst hk2
        have hm : min sz (min (sizeOf st - a) (BSL - a % BSL)) =
            min sz (BSL - a % BSL) := by omega
        rw [hm, chunk_map]
        apply List.map_congr_left
        intro i hi
        rw [List.mem_range] at hi
        have hgd : d.getD (a % BSL + i) 0 =
            (blockAt st.wb es (a / BSL)).getD (a % BSL + i) 0 := by
          have := treeNodeKeyData_getD st.wb es a sz (a % BSL + i)
          rw [h4] at this
          exact this
        rw [hgd]
        unfold treeByte
        have hdiv : (a + i) / BSL = a / BSL := by
          simp only [BSL] at *
          omega
        have hmod2 : (a + i) % BSL = a % BSL + i := by
          simp only [BSL] at *
          omega
        rw [hdiv, hmod2]
      unfold readLoop
      rw [if_neg h0, hchunk]
      have hlen : ((List.range (min sz (BSL - a % BSL))).map
          (fun i => treeByte st.wb es (a + i))).length =
            min sz (BSL - a % BSL) := by
        simp
      rw [hlen, if_neg (by omega)]
      rw [ih st (a + min sz (BSL - a % BSL))
        (sz - min sz (BSL - a % BSL)) hn (by omega) (by omega)]
      have hsplit : sz = min sz (BSL - a % BSL) +
          (sz - min sz (BSL - a % BSL)) := by omega
      conv_rhs => rw [hsplit]
      rw [List.range_add, List.map_append, List.map_map]
      congr 1
      apply List.map_congr_left
      intro i hi
      simp only [Function.comp]
      congr 1
      omega


/-- One `_write` step on a tree-backed file writes exactly
`min(len(buf) - bufofs, BLOCK_SIZE_LIMIT - ofs % BLOCK_SIZE_LIMIT)`
bytes, and pointwise the effective bytes become the written slice of
`buf` on `[ofs, ofs + wrote)` and are untouched elsewhere. -/
theorem _writeF_tree_byte (st : FState) (es : List (Nat × Bytes))
    (hn : st.node = FNode.ftree es) (p : Nat) (buf : Bytes) (done : Nat)
    (hd : done < buf.length) :
    (_writeF st p buf done).2 =
      min (buf.length - done) (BSL - p % BSL) ∧
    ∀ q, treeByte (_writeF st p buf done).1.wb es q =
      (if p ≤ q ∧ q < p + min (buf.length - done) (BSL - p % BSL) then
        buf.getD (done + (q - p)) 0
      else treeByte st.wb es q) := by
  have hBpos : (0 : Nat) < BSL := by decide
  have hmod : p % BSL < BSL := Nat.mod_lt _ hBpos
  unfold _writeF
  rw [hn]
  dsimp only
  rcases h4 : treeNodeKeyData st.wb es p buf.length with ⟨cnb, kn, d, ofs2⟩
  have hk := treeNodeKeyData_kn st.wb es p buf.length
  rw [h4] at hk
  dsimp only at hk ⊢
  rcases hk with ⟨hk1, hk2⟩
  subst hk1
  subst hk2
  dsimp only [_replace]
  have hbm : ¬(min buf.length (BSL - p % BSL) = 0) := by omega
  have hns : (nsOf buf done (min buf.length (BSL - p % BSL))).length =
      min (buf.length - done) (BSL - p % BSL) := by
    unfold nsOf Tfhfs.pySlice
    rw [if_neg hbm]
    simp
    omega
  constructor
  · rw [hns]
    omega
  · intro q
    unfold treeByte setWriteBlock blockAt
    dsimp only
    simp only [Option.getD_some]
    by_cases hq : q / BSL = p / BSL
    · rw [hq, Storage.aGet_aSet_self]
      have hrw := getD_replaceWith d
        (nsOf buf done (min buf.length (BSL - p % BSL))) (p % BSL) (q % BSL)
      rw [hrw, hns]
      have hmodq : q % BSL < BSL := Nat.mod_lt _ hBpos
      have hgd := treeNodeKeyData_getD st.wb es p buf.length (q % BSL)
      rw [h4] at hgd
      dsimp only at hgd
      simp only [BSL] at *
      by_cases hin : p ≤ q ∧
          q < p + min (buf.length - done) (128000 - p % 128000)
      · rw [if_pos (by omega), if_pos hin]
        have hj := pySlice_getD buf done
          (done + min buf.length (128000 - p % 128000))
          (q % 128000 - p % 128000)
        unfold nsOf
        rw [if_neg hbm, hj, if_pos (by omega)]
        have he : done + (q % 128000 - p % 128000) = done + (q - p) := by
          omega
        rw [he]
      · rw [if_neg (by omega), if_neg hin]
        exact hgd
    · rw [Storage.aGet_aSet_other _ _ _ _ hq]
      have hfalse : ¬(p ≤ q ∧
          q < p + min (buf.length - done) (BSL - p % BSL)) := by
        intro hin
        apply hq
        simp only [BSL] at *
        omega
      rw [if_neg hfalse]


/-- The write loop on a tree-backed file writes `buf[done:]` to the
effective bytes at `[ofs + done, ofs + len(buf))`, touches nothing
else, and returns `len(buf)`. -/
theorem writeLoop_tree_byte (es : List (Nat × Bytes)) (buf : Bytes)
    (ofs : Nat) :
    ∀ fuel (st : FState) done, st.node = FNode.ftree es →
      done ≤ buf.length → buf.length - done ≤ fuel →
      ∃ st2, writeLoop fuel st ofs buf done = some (st2, buf.length) ∧
        st2.node = FNode.ftree es ∧ st2.stSize = st.stSize ∧
        st2.minifile = st.minifile ∧ st2.blockData = st.blockData ∧
        ∀ q, treeByte st2.wb es q =
          (if ofs + done ≤ q ∧ q < ofs + buf.length then
            buf.getD (q - ofs) 0
          else treeByte st.wb es q) := by
  intro fuel
  induction fuel with
  | zero =>
      intro st done hn hd hf
      have hdl : done = buf.length := by omega
      refine ⟨st, ?_, hn, rfl, rfl, rfl, ?_⟩
      · unfold writeLoop
        rw [if_neg (by omega), hdl]
      · intro q
        rw [if_neg (by omega)]
  | succ fuel ih =>
      intro st done hn hd hf
      by_cases hlt : done < buf.length
      · unfold writeLoop
        rw [if_pos hlt]
        dsimp only
        rcases hw : _writeF st (ofs + done) buf done with ⟨st4, wrote⟩
        dsimp only
        have hstep := _writeF_tree_byte st es hn (ofs + done) buf done hlt
        rw [hw] at hstep
        dsimp only at hstep
        have hfr := _writeF_frame st (ofs + done) buf done
        rw [hw] at hfr
        dsimp only at hfr
        have hnode4 : st4.node = FNode.ftree es := (hfr.2.2.2 es hn).1
        have hmlt : (ofs + done) % BSL < BSL := Nat.mod_lt _ (by decide)
        have hw1 : 1 ≤ wrote := by
          rw [hstep.1]
          omega
        have hwle : wrote ≤ buf.length - done := by
          rw [hstep.1]
          omega
        obtain ⟨st2, hloop, hnode2, hss, hmf, hbd, hpt⟩ :=
          ih st4 (done + wrote) hnode4 (by omega) (by omega)
        have hcond := hstep.2
        rw [← hstep.1] at hcond
        refine ⟨st2, hloop, hnode2, hss.trans hfr.1.1,
          hmf.trans hfr.1.2, hbd.trans (hfr.2.2.2 es hn).2, ?_⟩
        intro q
        rw [hpt q]
        by_cases h1 : ofs + (done + wrote) ≤ q ∧ q < ofs + buf.length
        · rw [if_pos h1, if_pos (by omega)]
        · rw [if_neg h1, hcond q]
          by_cases h2 : ofs + done ≤ q ∧ q < ofs + done + wrote
          · rw [if_pos h2, if_pos (by omega)]
            have he : done + (q - (ofs + done)) = q - ofs := by omega
            rw [he]
          · rw [if_neg h2, if_neg (by omega)]
      · have hdl : done = buf.length := by omega
        refine ⟨st, ?_, hn, rfl, rfl, rfl, ?_⟩
        · unfold writeLoop
          rw [if_neg hlt, hdl]
        · intro q
          rw [if_neg (by omega)]


theorem writeLoop_once (st st4 : FState) (ofs : Nat) (buf : Bytes)
    (hne : 0 < buf.length)
    (hw : _writeF st ofs buf 0 = (st4, buf.length)) :
    writeLoop buf.length st ofs buf 0 = some (st4, buf.length) := by
  obtain ⟨k, hk⟩ : ∃ k, buf.length = k + 1 := ⟨buf.length - 1, by omega⟩
  rw [hk]
  unfold writeLoop
  rw [if_pos (by omega)]
  dsimp only
  simp only [Nat.add_zero, Nat.zero_add]
  rw [hw]
  dsimp only
  unfold writeLoop
  rw [if_neg (by omega)]
  simp [hk]

theorem _writeF_nil (st : FState) (hn : st.node = FNode.nil) (ofs : Nat)
    (buf : Bytes) :
    _writeF st ofs buf 0 =
      ({ st with blockData := some (replaceWith (st.blockData.getD []) ofs buf) },
       buf.length) := by
  unfold _writeF
  rw [hn]
  dsimp only [_replace]
  rw [nsOf_zero_zero]
  simp

theorem _writeF_fdata (st : FState) (c : Bytes)
    (hn : st.node = FNode.fdata c) (ofs : Nat) (buf : Bytes) :
    _writeF st ofs buf 0 =
      ({ st with node := FNode.fdata (replaceWith c ofs buf) },
       buf.length) := by
  unfold _writeF
  rw [hn]
  dsimp only [_replace]
  rw [nsOf_zero_zero]
  simp

theorem pySlice_nil_of_le (bd : Bytes) (a : Nat) :
    pySlice a a bd = [] := by
  unfold Tfhfs.pySlice
  apply List.eq_nil_of_length_eq_zero
  simp

theorem readF_nil_full (st : FState) (bd : Bytes) (hn : st.node = FNode.nil)
    (hbd : st.blockData = some bd) (a sz : Nat) (hsz : a + sz ≤ bd.length) :
    readF st a sz = pySlice a (a + sz) bd := by
  by_cases h0 : sz = 0
  · subst h0
    unfold readF
    rw [readLoop_zero, Nat.add_zero]
    exact (pySlice_nil_of_le bd a).symm
  · have hr : _readF st a sz false = pySlice a (a + sz) bd := by
      unfold _readF
      rw [hn, hbd]
      simp
    have hlen : (pySlice a (a + sz) bd).length = sz := by
      simp [Tfhfs.pySlice]
      omega
    obtain ⟨k, hk⟩ : ∃ k, sz = k + 1 := ⟨sz - 1, by omega⟩
    unfold readF
    rw [hk]
    unfold readLoop
    rw [if_neg (by omega)]
    rw [← hk, hr, hlen]
    rw [if_neg h0, hk]
    have hz : readLoop st k (a + sz) (k + 1 - sz) = [] := by
      rw [hk]
      simp [readLoop_zero]
    rw [← hk] at hz ⊢
    rw [hz, List.append_nil]

theorem readF_fdata_full (st : FState) (c : Bytes)
    (hn : st.node = FNode.fdata c) (a sz : Nat)
    (hsz : a + sz ≤ c.length) :
    readF st a sz = pySlice a (a + sz) c := by
  by_cases h0 : sz = 0
  · subst h0
    unfold readF
    rw [readLoop_zero, Nat.add_zero]
    exact (pySlice_nil_of_le c a).symm
  · have hr : _readF st a sz false = pySlice a (a + sz) c := by
      unfold _readF
      rw [hn]
      simp
    have hlen : (pySlice a (a + sz) c).length = sz := by
      simp [Tfhfs.pySlice]
      omega
    obtain ⟨k, hk⟩ : ∃ k, sz = k + 1 := ⟨sz - 1, by omega⟩
    unfold readF
    rw [hk]
    unfold readLoop
    rw [if_neg (by omega)]
    rw [← hk, hr, hlen]
    rw [if_neg h0, hk]
    have hz : readLoop st k (a + sz) (k + 1 - sz) = [] := by
      rw [hk]
      simp [readLoop_zero]
    rw [← hk] at hz ⊢
    rw [hz, List.append_nil]


/-- Well-formedness of a linked file inode, true of every state the
file API produces: inline data has exactly `st_size` bytes, a
`FileData` node holds exactly `st_size` bytes, and a block tree is
only used for files larger than `BLOCK_SIZE_LIMIT`. -/
def WF (st : FState) : Prop :=
  (st.node = FNode.nil → (st.blockData.getD []).length = sizeOf st) ∧
  (∀ c, st.node = FNode.fdata c → c.length = sizeOf st) ∧
  (∀ es, st.node = FNode.ftree es → BSL < sizeOf st)

theorem nil_write_read (st : FState) (bd : Bytes) (hn : st.node = FNode.nil)
    (hbd : st.blockData = some bd) (ofs : Nat) (buf : Bytes)
    (hb : ofs + buf.length ≤ bd.length) :
    ∃ st2, writeLoop buf.length st ofs buf 0 = some (st2, buf.length) ∧
      st2.node = FNode.nil ∧ st2.stSize = st.stSize ∧
      (∃ bd2, st2.blockData = some bd2 ∧ bd2.length = bd.length) ∧
      readF st2 ofs buf.length = buf := by
  by_cases hne : buf.length = 0
  · refine ⟨st, ?_, hn, rfl, ⟨bd, hbd, rfl⟩, ?_⟩
    · unfold writeLoop
      rw [if_neg (by omega), hne]
    · rw [hne]
      unfold readF
      rw [readLoop_zero]
      exact (List.length_eq_zero.mp hne).symm
  · have hw := _writeF_nil st hn ofs buf
    rw [hbd] at hw
    simp only [Option.getD_some] at hw
    have hloop := writeLoop_once st _ ofs buf (by omega) hw
    have hlen2 : (replaceWith bd ofs buf).length = bd.length := by
      rw [replaceWith_length]
      omega
    refine ⟨_, hloop, by simp [hn], rfl,
      ⟨replaceWith bd ofs buf, rfl, hlen2⟩, ?_⟩
    have hread := readF_nil_full
      { st with blockData := some (replaceWith bd ofs buf) }
      (replaceWith bd ofs buf) (by simp [hn]) rfl ofs buf.length
      (by rw [hlen2]; omega)
    rw [hread]
    exact slice_replaceWith bd buf ofs

theorem fdata_write_read (st : FState) (c : Bytes)
    (hn : st.node = FNode.fdata c) (ofs : Nat) (buf : Bytes)
    (hb : ofs + buf.length ≤ c.length) :
    ∃ st2, writeLoop buf.length st ofs buf 0 = some (st2, buf.length) ∧
      (∃ c2, st2.node = FNode.fdata c2 ∧ c2.length = c.length) ∧
      st2.stSize = st.stSize ∧ readF st2 ofs buf.length = buf := by
  by_cases hne : buf.length = 0
  · refine ⟨st, ?_, ⟨c, hn, rfl⟩, rfl, ?_⟩
    · unfold writeLoop
      rw [if_neg (by omega), hne]
    · rw [hne]
      unfold readF
      rw [readLoop_zero]
      exact (List.length_eq_zero.mp hne).symm
  · have hw := _writeF_fdata st c hn ofs buf
    have hloop := writeLoop_once st _ ofs buf (by omega) hw
    have hlen2 : (replaceWith c ofs buf).length = c.length := by
      rw [replaceWith_length]
      omega
    refine ⟨_, hloop, ⟨replaceWith c ofs buf, by simp, hlen2⟩, rfl, ?_⟩
    have hread := readF_fdata_full
      { st with node := FNode.fdata (replaceWith c ofs buf) }
      (replaceWith c ofs buf) (by simp) ofs buf.length
      (by rw [hlen2]; omega)
    rw [hread]
    exact slice_replaceWith c buf ofs

theorem tree_write_read (st : FState) (es : List (Nat × Bytes))
    (hn : st.node = FNode.ftree es) (ofs : Nat) (buf : Bytes)
    (hb : ofs + buf.length ≤ sizeOf st) :
    ∃ st2, writeLoop buf.length st ofs buf 0 = some (st2, buf.length) ∧
      st2.node = FNode.ftree es ∧ st2.stSize = st.stSize ∧
      readF st2 ofs buf.length = buf := by
  obtain ⟨st2, hloop, hnode, hss, hmf, hbd, hpt⟩ :=
    writeLoop_tree_byte es buf ofs buf.length st 0 hn (by omega) (by omega)
  refine ⟨st2, hloop, hnode, hss, ?_⟩
  have hsz2 : sizeOf st2 = sizeOf st := by
    unfold sizeOf
    rw [hss]
  unfold readF
  rw [readLoop_tree es buf.length st2 ofs buf.length hnode le_rfl
    (by rw [hsz2]; omega)]
  have hcong : ∀ i ∈ List.range buf.length,
      treeByte st2.wb es (ofs + i) = buf.getD i 0 := by
    intro i hi
    rw [List.mem_range] at hi
    rw [hpt (ofs + i), if_pos (by omega)]
    have he : ofs + i - ofs = i := by omega
    rw [he]
  rw [List.map_congr_left hcong]
  exact mapRange_getD buf


theorem maxEntry_mem : ∀ (es : List (Nat × Bytes)) (kn : Nat) (c : Bytes),
    maxEntry es = some (kn, c) → (kn, c) ∈ es := by
  intro es
  induction es with
  | nil =>
      intro kn c h
      simp [maxEntry] at h
  | cons p rest ih =>
      intro kn c h
      rcases p with ⟨k, v⟩
      unfold maxEntry at h
      rcases hm : maxEntry rest with _ | ⟨k2, v2⟩ <;> rw [hm] at h
      · cases h
        exact List.mem_cons_self _ _
      · dsimp only at h
        split at h
        · cases h
          exact List.mem_cons_of_mem _ (ih _ _ hm)
        · cases h
          exact List.mem_cons_self _ _

theorem killLoop_some : ∀ fuel (es : List (Nat × Bytes)) (size : Nat),
    es.length < fuel → ∃ es2, killLoop fuel es size = some es2 := by
  intro fuel
  induction fuel with
  | zero =>
      intro es size h
      omega
  | succ fuel ih =>
      intro es size h
      unfold killLoop
      rcases hm : maxEntry es with _ | ⟨kn, c⟩
      · exact ⟨es, rfl⟩
      · dsimp only
        split
        · apply ih
          have hmem := maxEntry_mem es kn c hm
          have hlen : (es.eraseP (fun p => p.1 == kn)).length =
              es.length - 1 :=
            List.length_eraseP_of_mem hmem (by simp)
          rw [hlen]
          have : 1 ≤ es.length := List.length_pos.mpr
            (List.ne_nil_of_mem hmem)
          omega
        · exact ⟨es, rfl⟩

theorem storedSizeF_total_ftree (st : FState) (es : List (Nat × Bytes))
    (h : st.node = FNode.ftree es) :
    ∃ st2 n, storedSizeF st = some (st2, n) := by
  rcases flushF_ftree st es h with ⟨st3, hf, ⟨es3, hn3⟩, _⟩
  unfold storedSizeF
  rw [hf]
  dsimp only
  rw [hn3]
  dsimp only
  rcases hme : maxEntry es3 with _ | ⟨kn, c⟩
  · exact ⟨st3, 0, rfl⟩
  · exact ⟨st3, kn * BSL + c.length, rfl⟩

theorem toTreeConvert_some (st : FState) :
    ∃ st2 n, toTreeConvert st = some (st2, n) := by
  rcases hnd : st.node with _ | c | es
  · unfold toTreeConvert
    rw [hnd]
    dsimp only
    rcases hw : _writeF { st with minifile := false, blockData := none, node := FNode.ftree [] } 0 (readF st 0 (sizeOf st)) 0 with ⟨st3, w⟩
    have hfr := _writeF_frame { st with minifile := false, blockData := none, node := FNode.ftree [] } 0 (readF st 0 (sizeOf st)) 0
    rw [hw] at hfr
    dsimp only at hfr
    exact storedSizeF_total_ftree st3 [] (hfr.2.2.2 [] rfl).1
  · unfold toTreeConvert
    rw [hnd]
    dsimp only
    rcases hw : _writeF { st with minifile := false, blockData := none, node := FNode.ftree [] } 0 (readF st 0 (sizeOf st)) 0 with ⟨st3, w⟩
    have hfr := _writeF_frame { st with minifile := false, blockData := none, node := FNode.ftree [] } 0 (readF st 0 (sizeOf st)) 0
    rw [hw] at hfr
    dsimp only at hfr
    exact storedSizeF_total_ftree st3 [] (hfr.2.2.2 [] rfl).1
  · exact ⟨st, sizeOf st, by unfold toTreeConvert; rw [hnd]⟩

theorem toBlockTree_some (st : FState) (size : Nat) (mz : Option Nat) :
    ∃ st2, toBlockTree st size mz = some st2 := by
  obtain ⟨st3, ssize, hc⟩ := toTreeConvert_some st
  obtain ⟨es3, hn3⟩ := toTreeConvert_ftree st st3 ssize hc
  unfold toBlockTree
  rw [hc]
  dsimp only
  have hshrink : ∃ st6 ssize2,
      (if size < ssize then
         match flushF st3 with
         | none => none
         | some st4 =>
             match st4.node with
             | FNode.ftree entries =>
                 match killLoop (entries.length + 1) entries size with
                 | none => none
                 | some entries2 =>
                     match (if (readF st4 (size - size % BSL)
                                (size % BSL)).length = 0 then
                              ({ st4 with node := FNode.ftree entries2 }, 0)
                            else
                              _writeF { st4 with node := FNode.ftree entries2 }
                                (size - size % BSL)
                                (readF st4 (size - size % BSL) (size % BSL))
                                0) with
                     | (st5, _) => storedSizeF st5
             | _ => none
       else some (st3, ssize)) = some (st6, ssize2) := by
    split
    · rcases flushF_ftree st3 es3 hn3 with ⟨st4, hf, ⟨es4, hn4⟩, _⟩
      rw [hf]
      dsimp only
      rw [hn4]
      dsimp only
      obtain ⟨es5, hk⟩ := killLoop_some (es4.length + 1) es4 size (by omega)
      rw [hk]
      dsimp only
      split
      · dsimp only
        exact storedSizeF_total_ftree _ es5 rfl
      · rcases hw : _writeF { st4 with node := FNode.ftree es5 }
            (size - size % BSL)
            (readF st4 (size - size % BSL) (size % BSL)) 0 with ⟨st5, w⟩
        have hfr := _writeF_frame { st4 with node := FNode.ftree es5 }
          (size - size % BSL) (readF st4 (size - size % BSL) (size % BSL)) 0
        rw [hw] at hfr
        dsimp only at hfr
        exact storedSizeF_total_ftree st5 es5 (hfr.2.2.2 es5 rfl).1
    · exact ⟨st3, ssize, rfl⟩
  obtain ⟨st6, ssize2, h6⟩ := hshrink
  rw [h6]
  dsimp only
  split
  · exact ⟨_, rfl⟩
  · exact ⟨st6, rfl⟩

theorem setSizeF_some (st : FState) (size o : Nat) :
    ∃ st2, setSizeF st size (some o) = some st2 := by
  unfold setSizeF
  by_cases heq : sizeOf st = size
  · exact ⟨st, by rw [if_pos heq]⟩
  rw [if_neg heq, if_neg (by simp : ¬(some o = none))]
  dsimp only
  by_cases hb : BSL < size
  · rw [if_pos hb]
    obtain ⟨st3, h3⟩ := toBlockTree_some st size (some o)
    rw [h3]
    dsimp only
    rw [if_pos (by simp [sizeOf])]
    exact ⟨_, rfl⟩
  · rw [if_neg hb]
    by_cases hib : IBL < size
    · rw [if_pos hib]
      unfold toBlockData
      dsimp only
      rw [if_pos (by simp [sizeOf])]
      exact ⟨_, rfl⟩
    · rw [if_neg hib]
      unfold toInternedData
      dsimp only
      rw [if_pos (by simp [sizeOf])]
      exact ⟨_, rfl⟩


theorem _readF_pad_nil_len (st : FState) (size : Nat)
    (hn : st.node = FNode.nil) : (_readF st 0 size true).length = size := by
  unfold _readF
  rw [hn]
  dsimp only
  rcases st.blockData with _ | bd <;>
    simp [Tfhfs.zeropad_bytes, Tfhfs.pySlice] <;> omega

theorem _readF_pad_fdata_len (st : FState) (c : Bytes) (size : Nat)
    (hn : st.node = FNode.fdata c) :
    (_readF st 0 size true).length = size := by
  unfold _readF
  rw [hn]
  simp [Tfhfs.zeropad_bytes, Tfhfs.pySlice]

/-- A growing `set_size` on the write path (`minimum_size` given, so no
flush) reaches the target size and preserves well-formedness. -/
theorem setSizeF_post (st : FState) (size o : Nat) (hwf : WF st)
    (hgrow : sizeOf st < size) (st2 : FState)
    (h : setSizeF st size (some o) = some st2) :
    sizeOf st2 = size ∧ WF st2 := by
  unfold setSizeF at h
  rw [if_neg (by omega), if_neg (by simp : ¬(some o = none))] at h
  dsimp only at h
  by_cases hb : BSL < size
  · rw [if_pos hb] at h
    rcases hbt : toBlockTree st size (some o) with _ | st3 <;> rw [hbt] at h
    · simp at h
    dsimp only at h
    rw [if_pos (by simp [sizeOf])] at h
    cases h
    obtain ⟨es, hn⟩ := toBlockTree_ftree st size (some o) st3 hbt
    refine ⟨by simp [sizeOf], ?_, ?_, ?_⟩
    · intro hnil
      simp only at hnil
      rw [hn] at hnil
      cases hnil
    · intro c hc
      simp only at hc
      rw [hn] at hc
      cases hc
    · intro es2 _
      simp [sizeOf]
      exact hb
  · rw [if_neg hb] at h
    have hrl : (_readF st 0 size true).length = size := by
      rcases hnd : st.node with _ | c | es
      · exact _readF_pad_nil_len st size hnd
      · exact _readF_pad_fdata_len st c size hnd
      · exact absurd (hwf.2.2 es hnd) (by omega)
    by_cases hib : IBL < size
    · rw [if_pos hib] at h
      unfold toBlockData at h
      dsimp only at h
      rw [if_pos (by simp [sizeOf])] at h
      cases h
      refine ⟨by simp [sizeOf], ?_, ?_, ?_⟩
      · intro hnil
        simp only at hnil
        cases hnil
      · intro c hc
        simp only at hc
        cases hc
        simp [sizeOf]
        exact hrl
      · intro es2 hes2
        simp only at hes2
        cases hes2
    · rw [if_neg hib] at h
      unfold toInternedData at h
      dsimp only at h
      rw [if_pos (by simp [sizeOf])] at h
      cases h
      refine ⟨by simp [sizeOf], ?_, ?_, ?_⟩
      · intro _
        simp [sizeOf]
        exact hrl
      · intro c hc
        simp only at hc
        cases hc
      · intro es2 hes2
        simp only at hes2
        cases hes2


/-- The write loop on any well-formed state keeps the size and
well-formedness and reads back the written bytes. -/
theorem loop_then_read (st3 : FState) (ofs : Nat) (buf : Bytes)
    (hwf3 : WF st3) (hb : ofs + buf.length ≤ sizeOf st3) :
    ∃ st4, writeLoop buf.length st3 ofs buf 0 = some (st4, buf.length) ∧
      sizeOf st4 = sizeOf st3 ∧ readF st4 ofs buf.length = buf ∧
      WF st4 := by
  rcases hnd : st3.node with _ | c | es
  · have hbdlen := hwf3.1 hnd
    rcases hbdo : st3.blockData with _ | bd
    · rw [hbdo] at hbdlen
      simp only [Option.getD_none, List.length_nil] at hbdlen
      have hbl : buf.length = 0 := by omega
      have hbuf : buf = [] := List.length_eq_zero.mp hbl
      refine ⟨st3, ?_, rfl, ?_, hwf3⟩
      · unfold writeLoop
        rw [if_neg (by omega), hbl]
      · rw [hbl]
        unfold readF
        rw [readLoop_zero, hbuf]
    · rw [hbdo] at hbdlen
      simp only [Option.getD_some] at hbdlen
      obtain ⟨st2, hloop, hn2, hss2, ⟨bd2, hbd2, hbl2⟩, hread⟩ :=
        nil_write_read st3 bd hnd hbdo ofs buf (by omega)
      have hs2 : sizeOf st2 = sizeOf st3 := by
        unfold sizeOf
        rw [hss2]
      refine ⟨st2, hloop, hs2, hread,
        ⟨fun _ => ?_, fun c hc => ?_, fun es2 hes2 => ?_⟩⟩
      · rw [hbd2]
        simp only [Option.getD_some]
        rw [hbl2, hbdlen, hs2]
      · rw [hn2] at hc
        cases hc
      · rw [hn2] at hes2
        cases hes2
  · have hclen := hwf3.2.1 c hnd
    obtain ⟨st2, hloop, ⟨c2, hn2, hcl2⟩, hss2, hread⟩ :=
      fdata_write_read st3 c hnd ofs buf (by omega)
    have hs2 : sizeOf st2 = sizeOf st3 := by
      unfold sizeOf
      rw [hss2]
    refine ⟨st2, hloop, hs2, hread,
      ⟨fun hnil => ?_, fun c3 hc3 => ?_, fun es2 hes2 => ?_⟩⟩
    · rw [hn2] at hnil
      cases hnil
    · rw [hn2] at hc3
      cases hc3
      rw [hcl2, hclen, hs2]
    · rw [hn2] at hes2
      cases hes2
  · have hbsl := hwf3.2.2 es hnd
    obtain ⟨st2, hloop, hn2, hss2, hread⟩ :=
      tree_write_read st3 es hnd ofs buf hb
    have hs2 : sizeOf st2 = sizeOf st3 := by
      unfold sizeOf
      rw [hss2]
    refine ⟨st2, hloop, hs2, hread,
      ⟨fun hnil => ?_, fun c3 hc3 => ?_,
       fun es2 _ => by rw [hs2]; exact hbsl⟩⟩
    · rw [hn2] at hnil
      cases hnil
    · rw [hn2] at hc3
      cases hc3


theorem _readF_mtime (st : FState) (a sz : Nat) (pb : Bool) :
    _readF (changedMtime st) a sz pb = _readF st a sz pb := by
  rcases st with ⟨bd, mf, szs, nd, wb, mt⟩
  rfl

theorem readLoop_mtime (st : FState) : ∀ fuel a sz,
    readLoop (changedMtime st) fuel a sz = readLoop st fuel a sz := by
  intro fuel
  induction fuel with
  | zero =>
      intro a sz
      rfl
  | succ fuel ih =>
      intro a sz
      unfold readLoop
      rw [_readF_mtime]
      by_cases h0 : sz = 0
      · rw [if_pos h0, if_pos h0]
      · rw [if_neg h0, if_neg h0]
        split
        · rfl
        · rw [ih]

theorem readF_mtime (st : FState) (a sz : Nat) :
    readF (changedMtime st) a sz = readF st a sz := by
  unfold readF
  rw [readLoop_mtime]

/-- A freshly created, empty file inode (write path). -/
def c1fresh : FState := ⟨none, false, none, FNode.nil, none, false⟩

/-- `c1fresh` after `write(0, b'foo')`. -/
def c1foo : FState :=
  ⟨some [102, 111, 111], false, some 3, FNode.nil, none, true⟩

/-- **C1.** On a well-formed linked file inode, `write(ofs, buf)`
always succeeds, returns `len(buf)`, leaves the file size at
`max(old_size, ofs + len(buf))` (so at least `ofs + len(buf)`), and a
subsequent `read(ofs, len(buf))` returns exactly `buf`; in particular
writing `b'foo'` at offset 0 of a fresh file yields `st_size = 3` and
`read(0, 100) = b'foo'`.  `changed_mtime`, called at the end of
`write`, is modelled from the spec (it is missing from this source
snapshot) as a pure mtime stamp. -/
theorem C1_write_returns_and_reads_back (st : FState) (ofs : Nat)
    (buf : Bytes) (hwf : WF st) :
    (∃ st2, writeF st ofs buf = some (st2, buf.length) ∧
       ofs + buf.length ≤ sizeOf st2 ∧
       sizeOf st2 = max (sizeOf st) (ofs + buf.length) ∧
       readF st2 ofs buf.length = buf ∧ WF st2) ∧
    writeF c1fresh 0 [102, 111, 111] = some (c1foo, 3) ∧
    c1foo.stSize = some 3 ∧
    readF c1foo 0 100 = [102, 111, 111] := by
  refine ⟨?_, rfl, rfl, rfl⟩
  unfold writeF
  by_cases hgrow : sizeOf st < ofs + buf.length
  · rw [if_pos hgrow]
    obtain ⟨st3, hss⟩ := setSizeF_some st (ofs + buf.length) ofs
    rw [hss]
    dsimp only
    obtain ⟨hsz3, hwf3⟩ :=
      setSizeF_post st (ofs + buf.length) ofs hwf hgrow st3 hss
    obtain ⟨st4, hloop, hs4, hread, hwf4⟩ :=
      loop_then_read st3 ofs buf hwf3 (by omega)
    rw [hloop]
    dsimp only
    refine ⟨changedMtime st4, rfl, ?_, ?_, ?_, hwf4⟩
    · show ofs + buf.length ≤ sizeOf st4
      omega
    · show sizeOf st4 = max (sizeOf st) (ofs + buf.length)
      rw [hs4, hsz3]
      omega
    · rw [readF_mtime]
      exact hread
  · rw [if_neg hgrow]
    dsimp only
    obtain ⟨st4, hloop, hs4, hread, hwf4⟩ :=
      loop_then_read st ofs buf hwf (by omega)
    rw [hloop]
    dsimp only
    refine ⟨changedMtime st4, rfl, ?_, ?_, ?_, hwf4⟩
    · show ofs + buf.length ≤ sizeOf st4
      omega
    · show sizeOf st4 = max (sizeOf st) (ofs + buf.length)
      rw [hs4]
      omega
    · rw [readF_mtime]
      exact hread

/-- Concrete instance: the foo scenario plus a general-write instance
at a 300-byte file, certified by `C1_write_returns_and_reads_back`. -/
theorem C1_write_returns_and_reads_back_witness :
    WF c1fresh ∧
    writeF c1fresh 0 [102, 111, 111] = some (c1foo, 3) ∧
    c1foo.stSize = some 3 ∧
    readF c1foo 0 100 = [102, 111, 111] ∧
    (∃ st2, writeF c1fresh 0 [102, 111, 111] =
       some (st2, ([102, 111, 111] : Bytes).length) ∧
       0 + ([102, 111, 111] : Bytes).length ≤ sizeOf st2 ∧
       sizeOf st2 = max (sizeOf c1fresh)
         (0 + ([102, 111, 111] : Bytes).length) ∧
       readF st2 0 ([102, 111, 111] : Bytes).length = [102, 111, 111] ∧
       WF st2) := by
  have hwf0 : WF c1fresh := by
    refine ⟨fun _ => rfl, fun c hc => ?_, fun es hes => ?_⟩
    · simp [c1fresh] at hc
    · simp [c1fresh] at hes
  have h := C1_write_returns_and_reads_back c1fresh 0 [102, 111, 111] hwf0
  exact ⟨hwf0, h.2.1, h.2.2.1, h.2.2.2, h.1⟩


end Tfhfs.FFile

namespace Tfhfs.Merge

/-- A directory leaf (`DirectoryEntry`, `forest_nodes.py`): its btree
key (with a fixed config the key determines the name and vice versa,
so one field stands for both), `st_mtime_ns` from the direntry data,
its `block_id`, the rest of the pickled internal data (`is_same`
compares `block_id` plus the sorted internal dict items), and the
`S_ISDIR` bit of its mode. -/
structure MLeaf where
  name : Nat
  mtimeNs : Nat
  blockId : Nat
  content : Nat
  isDir : Bool
deriving DecidableEq, Repr

/-- `DirectoryEntry.is_same`. -/
def is_same (a b : MLeaf) : Bool :=
  a.blockId == b.blockId && a.content == b.content

/-- `DirectoryEntry.is_newer_than`. -/
def is_newer_than (a b : MLeaf) : Bool := b.mtimeNs < a.mtimeNs

/-- `node.search_name` on a directory's leaves. -/
def searchName : List MLeaf → Nat → Option MLeaf
  | [], _ => none
  | l :: rest, n => if l.name == n then some l else searchName rest n

/-- `remove_child` / `remove_from_tree` of a named leaf. -/
def eraseName (d : List MLeaf) (n : Nat) : List MLeaf :=
  d.eraseP (fun l => l.name == n)

/-- `add_to_tree`: keyed insert. -/
def addLeaf : List MLeaf → MLeaf → List MLeaf
  | [], l => [l]
  | x :: rest, l =>
      if l.name < x.name then l :: x :: rest else x :: addLeaf rest l

/-- The mutable state of `Forest.merge3_dir_inode`: the local
directory's leaves, the remote (`new_other`) directory's leaves
(`none` after the unchanged-directory branch steals the whole node via
`new_inode.set_node(None)`), the ancestor (`old_other`) directory's
leaves if any, the `seen` key set and the running `delta`. -/
structure M2St where
  loc : List MLeaf
  remote : Option (List MLeaf)
  anc : Option (List MLeaf)
  seen : List Nat
  delta : Nat
deriving DecidableEq, Repr

/-- `_handle(l, None)`: `self.unlink(inode, l.name)` then return. -/
def handleRemove (l : MLeaf) (st : M2St) : M2St :=
  { st with loc := eraseName st.loc l.name }

/-- `_handle(None, nl)`: `new_inode.node.remove_from_tree(nl)`,
`inode.add_node_to_tree(nl)`, `nl.set_forest_rec(self)` (the last only
re-ties block-id references, leaving both trees' shapes alone). -/
def handleAdd (nl : MLeaf) (st : M2St) : M2St :=
  { st with loc := addLeaf st.loc nl,
            remote := st.remote.map (fun d => eraseName d nl.name) }

/-- The first loop of `merge3_dir_inode`, over a snapshot of the local
leaves.  `_handle(l, l2)` with both sides present calls
`l.set_forest_rec(None)`, and `NamedLeafNode.set_forest_rec` begins
with `assert forest` — that path raises, hence `none`; the dir-dir
case recurses into subdirectories and is outside this single-level
embedding, also `none`. -/
def phase1 : List MLeaf → M2St → Option M2St
  | [], st => some st
  | l :: rest, st =>
      match searchName (st.remote.getD []) l.name with
      | none =>
          match st.anc.bind (fun a => searchName a l.name) with
          | some l3 =>
              if is_newer_than l l3 then
                phase1 rest { st with seen := l.name :: st.seen,
                                      delta := st.delta + 1 }
              else
                phase1 rest
                  (handleRemove l { st with seen := l.name :: st.seen })
          | none =>
              phase1 rest { st with seen := l.name :: st.seen,
                                    delta := st.delta + 1 }
      | some l2 =>
          if is_same l l2 then
            phase1 rest { st with seen := l.name :: st.seen }
          else if l.isDir && l2.isDir then none
          else if is_newer_than l2 l then none
          else
            phase1 rest { st with seen := l.name :: st.seen,
                                  delta := st.delta + 1 }

/-- The second loop, over a snapshot of the remote leaves (taken after
the first loop, matching `list(new_inode.node.get_leaves())`). -/
def phase2 : List MLeaf → M2St → M2St
  | [], st => st
  | l2 :: rest, st =>
      if st.seen.contains l2.name then phase2 rest st
      else
        match st.anc.bind (fun a => searchName a l2.name) with
        | some _ => phase2 rest { st with delta := st.delta + 1 }
        | none => phase2 rest (handleAdd l2 st)

/-- The `if not delta` epilogue on the directory entries themselves:
when the remote direntry differs and is newer, the remote node is
adopted wholesale (`new_inode.set_node(None)`; `inode.set_node(node)`);
otherwise the remote is merely expected to catch up. -/
def phase3 (ldirent rdirent : MLeaf) (st : M2St) : M2St :=
  if st.delta == 0 then
    if is_same ldirent rdirent then st
    else if is_newer_than rdirent ldirent then
      { st with loc := st.remote.getD [], remote := none }
    else { st with delta := st.delta + 1 }
  else st

/-- `Forest.merge3` on single-level root directories: run the three
stages from a fresh state. -/
def merge3F (ldirent rdirent : MLeaf) (loc remote : List MLeaf)
    (anc : Option (List MLeaf)) : Option M2St :=
  match phase1 loc ⟨loc, some remote, anc, [], 0⟩ with
  | none => none
  | some st1 => some (phase3 ldirent rdirent (phase2 (st1.remote.getD []) st1))


/-- `res.remote` only keeps leaves that were already in `st.remote`
(or vanishes entirely). -/
def remSub (r2 r : Option (List MLeaf)) : Prop :=
  ∀ l d2, r2 = some d2 → l ∈ d2 → ∃ d, r = some d ∧ l ∈ d

theorem remSub_refl (r : Option (List MLeaf)) : remSub r r :=
  fun l d2 h hl => ⟨d2, h, hl⟩

theorem remSub_trans {a b c : Option (List MLeaf)} (hbc : remSub b c)
    (hab : remSub a b) : remSub a c := by
  intro l d2 h hl
  obtain ⟨d3, hb, hl3⟩ := hab l d2 h hl
  exact hbc l d3 hb hl3

theorem mem_eraseName (d : List MLeaf) (n : Nat) (l : MLeaf)
    (h : l ∈ eraseName d n) : l ∈ d :=
  List.Sublist.subset (List.eraseP_sublist d) h

theorem phase1_frame : ∀ (ls : List MLeaf) (st st2 : M2St),
    phase1 ls st = some st2 → st2.anc = st.anc ∧ st2.remote = st.remote := by
  intro ls
  induction ls with
  | nil =>
      intro st st2 h
      cases h
      exact ⟨rfl, rfl⟩
  | cons l rest ih =>
      intro st st2 h
      unfold phase1 at h
      split at h
      · split at h
        · split at h
          · have hrec := ih _ _ h
            exact hrec
          · have hrec := ih _ _ h
            exact hrec
        · have hrec := ih _ _ h
          exact hrec
      · split at h
        · have hrec := ih _ _ h
          exact hrec
        · split at h
          · cases h
          · split at h
            · cases h
            · have hrec := ih _ _ h
              exact hrec

theorem phase2_frame : ∀ (ls : List MLeaf) (st : M2St),
    (phase2 ls st).anc = st.anc ∧ remSub (phase2 ls st).remote st.remote := by
  intro ls
  induction ls with
  | nil =>
      intro st
      exact ⟨rfl, remSub_refl _⟩
  | cons l2 rest ih =>
      intro st
      unfold phase2
      split
      · exact ih st
      · split
        · exact ih _
        · refine ⟨(ih (handleAdd l2 st)).1, remSub_trans ?_ (ih _).2⟩
          intro l d2 h hl
          unfold handleAdd at h
          dsimp only at h
          rcases hrem : st.remote with _ | d
          · rw [hrem] at h
            cases h
          · rw [hrem] at h
            simp only [Option.map_some'] at h
            cases h
            exact ⟨d, rfl, mem_eraseName d l2.name l hl⟩

theorem phase3_frame (a b : MLeaf) (st : M2St) :
    (phase3 a b st).anc = st.anc ∧ remSub (phase3 a b st).remote st.remote := by
  unfold phase3
  split
  · split
    · exact ⟨rfl, remSub_refl _⟩
    · split
      · refine ⟨rfl, ?_⟩
        intro l d2 h hl
        cases h
      · exact ⟨rfl, remSub_refl _⟩
  · exact ⟨rfl, remSub_refl _⟩

/-- The merge mutates the ancestor forest nowhere, and the remote tree
only ever loses leaves. -/
theorem merge3F_frame (ldirent rdirent : MLeaf) (loc remote : List MLeaf)
    (anc : Option (List MLeaf)) (res : M2St)
    (h : merge3F ldirent rdirent loc remote anc = some res) :
    res.anc = anc ∧ ∀ l d, res.remote = some d → l ∈ d → l ∈ remote := by
  unfold merge3F at h
  rcases h1 : phase1 loc ⟨loc, some remote, anc, [], 0⟩ with _ | st1 <;>
    rw [h1] at h
  · cases h
  dsimp only at h
  cases h
  obtain ⟨ha1, hr1⟩ := phase1_frame loc _ st1 h1
  obtain ⟨ha2, hr2⟩ := phase2_frame (st1.remote.getD []) st1
  obtain ⟨ha3, hr3⟩ := phase3_frame ldirent rdirent
    (phase2 (st1.remote.getD []) st1)
  constructor
  · rw [ha3, ha2, ha1]
  · intro l d hd hl
    have hsub : remSub
        (phase3 ldirent rdirent (phase2 (st1.remote.getD []) st1)).remote
        st1.remote := remSub_trans hr2 hr3
    obtain ⟨d2, hd2, hl2⟩ := hsub l d hd hl
    rw [hr1] at hd2
    cases hd2
    exact hl2


/-- A file leaf present only in the remote tree. -/
def c2a : MLeaf := ⟨1, 10, 100, 0, false⟩

/-- A leaf present identically on both sides (`is_same` holds). -/
def c2s : MLeaf := ⟨2, 7, 50, 4, false⟩

/-- The two root direntries, identical (`is_same` holds, so the
node-stealing epilogue stays quiet). -/
def c2d : MLeaf := ⟨0, 0, 1, 0, true⟩

/-- **C2, counterexample.** Merging a remote directory holding one new
leaf into an empty local directory adopts the leaf: `_handle(None, l2)`
runs `new_inode.node.remove_from_tree(nl)`, so afterwards the remote
(`new_other`) tree has lost the leaf — it is not unchanged as claimed;
only the ancestor is. -/
theorem C2_merge3_readonly_counterexample :
    merge3F c2d c2d [] [c2a] none =
      some ⟨[c2a], some [], none, [], 0⟩ ∧
    ((some [] : Option (List MLeaf)) ≠ some [c2a]) :=
  ⟨rfl, by decide⟩

/-- **C2, amended.** `merge3` (single-level directories; the dir-dir
recursion and the crashing replace path are outside the embedding and
return `none`) never touches the ancestor (`old_other`) tree, and the
remote (`new_other`) tree is mutated only by removals: every leaf it
still holds afterwards was there before — adopted leaves are moved
out of it, and the unchanged-directory epilogue may detach its node
entirely. -/
theorem C2_merge3_local_only (ldirent rdirent : MLeaf)
    (loc remote : List MLeaf) (anc : Option (List MLeaf)) (res : M2St)
    (h : merge3F ldirent rdirent loc remote anc = some res) :
    res.anc = anc ∧ ∀ l d, res.remote = some d → l ∈ d → l ∈ remote :=
  merge3F_frame ldirent rdirent loc remote anc res h

/-- The result of merging `[c2s, c2a]` into `[c2s]`. -/
def c2res : M2St := ⟨[c2a, c2s], some [c2s], none, [2], 0⟩

/-- Concrete instance of the amended frame property, certified by
`C2_merge3_local_only`: the ancestor stays `none` and the leaf the
remote tree retains was one of its original leaves. -/
theorem C2_merge3_local_only_witness :
    merge3F c2d c2d [c2s] [c2s, c2a] none = some c2res ∧
    c2res.anc = none ∧
    (c2res.remote = some [c2s] → c2s ∈ [c2s] → c2s ∈ [c2s, c2a]) := by
  have heq : merge3F c2d c2d [c2s] [c2s, c2a] none = some c2res := rfl
  have h := C2_merge3_local_only c2d c2d [c2s] [c2s, c2a] none c2res heq
  exact ⟨heq, h.1, fun hd hl => h.2 c2s [c2s] hd hl⟩

end Tfhfs.Merge
